import Mathlib

/-!
Joins: block-nested-loop, index-nested-loop and sort-merge equi-joins.

A shallow embedding of `BlockNestedLoops::Execute`, `IndexNestedLoops::Execute`
and `SortMerge::Execute` (files `BlockNestedLoops.cpp`, `IndexNestedLoops.cpp`,
`SortMerge.cpp`).

The three functions are written against a storage layer (`HeapFile`, `Scan`,
`BTreeFile`, `BTreeFileScan`) and the helpers of `JoinMethod`, whose code is
not part of the three files.  They are modelled here from the
specification: a heap file is a list of records, a record id is the position
of the record in its file, a scan is a file together with the position of the
next record to return.  Every storage call whose status the C++ code can
observe has a fault switch, so that the failure paths of the code can be
exercised.

`while` loops are embedded as functions recursive on a fuel argument; they
return `none` when the fuel runs out.  The theorems about whole runs hold for
every fuel beyond the number of left tuples plus the number of right tuples.

Uninitialised buffers and ids (`new char[n]`, a `RecordID` without
initialiser) read as the empty record and as 0.
-/

namespace Joins

/-! ## Storage model -/

/-- Status codes returned by storage calls: `OK`, `DONE` (end of a scan) and
`FAIL` (standing for every other code). -/
inductive Status where
  | OK
  | DONE
  | FAIL
  deriving DecidableEq

/-- A record is a sequence of bytes (each taken modulo 256 when read). -/
abbrev Record := List Nat

/-- A record id: the position of the record in its heap file. -/
abbrev RecordID := Nat

/-- A B+ tree key: a character string. -/
abbrev Key := List Char

/-- The C++ expression `*(int*)(rec + offset)`: the four bytes at `offset`,
little endian, read as a signed 32-bit integer.  Bytes past the end of the
record read as zero. -/
def readInt (rec : Record) (offset : Nat) : Int :=
  let u := rec.getD offset 0 % 256 + 256 * (rec.getD (offset + 1) 0 % 256)
    + 65536 * (rec.getD (offset + 2) 0 % 256) + 16777216 * (rec.getD (offset + 3) 0 % 256)
  if u < 2147483648 then (u : Int) else (u : Int) - 4294967296

/-- Modelled from the spec: the relation handle `HeapFile` (its class is not
among the three source files).  `recs` are the tuples in scan order,
`openSt` the status `OpenScan` reports, `scanFaults` the positions at which
a cursor read reports an error, `fetchFaults` the ids for which `GetRecord`
reports an error. -/
structure HeapFile where
  recs : List Record
  openSt : Status
  scanFaults : List RecordID
  fetchFaults : List RecordID
  deriving DecidableEq

/-- Modelled from the spec: the cursor `Scan` (not among the three source
files): a forward iterator that can be repositioned to an id.  `currRid` is
the id of the next record the scan returns. -/
structure Scan where
  file : HeapFile
  currRid : RecordID
  deriving DecidableEq

/-- What one call of `Scan::GetNext(rid, recPtr, recLen)` leaves behind: the
returned status, the contents of the two output arguments and the scan. -/
structure Fetched where
  status : Status
  rid : RecordID
  recPtr : Record
  scan : Scan
  deriving DecidableEq

/-- Modelled from the spec: `HeapFile::OpenScan(status)`, a cursor placed on
the first tuple. -/
def HeapFile.OpenScan (f : HeapFile) : Status × Scan :=
  (f.openSt, { file := f, currRid := 0 })

/-- Modelled from the spec: `Scan::GetNext(rid, recPtr, recLen)`.  On `OK`
the id and the tuple are written to the output arguments and the cursor moves
on; on `DONE` and on an error the output arguments and the cursor keep their
values. -/
def Scan.GetNext (s : Scan) (rid : RecordID) (rec : Record) : Fetched :=
  if s.currRid ∈ s.file.scanFaults then
    { status := Status.FAIL, rid := rid, recPtr := rec, scan := s }
  else
    match s.file.recs.get? s.currRid with
    | some r => { status := Status.OK, rid := s.currRid, recPtr := r,
                  scan := { s with currRid := s.currRid + 1 } }
    | none => { status := Status.DONE, rid := rid, recPtr := rec, scan := s }

/-- Modelled from the spec: `Scan::MoveTo(rid)`; the next `GetNext` returns
the tuple at `rid`. -/
def Scan.MoveTo (s : Scan) (rid : RecordID) : Scan :=
  { s with currRid := rid }

/-- Modelled from the spec: `HeapFile::GetRecord(rid, recPtr, recLen)`, the
fetch of a tuple by id.  On an error the buffer keeps its contents. -/
def HeapFile.GetRecord (f : HeapFile) (rid : RecordID) (rec : Record) : Status × Record :=
  if rid ∈ f.fetchFaults then (Status.FAIL, rec)
  else
    match f.recs.get? rid with
    | some r => (Status.OK, r)
    | none => (Status.FAIL, rec)

/-- Modelled from the spec: `JoinSpec` (declared in `join.h`, not among the
three source files): the relation, the tuple length and the offset of the
join attribute. -/
structure JoinSpec where
  file : HeapFile
  recLen : Nat
  offset : Nat
  deriving DecidableEq

/-- Everything a run depends on besides the two input relations: the
status of `new HeapFile(NULL, st)`, the inserts into the output file that
report an error (by number, counted from 0), the status of
`new BTreeFile(...)`, the index inserts that report an error (by number), the
ids at which an index scan reports an error, the key encoder
`JoinMethod::toString` and the sorter `JoinMethod::SortHeapFile` (neither is
among the three source files; they are parameters). -/
structure Env where
  newHeapSt : Status
  insertFaults : List Nat
  newTreeSt : Status
  treeInsertFaults : List Nat
  treeScanFaults : List RecordID
  toString : Int → Key
  SortHeapFile : HeapFile → Nat → Nat → HeapFile

/-- Modelled from the spec: `HeapFile::InsertRecord` on the output file
`tmpHeap`, whose contents are the list `heap`. -/
def InsertRecord (env : Env) (heap : List Record) (rec : Record) : Status × List Record :=
  if heap.length ∈ env.insertFaults then (Status.FAIL, heap)
  else (Status.OK, heap ++ [rec])

/-- Modelled from the spec: `JoinMethod::MakeNewRecord(newRec, leftRec,
rightRec, left, right)` (in `join.cpp`, not among the three source files):
the left bytes followed by the right bytes. -/
def MakeNewRecord (leftRec rightRec : Record) (_left _right : JoinSpec) : Record :=
  leftRec ++ rightRec

/-- How a loop or a loop body hands control back: `next` goes on with the
following statement, `brk` is a `break` out of the enclosing loop, `abort` is
`return FAIL`. -/
inductive Ctl (σ : Type) where
  | next (s : σ)
  | brk (s : σ)
  | abort (s : σ)
  deriving DecidableEq

/-- What `Execute` leaves behind: the returned status, `out.file` (`none`
while it still holds the value it had after `JoinMethod::Execute`, `some h`
once `tmpHeap` with contents `h` was assigned to it), the contents of
`tmpHeap` at the return, and counters: reads issued on the left scan and the
number of times the right scan ran to `DONE` (both kept by the
block-nested-loop join only), calls of `BTreeFile::DestroyFile`. -/
structure JoinResult where
  status : Status
  outFile : Option (List Record)
  heap : List Record
  leftReads : Nat
  rightPasses : Nat
  destroyCalls : Nat
  deriving DecidableEq

/-! ## The equi-join, as the specification words it -/

/-- The equi-join of two relations: every concatenation `l ++ r` with `l` in
left, `r` in right and equal join attributes (listed left-major). -/
def equiJoin (left right : JoinSpec) (L R : List Record) : List Record :=
  L.flatMap fun l =>
    (R.filter fun r => decide (readInt l left.offset = readInt r right.offset)).map
      fun r => MakeNewRecord l r left right

/-! ## BlockNestedLoops.cpp -/

/-- The local variables of `BlockNestedLoops::Execute`.  `block` holds the
`recordsInBlock` records copied into the block array. -/
structure BNLState where
  leftScan : Scan
  rightScan : Scan
  block : List Record
  leftStatus : Status
  rightStatus : Status
  leftRec : Record
  rightRec : Record
  heap : List Record
  leftReads : Nat
  rightPasses : Nat
  deriving DecidableEq

/-- Lines 63-72: `while (recordsInBlock < blockSize)`, the block fill. -/
def fillBlock (blockSize : Nat) : Nat → BNLState → Option (Ctl BNLState)
  | 0, _ => none
  | fuel + 1, s =>
    if s.block.length < blockSize then
      let g := s.leftScan.GetNext 0 s.leftRec
      let s1 := { s with leftStatus := g.status, leftScan := g.scan, leftRec := g.recPtr,
                         leftReads := s.leftReads + 1 }
      if g.status = Status.OK then
        fillBlock blockSize fuel { s1 with block := s1.block ++ [g.recPtr] }
      else if g.status = Status.DONE then some (Ctl.next s1)
      else some (Ctl.abort s1)
    else some (Ctl.next s)

/-- Lines 84-103: `for (index = 0; index < recordsInBlock; index++)`, the
comparison of one right record with every record of the block.  The result
is `true` when the loop ran to its end and `false` on `return FAIL`. -/
def matchBlock (env : Env) (left right : JoinSpec) (rightRec : Record) :
    List Record → List Record → Bool × List Record
  | [], heap => (true, heap)
  | leftRec :: rest, heap =>
    if readInt leftRec left.offset = readInt rightRec right.offset then
      let ins := InsertRecord env heap (MakeNewRecord leftRec rightRec left right)
      if ins.1 ≠ Status.OK then (false, ins.2)
      else matchBlock env left right rightRec rest ins.2
    else matchBlock env left right rightRec rest heap

/-- Lines 77-104: the inner `while (true)`, one pass over the right scan. -/
def scanRight (env : Env) (left right : JoinSpec) : Nat → BNLState → Option (Ctl BNLState)
  | 0, _ => none
  | fuel + 1, s =>
    let g := s.rightScan.GetNext 0 s.rightRec
    let s1 := { s with rightStatus := g.status, rightScan := g.scan, rightRec := g.recPtr }
    if g.status = Status.DONE then some (Ctl.next { s1 with rightPasses := s1.rightPasses + 1 })
    else if g.status ≠ Status.OK then some (Ctl.abort s1)
    else
      let m := matchBlock env left right g.recPtr s1.block s1.heap
      if m.1 then scanRight env left right fuel { s1 with heap := m.2 }
      else some (Ctl.abort { s1 with heap := m.2 })

/-- Lines 61-111: the outer `while (true)`.  `n` is the fuel handed to the
two inner loops. -/
def blockLoop (env : Env) (blockSize : Nat) (left right : JoinSpec)
    (firstRightScanRid : RecordID) (n : Nat) : Nat → BNLState → Option (Ctl BNLState)
  | 0, _ => none
  | fuel + 1, s =>
    match fillBlock blockSize n s with
    | none => none
    | some (Ctl.abort s1) => some (Ctl.abort s1)
    | some (Ctl.brk s1) => some (Ctl.brk s1)
    | some (Ctl.next s1) =>
      match scanRight env left right n { s1 with rightRec := [] } with
      | none => none
      | some (Ctl.abort s2) => some (Ctl.abort s2)
      | some (Ctl.brk s2) => some (Ctl.brk s2)
      | some (Ctl.next s2) =>
        if s2.leftStatus = Status.DONE then some (Ctl.next s2)
        else
          blockLoop env blockSize left right firstRightScanRid n fuel
            { s2 with rightScan := s2.rightScan.MoveTo firstRightScanRid, block := [] }

/-- The result of a `return FAIL`: `out.file` was not assigned. -/
def failed (heap : List Record) (leftReads rightPasses : Nat) : JoinResult :=
  { status := Status.FAIL, outFile := none, heap := heap, leftReads := leftReads,
    rightPasses := rightPasses, destroyCalls := 0 }

/-- The function `BlockNestedLoops::Execute(left, right, out)`, lines 20-121,
for the member `blockSize`. -/
def BlockNestedLoops.Execute (env : Env) (blockSize : Nat) (fuel : Nat)
    (left right : JoinSpec) : Option JoinResult :=
  if env.newHeapSt ≠ Status.OK then some (failed [] 0 0)
  else
    let lo := left.file.OpenScan
    if lo.1 ≠ Status.OK then some (failed [] 0 0)
    else
      let ro := right.file.OpenScan
      if ro.1 ≠ Status.OK then some (failed [] 0 0)
      else
        let firstRightScanRid := ro.2.currRid
        let s0 : BNLState :=
          { leftScan := lo.2, rightScan := ro.2, block := [], leftStatus := Status.DONE,
            rightStatus := ro.1, leftRec := [], rightRec := [], heap := [],
            leftReads := 0, rightPasses := 0 }
        match blockLoop env blockSize left right firstRightScanRid fuel fuel s0 with
        | none => none
        | some (Ctl.next s) =>
          some { status := Status.OK, outFile := some s.heap, heap := s.heap,
                 leftReads := s.leftReads, rightPasses := s.rightPasses, destroyCalls := 0 }
        | some (Ctl.brk s) => some (failed s.heap s.leftReads s.rightPasses)
        | some (Ctl.abort s) => some (failed s.heap s.leftReads s.rightPasses)

/-! ## IndexNestedLoops.cpp -/

/-- Modelled from the spec: the ephemeral index `BTreeFile` (not among the
three source files): the entries `(key, id)` in insertion order, several
entries may share a key; `destroyed` counts the calls of `DestroyFile`. -/
structure BTreeFile where
  entries : List (Key × RecordID)
  destroyed : Nat
  deriving DecidableEq

/-- Modelled from the spec: the iterator `BTreeFileScan` a range scan
returns: the ids still to be returned. -/
structure BTreeFileScan where
  pending : List RecordID
  deriving DecidableEq

/-- What one call of `BTreeFileScan::GetNext(rid, key)` leaves behind. -/
structure Probed where
  status : Status
  rid : RecordID
  scan : BTreeFileScan
  deriving DecidableEq

/-- Modelled from the spec: `BTreeFile::Insert(key, rid)`. -/
def BTreeFile.Insert (env : Env) (t : BTreeFile) (key : Key) (rid : RecordID) :
    Status × BTreeFile :=
  if t.entries.length ∈ env.treeInsertFaults then (Status.FAIL, t)
  else (Status.OK, { t with entries := t.entries ++ [(key, rid)] })

/-- Modelled from the spec: `BTreeFile::OpenScan(lowKey, highKey)`, the
range scan over the entries whose key lies between the two bounds. -/
def BTreeFile.OpenScan (t : BTreeFile) (lowKey highKey : Key) : BTreeFileScan :=
  { pending := (t.entries.filter fun e => decide (lowKey ≤ e.1 ∧ e.1 ≤ highKey)).map Prod.snd }

/-- Modelled from the spec: `BTreeFileScan::GetNext(rid, key)`. -/
def BTreeFileScan.GetNext (env : Env) (sc : BTreeFileScan) (rid : RecordID) : Probed :=
  match sc.pending with
  | [] => { status := Status.DONE, rid := rid, scan := sc }
  | r :: rest =>
    if r ∈ env.treeScanFaults then { status := Status.FAIL, rid := rid, scan := sc }
    else { status := Status.OK, rid := r, scan := { pending := rest } }

/-- Modelled from the spec: `BTreeFile::DestroyFile()`. -/
def BTreeFile.DestroyFile (t : BTreeFile) : BTreeFile :=
  { t with destroyed := t.destroyed + 1 }

/-- The local variables of `IndexNestedLoops::Execute`. -/
structure INLState where
  leftScan : Scan
  rightScan : Scan
  tree : BTreeFile
  leftStatus : Status
  rightStatus : Status
  leftRec : Record
  rightRec : Record
  leftKey : Key
  rightKey : Key
  heap : List Record
  deriving DecidableEq

/-- Lines 63-75: the first `while (true)`, which puts every record of the
right relation into the index. -/
def buildIndex (env : Env) (right : JoinSpec) : Nat → INLState → Option (Ctl INLState)
  | 0, _ => none
  | fuel + 1, s =>
    let g := s.rightScan.GetNext 0 s.rightRec
    let s1 := { s with rightStatus := g.status, rightScan := g.scan, rightRec := g.recPtr }
    if g.status = Status.DONE then some (Ctl.next s1)
    else if g.status ≠ Status.OK then some (Ctl.abort s1)
    else
      let s2 := { s1 with rightKey := env.toString (readInt s1.rightRec right.offset) }
      let ins := s2.tree.Insert env s2.rightKey g.rid
      if ins.1 ≠ Status.OK then some (Ctl.abort { s2 with tree := ins.2 })
      else buildIndex env right fuel { s2 with tree := ins.2 }

/-- Lines 93-113: the `while (true)` over one index scan.  The status of
`right.file->GetRecord` (line 100) is not looked at. -/
def probeLoop (env : Env) (left right : JoinSpec) :
    Nat → BTreeFileScan → INLState → Option (Ctl INLState)
  | 0, _, _ => none
  | fuel + 1, btScan, s =>
    let b := btScan.GetNext env 0
    if b.status = Status.DONE then some (Ctl.next s)
    else if b.status ≠ Status.OK then some (Ctl.abort s)
    else
      let s1 := { s with rightRec := (right.file.GetRecord b.rid s.rightRec).2 }
      let ins := InsertRecord env s1.heap (MakeNewRecord s1.leftRec s1.rightRec left right)
      if ins.1 ≠ Status.OK then some (Ctl.abort { s1 with heap := ins.2 })
      else probeLoop env left right fuel b.scan { s1 with heap := ins.2 }

/-- Lines 80-114: the second `while (true)`, which probes the index with
every record of the left relation.  `n` is the fuel handed to the inner
loop. -/
def probeAll (env : Env) (left right : JoinSpec) (n : Nat) :
    Nat → INLState → Option (Ctl INLState)
  | 0, _ => none
  | fuel + 1, s =>
    let g := s.leftScan.GetNext 0 s.leftRec
    let s1 := { s with leftStatus := g.status, leftScan := g.scan, leftRec := g.recPtr }
    if g.status = Status.DONE then some (Ctl.next s1)
    else if g.status ≠ Status.OK then some (Ctl.abort s1)
    else
      let s2 := { s1 with leftKey := env.toString (readInt s1.leftRec left.offset) }
      match probeLoop env left right n (s2.tree.OpenScan s2.leftKey s2.leftKey) s2 with
      | none => none
      | some (Ctl.abort s3) => some (Ctl.abort s3)
      | some (Ctl.brk s3) => some (Ctl.brk s3)
      | some (Ctl.next s3) => probeAll env left right n fuel s3

/-- The result of a `return FAIL` of `IndexNestedLoops::Execute` after the
index was created. -/
def INLState.failed (s : INLState) : JoinResult :=
  { status := Status.FAIL, outFile := none, heap := s.heap, leftReads := 0, rightPasses := 0,
    destroyCalls := s.tree.destroyed }

/-- The function `IndexNestedLoops::Execute(left, right, out)`, lines
25-131. -/
def IndexNestedLoops.Execute (env : Env) (fuel : Nat) (left right : JoinSpec) :
    Option JoinResult :=
  if env.newHeapSt ≠ Status.OK then some (failed [] 0 0)
  else
    let lo := left.file.OpenScan
    if lo.1 ≠ Status.OK then some (failed [] 0 0)
    else
      let ro := right.file.OpenScan
      if ro.1 ≠ Status.OK then some (failed [] 0 0)
      else if env.newTreeSt ≠ Status.OK then some (failed [] 0 0)
      else
        let s0 : INLState :=
          { leftScan := lo.2, rightScan := ro.2, tree := { entries := [], destroyed := 0 },
            leftStatus := lo.1, rightStatus := ro.1, leftRec := [], rightRec := [],
            leftKey := [], rightKey := [], heap := [] }
        match buildIndex env right fuel s0 with
        | none => none
        | some (Ctl.abort s1) => some s1.failed
        | some (Ctl.brk s1) => some s1.failed
        | some (Ctl.next s1) =>
          match probeAll env left right fuel fuel s1 with
          | none => none
          | some (Ctl.abort s2) => some s2.failed
          | some (Ctl.brk s2) => some s2.failed
          | some (Ctl.next s2) =>
            some { status := Status.OK, outFile := some s2.heap, heap := s2.heap,
                   leftReads := 0, rightPasses := 0,
                   destroyCalls := s2.tree.DestroyFile.destroyed }

/-! ## SortMerge.cpp -/

/-- The local variables of `SortMerge::Execute`: the scans `S` (`leftScan`),
`T` (`rightScan`) and `G` (`rightGScan`) over the sorted copies, with the
status, id and buffer each of them was last read into.  The two pointers
`leftJoinValPtr` and `rightGJoinValPtr` always point into `leftRec` and
`rightGRec`, so they are read as `readInt` of these buffers. -/
structure SMState where
  leftScan : Scan
  rightScan : Scan
  rightGScan : Scan
  leftStatus : Status
  rightStatus : Status
  rightGStatus : Status
  leftRid : RecordID
  rightRid : RecordID
  rightGRid : RecordID
  leftRec : Record
  rightRec : Record
  rightGRec : Record
  heap : List Record
  deriving DecidableEq

/-- Lines 71-76: `while (*leftJoinValPtr < *rightGJoinValPtr)`. -/
def advanceLeft (left right : JoinSpec) : Nat → SMState → Option (Ctl SMState)
  | 0, _ => none
  | fuel + 1, s =>
    if readInt s.leftRec left.offset < readInt s.rightGRec right.offset then
      let g := s.leftScan.GetNext s.leftRid s.leftRec
      let s1 := { s with leftStatus := g.status, leftRid := g.rid, leftRec := g.recPtr,
                         leftScan := g.scan }
      if g.status = Status.DONE then some (Ctl.next s1)
      else if g.status ≠ Status.OK then some (Ctl.abort s1)
      else advanceLeft left right fuel s1
    else some (Ctl.next s)

/-- Lines 81-86: `while (*leftJoinValPtr > *rightGJoinValPtr)`. -/
def advanceG (left right : JoinSpec) : Nat → SMState → Option (Ctl SMState)
  | 0, _ => none
  | fuel + 1, s =>
    if readInt s.leftRec left.offset > readInt s.rightGRec right.offset then
      let g := s.rightGScan.GetNext s.rightGRid s.rightGRec
      let s1 := { s with rightGStatus := g.status, rightGRid := g.rid, rightGRec := g.recPtr,
                         rightGScan := g.scan }
      if g.status = Status.DONE then some (Ctl.next s1)
      else if g.status ≠ Status.OK then some (Ctl.abort s1)
      else advanceG left right fuel s1
    else some (Ctl.next s)

/-- Lines 106-122: `while (*rightJoinValPtr == *leftJoinValPtr)`, the replay
of the right group for the current left record. -/
def replayGroup (env : Env) (left right : JoinSpec) : Nat → SMState → Option (Ctl SMState)
  | 0, _ => none
  | fuel + 1, s =>
    if readInt s.rightRec right.offset = readInt s.leftRec left.offset then
      let ins := InsertRecord env s.heap (MakeNewRecord s.leftRec s.rightRec left right)
      if ins.1 ≠ Status.OK then some (Ctl.abort { s with heap := ins.2 })
      else
        let g := s.rightScan.GetNext s.rightRid s.rightRec
        let s1 := { s with heap := ins.2, rightStatus := g.status, rightRid := g.rid,
                           rightRec := g.recPtr, rightScan := g.scan }
        if g.status = Status.DONE then some (Ctl.next s1)
        else if g.status ≠ Status.OK then some (Ctl.abort s1)
        else replayGroup env left right fuel s1
    else some (Ctl.next s)

/-- Lines 96-128: `while (*leftJoinValPtr == *rightGJoinValPtr)`, the loop
over the left records of one group.  `n` is the fuel handed to the inner
loop. -/
def groupLoop (env : Env) (left right : JoinSpec) (n : Nat) :
    Nat → SMState → Option (Ctl SMState)
  | 0, _ => none
  | fuel + 1, s =>
    if readInt s.leftRec left.offset = readInt s.rightGRec right.offset then
      let t := (s.rightScan.MoveTo s.rightGRid).GetNext s.rightRid s.rightRec
      let s1 := { s with rightStatus := t.status, rightRid := t.rid, rightRec := t.recPtr,
                         rightScan := t.scan }
      if t.status ≠ Status.OK then some (Ctl.abort s1)
      else
        match replayGroup env left right n s1 with
        | none => none
        | some (Ctl.abort s2) => some (Ctl.abort s2)
        | some (Ctl.brk s2) => some (Ctl.brk s2)
        | some (Ctl.next s2) =>
          let g := s2.leftScan.GetNext s2.leftRid s2.leftRec
          let s3 := { s2 with leftStatus := g.status, leftRid := g.rid, leftRec := g.recPtr,
                              leftScan := g.scan }
          if g.status = Status.DONE then some (Ctl.next s3)
          else if g.status ≠ Status.OK then some (Ctl.abort s3)
          else groupLoop env left right n fuel s3
    else some (Ctl.next s)

/-- Lines 67-131: the body of the main loop.  `next` is the end of the body
(the loop condition is tested again), `brk` one of the two `break`s of lines
78 and 88.  The status of the read of line 131 is stored and not looked
at. -/
def mergeStep (env : Env) (left right : JoinSpec) (n : Nat) (s : SMState) :
    Option (Ctl SMState) :=
  match advanceLeft left right n s with
  | none => none
  | some (Ctl.abort s1) => some (Ctl.abort s1)
  | some (Ctl.brk s1) => some (Ctl.brk s1)
  | some (Ctl.next s1) =>
    if s1.leftStatus = Status.DONE then some (Ctl.brk s1)
    else
      match advanceG left right n s1 with
      | none => none
      | some (Ctl.abort s2) => some (Ctl.abort s2)
      | some (Ctl.brk s2) => some (Ctl.brk s2)
      | some (Ctl.next s2) =>
        if s2.rightGStatus = Status.DONE then some (Ctl.brk s2)
        else
          let t := (s2.rightScan.MoveTo s2.rightGRid).GetNext s2.rightRid s2.rightRec
          let s3 := { s2 with rightStatus := t.status, rightRid := t.rid,
                              rightRec := t.recPtr, rightScan := t.scan }
          if t.status ≠ Status.OK then some (Ctl.abort s3)
          else
            match groupLoop env left right n n s3 with
            | none => none
            | some (Ctl.abort s4) => some (Ctl.abort s4)
            | some (Ctl.brk s4) => some (Ctl.brk s4)
            | some (Ctl.next s4) =>
              let g := (s4.rightGScan.MoveTo s4.rightRid).GetNext s4.rightGRid s4.rightGRec
              some (Ctl.next { s4 with rightGStatus := g.status, rightGRid := g.rid,
                                       rightGRec := g.recPtr, rightGScan := g.scan })

/-- Lines 66-132: `while (leftStatus != DONE && rightGStatus != DONE)`. -/
def mergeLoop (env : Env) (left right : JoinSpec) (n : Nat) :
    Nat → SMState → Option (Ctl SMState)
  | 0, _ => none
  | fuel + 1, s =>
    if s.leftStatus ≠ Status.DONE ∧ s.rightGStatus ≠ Status.DONE then
      match mergeStep env left right n s with
      | none => none
      | some (Ctl.abort s1) => some (Ctl.abort s1)
      | some (Ctl.brk s1) => some (Ctl.next s1)
      | some (Ctl.next s1) => mergeLoop env left right n fuel s1
    else some (Ctl.next s)

/-- Lines 60-64: the state after the three priming reads; their statuses
are stored and not looked at.  The buffers and ids read as empty and 0
before the first successful read. -/
def primed (leftScan rightScan rightGScan : Scan) : SMState :=
  let l := leftScan.GetNext 0 []
  let r := rightScan.GetNext 0 []
  let g := rightGScan.GetNext 0 []
  { leftScan := l.scan, rightScan := r.scan, rightGScan := g.scan,
    leftStatus := l.status, rightStatus := r.status, rightGStatus := g.status,
    leftRid := l.rid, rightRid := r.rid, rightGRid := g.rid,
    leftRec := l.recPtr, rightRec := r.recPtr, rightGRec := g.recPtr, heap := [] }

/-- The function `SortMerge::Execute(left, right, out)`, lines 18-147. -/
def SortMerge.Execute (env : Env) (fuel : Nat) (left right : JoinSpec) : Option JoinResult :=
  let leftSortedFile := env.SortHeapFile left.file left.recLen left.offset
  let rightSortedFile := env.SortHeapFile right.file right.recLen right.offset
  if env.newHeapSt ≠ Status.OK then some (failed [] 0 0)
  else
    let lo := leftSortedFile.OpenScan
    if lo.1 ≠ Status.OK then some (failed [] 0 0)
    else
      let ro := rightSortedFile.OpenScan
      if ro.1 ≠ Status.OK then some (failed [] 0 0)
      else
        let go := rightSortedFile.OpenScan
        if go.1 ≠ Status.OK then some (failed [] 0 0)
        else
          match mergeLoop env left right fuel fuel (primed lo.2 ro.2 go.2) with
          | none => none
          | some (Ctl.abort s) => some (failed s.heap 0 0)
          | some (Ctl.brk s) => some (failed s.heap 0 0)
          | some (Ctl.next s) =>
            some { status := Status.OK, outFile := some s.heap, heap := s.heap,
                   leftReads := 0, rightPasses := 0, destroyCalls := 0 }

/-! ## Auxiliary definitions for the statements -/

/-- No call on the relation reports an error. -/
def HeapFile.NoFaults (f : HeapFile) : Prop :=
  f.openSt = Status.OK ∧ f.scanFaults = [] ∧ f.fetchFaults = []

/-- No call on the output file or on the index reports an error. -/
def Env.NoFaults (env : Env) : Prop :=
  env.newHeapSt = Status.OK ∧ env.insertFaults = [] ∧ env.newTreeSt = Status.OK ∧
    env.treeInsertFaults = [] ∧ env.treeScanFaults = []

/-- The output of one pass over the right relation `R` against the block
`block`: right-major, the block in order for each right record. -/
def blockJoin (left right : JoinSpec) (block R : List Record) : List Record :=
  R.flatMap fun r =>
    (block.filter fun l => decide (readInt l left.offset = readInt r right.offset)).map
      fun l => MakeNewRecord l r left right

/-- The output of the passes of the block-nested-loop join over the left
records `L` still to be read, block after block (at most `n` blocks). -/
def blockOrder (left right : JoinSpec) (blockSize : Nat) (R : List Record) :
    Nat → List Record → List Record
  | 0, _ => []
  | n + 1, L =>
    blockJoin left right (L.take blockSize) R ++
      (if L.length < blockSize then [] else blockOrder left right blockSize R n (L.drop blockSize))

/-- What the index-nested-loop join emits for the left records `L` against
the right records `R`: the pairs whose encoded keys are equal. -/
def encJoin (env : Env) (left right : JoinSpec) (L R : List Record) : List Record :=
  L.flatMap fun l =>
    (R.filter fun r => decide (env.toString (readInt r right.offset) =
      env.toString (readInt l left.offset))).map fun r => MakeNewRecord l r left right

/-- The index entries the build loop inserts for the right records `rem`
found at positions `i`, `i + 1`, ... -/
def indexEntries (env : Env) (right : JoinSpec) (i : Nat) (rem : List Record) :
    List (Key × RecordID) :=
  (rem.enumFrom i).map fun p => (env.toString (readInt p.2 right.offset), p.1)

/-- The records are in ascending order of the join attribute at
`j.offset`. -/
def SortedBy (j : JoinSpec) (l : List Record) : Prop :=
  l.Pairwise fun a b => readInt a j.offset ≤ readInt b j.offset

/-- The position the id `rightRid` stands on after the replay of the group
with key `k`, as the records from that position on: the first record of `rs`
with another key, or the last record of `rs` when the group runs to the end
of the relation. -/
def groupEnd (right : JoinSpec) (k : Int) : List Record → List Record
  | [] => []
  | [z] => [z]
  | z :: w :: v => if readInt z right.offset = k then groupEnd right k (w :: v) else z :: w :: v

/-- The scan `S` in a fault-free run: exhausted, or standing on `x` with `t`
still to be read. -/
def SPos (st : Status) (rec : Record) (scan : Scan) : List Record → Prop
  | [] => st = Status.DONE
  | x :: t => st = Status.OK ∧ rec = x ∧ scan.file.recs.drop scan.currRid = t

/-- The scan `G` in a fault-free run: exhausted, or standing on `y`, whose
id is `rid`, with `u` still to be read. -/
def GPos (st : Status) (rid : RecordID) (rec : Record) (scan : Scan) : List Record → Prop
  | [] => st = Status.DONE
  | y :: u => st = Status.OK ∧ rec = y ∧ scan.file.recs.drop rid = y :: u ∧
      scan.currRid = rid + 1

/-- The sorter does its job on the relation of `j`: the copy is a
permutation of the relation, ascending in the join attribute, and no call on
it reports an error. -/
def Env.SortsByKey (env : Env) (j : JoinSpec) : Prop :=
  (env.SortHeapFile j.file j.recLen j.offset).recs.Perm j.file.recs ∧
    SortedBy j (env.SortHeapFile j.file j.recLen j.offset).recs ∧
    (env.SortHeapFile j.file j.recLen j.offset).NoFaults

/-! ## Reading off a run -/

/-- The status `Execute` returned, when it returned. -/
def statusOf (o : Option JoinResult) : Option Status :=
  o.map JoinResult.status

/-- The output relation: the contents of `out.file` after the call, when it
was assigned. -/
def outputOf (o : Option JoinResult) : Option (List Record) :=
  o.bind JoinResult.outFile

/-- The output relation as a multiset of tuples. -/
def outputBag (o : Option JoinResult) : Option (Multiset Record) :=
  (outputOf o).map fun h => (h : Multiset Record)

/-- The tuples inserted into `tmpHeap` up to the return. -/
def insertedOf (o : Option JoinResult) : Option (List Record) :=
  o.map JoinResult.heap

/-- The shape of an output tuple: its length, its left part a left tuple, its
right part a right tuple, the two with equal join attributes. -/
def TupleShape (left right : JoinSpec) (o : Record) : Prop :=
  o.length = left.recLen + right.recLen ∧
    ∃ l ∈ left.file.recs, ∃ r ∈ right.file.recs,
      o.take left.recLen = l ∧ o.drop left.recLen = r ∧
        readInt l left.offset = readInt r right.offset

/-! ## Sample inputs -/

/-- A relation on which no call fails. -/
def soundFile (recs : List Record) : HeapFile :=
  { recs := recs, openSt := Status.OK, scanFaults := [], fetchFaults := [] }

/-- The left relation `[(1,"a"), (2,"b"), (2,"c")]`: a 4-byte integer
followed by one character, joined on the integer. -/
def exampleLeft : JoinSpec :=
  { file := soundFile [[1, 0, 0, 0, 97], [2, 0, 0, 0, 98], [2, 0, 0, 0, 99]],
    recLen := 5, offset := 0 }

/-- The right relation `[(2,"x"), (2,"y"), (3,"z")]`. -/
def exampleRight : JoinSpec :=
  { file := soundFile [[2, 0, 0, 0, 120], [2, 0, 0, 0, 121], [3, 0, 0, 0, 122]],
    recLen := 5, offset := 0 }

/-- A sample key encoder: the sign, then the magnitude in unary. -/
def unaryKey (z : Int) : Key :=
  (if z < 0 then '-' else '+') :: List.replicate z.natAbs '1'

/-- A sample sorter: insertion sort on the join attribute; the copy inherits
the fault switches of the relation. -/
def insertionSorter (f : HeapFile) (_recLen offset : Nat) : HeapFile :=
  { f with recs := f.recs.insertionSort fun a b => readInt a offset ≤ readInt b offset }

/-- A sample environment in which no call fails. -/
def sampleEnv : Env :=
  { newHeapSt := Status.OK, insertFaults := [], newTreeSt := Status.OK,
    treeInsertFaults := [], treeScanFaults := [], toString := unaryKey,
    SortHeapFile := insertionSorter }

/-- The four tuples `(2,"b",2,"x")`, `(2,"b",2,"y")`, `(2,"c",2,"x")`,
`(2,"c",2,"y")`. -/
def exampleOutput : List Record :=
  [[2, 0, 0, 0, 98, 2, 0, 0, 0, 120], [2, 0, 0, 0, 98, 2, 0, 0, 0, 121],
   [2, 0, 0, 0, 99, 2, 0, 0, 0, 120], [2, 0, 0, 0, 99, 2, 0, 0, 0, 121]]

/-- A left relation with the single tuple `(7, 1)`. -/
def probeLeft : JoinSpec :=
  { file := soundFile [[7, 0, 0, 0, 1]], recLen := 5, offset := 0 }

/-- A right relation with the tuples `(7, 2)` and `(9, 3)`; its scan works,
the fetch of the tuple with id 0 reports an error. -/
def unfetchableRight : JoinSpec :=
  { file := { recs := [[7, 0, 0, 0, 2], [9, 0, 0, 0, 3]], openSt := Status.OK,
              scanFaults := [], fetchFaults := [0] },
    recLen := 5, offset := 0 }

/-- An empty left relation. -/
def emptyLeft : JoinSpec :=
  { file := soundFile [], recLen := 5, offset := 0 }

/-- A right relation with the single tuple `(7, 2)` whose cursor reads at
position 0 report an error. -/
def unreadableRight : JoinSpec :=
  { file := { recs := [[7, 0, 0, 0, 2]], openSt := Status.OK, scanFaults := [0],
              fetchFaults := [] },
    recLen := 5, offset := 0 }

/-! ## Output order, as the specification words it -/

/-- The consecutive chunks of `blockSize` records of `L` (the last one
possibly shorter), at most `n` of them. -/
def chunksOf (blockSize : Nat) : Nat → List Record → List (List Record)
  | 0, _ => []
  | _ + 1, [] => []
  | n + 1, x :: t =>
    (x :: t).take blockSize :: chunksOf blockSize n ((x :: t).drop blockSize)

/-- The split of `L` into consecutive chunks of `blockSize` records. -/
def chunks (blockSize : Nat) (L : List Record) : List (List Record) :=
  chunksOf blockSize L.length L

/-- The sequence named by the block-nested-loop order: for each chunk of
left in order, for each right tuple in scan order, for each left tuple of the
chunk in order, `l ++ r` when the join attributes are equal. -/
def chunkedJoin (left right : JoinSpec) (blockSize : Nat) (L R : List Record) : List Record :=
  (chunks blockSize L).flatMap fun c =>
    R.flatMap fun r =>
      (c.filter fun l => decide (readInt l left.offset = readInt r right.offset)).map
        fun l => MakeNewRecord l r left right

/-- The join attribute of the left part of an output tuple. -/
def outputKey (left : JoinSpec) (o : Record) : Int :=
  readInt (o.take left.recLen) left.offset

/-! ## Sample failing environments -/

/-- The sample environment with the first index insert reporting an
error. -/
def indexInsertFaultEnv : Env :=
  { sampleEnv with treeInsertFaults := [0] }

/-- The sample environment with the index scan reporting an error when it is
about to return the id 0. -/
def indexScanFaultEnv : Env :=
  { sampleEnv with treeScanFaults := [0] }

/-- The sample environment with the first insert into the output file
reporting an error. -/
def outputInsertFaultEnv : Env :=
  { sampleEnv with insertFaults := [0] }

/-- A left relation, already sorted, with the tuples `(2,"b")` and
`(5,"c")`. -/
def lastRunLeft : JoinSpec :=
  { file := soundFile [[2, 0, 0, 0, 98], [5, 0, 0, 0, 99]], recLen := 5, offset := 0 }

/-- A right relation, already sorted, whose last run is the group with key
2: `(1,"w")`, `(2,"x")`, `(2,"y")`. -/
def lastRunRight : JoinSpec :=
  { file := soundFile [[1, 0, 0, 0, 119], [2, 0, 0, 0, 120], [2, 0, 0, 0, 121]],
    recLen := 5, offset := 0 }

/-- The state a loop or loop body handed back. -/
def Ctl.state {σ : Type} : Ctl σ → σ
  | Ctl.next s => s
  | Ctl.brk s => s
  | Ctl.abort s => s

/-- The two ways `Execute` treats `out.file`: it returns `FAIL` and `out.file`
keeps the value it had after `JoinMethod::Execute`, or it returns `OK` and
`out.file` is the output file it created. -/
def JoinResult.Framed (r : JoinResult) : Prop :=
  (r.status = Status.FAIL ∧ r.outFile = none) ∨
    (r.status = Status.OK ∧ r.outFile = some r.heap)

/-! ## The key encoder -/

/-- The `w` hexadecimal digits of `n`, most significant first. -/
def hexDigits : Nat → Nat → List Char
  | 0, _ => []
  | w + 1, n => Nat.digitChar (n / 16 ^ w % 16) :: hexDigits w (n % 16 ^ w)

/-- Modelled from the spec: the key encoder `JoinMethod::toString`
(`EncodeKey` in the specification; its code is in `join.cpp`, which is not
among the three source files): a deterministic fixed-width encoding, sign and
magnitude both encoded, whose string order is the integer order over the full
range of 32-bit integers.  The model is the offset-biased encoding the
specification names: the value plus `2^31`, written with 8 hexadecimal
digits, which with the terminator fill the 9-byte key buffer of
`IndexNestedLoops::Execute`. -/
def JoinMethod.toString (n : Int) : Key :=
  hexDigits 8 (n + 2147483648).toNat

/-! ## The storage calls of a block-nested-loop run -/

/-- The storage calls whose status `BlockNestedLoops::Execute` looks at. -/
inductive Call where
  | newHeapFile
  | openLeft
  | openRight
  | leftGetNext
  | rightGetNext
  | insertRecord
  deriving DecidableEq

/-- The calls of a run in the order they were made, each with the status it
returned. -/
abbrev Log := List (Call × Status)

/-- A logged call failed: a `GetNext` that returned neither `OK` nor `DONE`,
or another call that did not return `OK`. -/
def unexpected (e : Call × Status) : Bool :=
  match e.1 with
  | Call.leftGetNext => decide (e.2 ≠ Status.OK ∧ e.2 ≠ Status.DONE)
  | Call.rightGetNext => decide (e.2 ≠ Status.OK ∧ e.2 ≠ Status.DONE)
  | _ => decide (e.2 ≠ Status.OK)

/-- The loop or loop body ran to its end (no `break`, no `return FAIL`). -/
def Ctl.completed {σ : Type} : Ctl σ → Bool
  | Ctl.next _ => true
  | Ctl.brk _ => false
  | Ctl.abort _ => false

/-- The loop `fillBlock` (lines 63-72), keeping the log of its calls. -/
def fillBlockLog (blockSize : Nat) : Nat → BNLState → Log → Option (Ctl BNLState × Log)
  | 0, _, _ => none
  | fuel + 1, s, log =>
    if s.block.length < blockSize then
      let g := s.leftScan.GetNext 0 s.leftRec
      let s1 := { s with leftStatus := g.status, leftScan := g.scan, leftRec := g.recPtr,
                         leftReads := s.leftReads + 1 }
      let log1 := log ++ [(Call.leftGetNext, g.status)]
      if g.status = Status.OK then
        fillBlockLog blockSize fuel { s1 with block := s1.block ++ [g.recPtr] } log1
      else if g.status = Status.DONE then some (Ctl.next s1, log1)
      else some (Ctl.abort s1, log1)
    else some (Ctl.next s, log)

/-- The loop `matchBlock` (lines 84-103), keeping the log of its calls. -/
def matchBlockLog (env : Env) (left right : JoinSpec) (rightRec : Record) :
    List Record → List Record → Log → Bool × List Record × Log
  | [], heap, log => (true, heap, log)
  | leftRec :: rest, heap, log =>
    if readInt leftRec left.offset = readInt rightRec right.offset then
      let ins := InsertRecord env heap (MakeNewRecord leftRec rightRec left right)
      let log1 := log ++ [(Call.insertRecord, ins.1)]
      if ins.1 ≠ Status.OK then (false, ins.2, log1)
      else matchBlockLog env left right rightRec rest ins.2 log1
    else matchBlockLog env left right rightRec rest heap log

/-- The loop `scanRight` (lines 77-104), keeping the log of its calls. -/
def scanRightLog (env : Env) (left right : JoinSpec) :
    Nat → BNLState → Log → Option (Ctl BNLState × Log)
  | 0, _, _ => none
  | fuel + 1, s, log =>
    let g := s.rightScan.GetNext 0 s.rightRec
    let s1 := { s with rightStatus := g.status, rightScan := g.scan, rightRec := g.recPtr }
    let log1 := log ++ [(Call.rightGetNext, g.status)]
    if g.status = Status.DONE then
      some (Ctl.next { s1 with rightPasses := s1.rightPasses + 1 }, log1)
    else if g.status ≠ Status.OK then some (Ctl.abort s1, log1)
    else
      let m := matchBlockLog env left right g.recPtr s1.block s1.heap log1
      if m.1 then scanRightLog env left right fuel { s1 with heap := m.2.1 } m.2.2
      else some (Ctl.abort { s1 with heap := m.2.1 }, m.2.2)

/-- The loop `blockLoop` (lines 61-111), keeping the log of its calls. -/
def blockLoopLog (env : Env) (blockSize : Nat) (left right : JoinSpec)
    (firstRightScanRid : RecordID) (n : Nat) :
    Nat → BNLState → Log → Option (Ctl BNLState × Log)
  | 0, _, _ => none
  | fuel + 1, s, log =>
    match fillBlockLog blockSize n s log with
    | none => none
    | some (Ctl.abort s1, log1) => some (Ctl.abort s1, log1)
    | some (Ctl.brk s1, log1) => some (Ctl.brk s1, log1)
    | some (Ctl.next s1, log1) =>
      match scanRightLog env left right n { s1 with rightRec := [] } log1 with
      | none => none
      | some (Ctl.abort s2, log2) => some (Ctl.abort s2, log2)
      | some (Ctl.brk s2, log2) => some (Ctl.brk s2, log2)
      | some (Ctl.next s2, log2) =>
        if s2.leftStatus = Status.DONE then some (Ctl.next s2, log2)
        else
          blockLoopLog env blockSize left right firstRightScanRid n fuel
            { s2 with rightScan := s2.rightScan.MoveTo firstRightScanRid, block := [] } log2

/-- The function `BlockNestedLoops::Execute`, keeping the log of the storage
calls it makes: the result of `BlockNestedLoops.Execute` together with the
log. -/
def BlockNestedLoops.ExecuteLog (env : Env) (blockSize : Nat) (fuel : Nat)
    (left right : JoinSpec) : Option (JoinResult × Log) :=
  let log0 : Log := [(Call.newHeapFile, env.newHeapSt)]
  if env.newHeapSt ≠ Status.OK then some (failed [] 0 0, log0)
  else
    let lo := left.file.OpenScan
    let log1 := log0 ++ [(Call.openLeft, lo.1)]
    if lo.1 ≠ Status.OK then some (failed [] 0 0, log1)
    else
      let ro := right.file.OpenScan
      let log2 := log1 ++ [(Call.openRight, ro.1)]
      if ro.1 ≠ Status.OK then some (failed [] 0 0, log2)
      else
        let firstRightScanRid := ro.2.currRid
        let s0 : BNLState :=
          { leftScan := lo.2, rightScan := ro.2, block := [], leftStatus := Status.DONE,
            rightStatus := ro.1, leftRec := [], rightRec := [], heap := [],
            leftReads := 0, rightPasses := 0 }
        match blockLoopLog env blockSize left right firstRightScanRid fuel fuel s0 log2 with
        | none => none
        | some (Ctl.next s, log) =>
          some ({ status := Status.OK, outFile := some s.heap, heap := s.heap,
                  leftReads := s.leftReads, rightPasses := s.rightPasses, destroyCalls := 0 },
                log)
        | some (Ctl.brk s, log) => some (failed s.heap s.leftReads s.rightPasses, log)
        | some (Ctl.abort s, log) => some (failed s.heap s.leftReads s.rightPasses, log)

/-- The number of tuples between the cursor of a scan and the end of its
file. -/
def Scan.remaining (sc : Scan) : Nat :=
  sc.file.recs.length - sc.currRid

/-! # Theorems -/

/-! ## Running without faults -/

/-! ### The cursor -/

theorem get?_of_drop_cons {L : List Record} {i : Nat} {x : Record} {t : List Record}
    (h : L.drop i = x :: t) : L[i]? = some x ∧ L.drop (i + 1) = t := by
  have hi : i < L.length := by
    by_contra hc
    rw [List.drop_eq_nil_of_le (by omega)] at h
    cases h
  rw [List.drop_eq_getElem_cons hi] at h
  injection h with h1 h2
  subst h1
  exact ⟨by simp [List.getElem?_eq_getElem hi], h2⟩

theorem get?_of_drop_nil {L : List Record} {i : Nat} (h : L.drop i = []) : L[i]? = none := by
  rw [List.drop_eq_nil_iff] at h
  simp [h]

theorem Scan.GetNext_cons (s : Scan) (rid : RecordID) (rec x : Record) (t : List Record)
    (hf : s.file.scanFaults = []) (h : s.file.recs.drop s.currRid = x :: t) :
    s.GetNext rid rec =
      { status := Status.OK, rid := s.currRid, recPtr := x,
        scan := { s with currRid := s.currRid + 1 } } := by
  simp [Scan.GetNext, hf, (get?_of_drop_cons h).1]

theorem Scan.GetNext_nil (s : Scan) (rid : RecordID) (rec : Record)
    (hf : s.file.scanFaults = []) (h : s.file.recs.drop s.currRid = []) :
    s.GetNext rid rec = { status := Status.DONE, rid := rid, recPtr := rec, scan := s } := by
  simp [Scan.GetNext, hf, get?_of_drop_nil h]

/-! ### Block-nested-loop join -/

theorem matchBlock_noFaults (env : Env) (left right : JoinSpec) (r : Record)
    (hins : env.insertFaults = []) (block heap : List Record) :
    matchBlock env left right r block heap =
      (true, heap ++ (block.filter fun l =>
        decide (readInt l left.offset = readInt r right.offset)).map
          fun l => MakeNewRecord l r left right) := by
  induction block generalizing heap with
  | nil => simp [matchBlock]
  | cons l rest ih =>
    by_cases hk : readInt l left.offset = readInt r right.offset
    · simp [matchBlock, hk, InsertRecord, hins, ih]
    · simp [matchBlock, hk, ih]

theorem scanRight_noFaults (env : Env) (left right : JoinSpec) (hins : env.insertFaults = [])
    (rem : List Record) :
    ∀ (fuel : Nat) (s : BNLState), s.rightScan.file.scanFaults = [] →
      s.rightScan.file.recs.drop s.rightScan.currRid = rem → rem.length < fuel →
      ∃ s1, scanRight env left right fuel s = some (Ctl.next s1) ∧
        s1.heap = s.heap ++ blockJoin left right s.block rem ∧
        s1.leftScan = s.leftScan ∧ s1.leftStatus = s.leftStatus ∧ s1.leftRec = s.leftRec ∧
        s1.block = s.block ∧ s1.rightScan.file = s.rightScan.file ∧
        s1.leftReads = s.leftReads ∧ s1.rightPasses = s.rightPasses + 1 := by
  induction rem with
  | nil =>
    intro fuel s hf hrem hfuel
    obtain ⟨k, rfl⟩ : ∃ k, fuel = k + 1 := ⟨fuel - 1, by simp at hfuel; omega⟩
    simp [scanRight, Scan.GetNext_nil _ _ _ hf hrem, blockJoin]
  | cons x t ih =>
    intro fuel s hf hrem hfuel
    obtain ⟨k, rfl⟩ : ∃ k, fuel = k + 1 := ⟨fuel - 1, by simp at hfuel; omega⟩
    obtain ⟨s1, h1, h2⟩ := ih k
      { s with rightStatus := Status.OK, rightScan := { s.rightScan with currRid := s.rightScan.currRid + 1 },
               rightRec := x,
               heap := s.heap ++ (s.block.filter fun l =>
                 decide (readInt l left.offset = readInt x right.offset)).map
                   fun l => MakeNewRecord l x left right }
      hf (get?_of_drop_cons hrem).2 (by simp at hfuel; omega)
    refine ⟨s1, ?_, ?_⟩
    · simp only [scanRight, Scan.GetNext_cons _ _ _ x t hf hrem, matchBlock_noFaults _ _ _ _ hins]
      simpa using h1
    · simpa [blockJoin, List.append_assoc] using h2

theorem fillBlock_noFaults (blockSize : Nat) (rem : List Record) :
    ∀ (fuel : Nat) (s : BNLState), s.leftScan.file.scanFaults = [] →
      s.leftScan.file.recs.drop s.leftScan.currRid = rem → rem.length < fuel →
      ∃ s1, fillBlock blockSize fuel s = some (Ctl.next s1) ∧
        s1.block = s.block ++ rem.take (blockSize - s.block.length) ∧
        s1.leftScan.file = s.leftScan.file ∧
        s1.leftScan.file.recs.drop s1.leftScan.currRid = rem.drop (blockSize - s.block.length) ∧
        s1.leftStatus = (if blockSize ≤ s.block.length then s.leftStatus
          else if rem.length < blockSize - s.block.length then Status.DONE else Status.OK) ∧
        s1.rightScan = s.rightScan ∧ s1.heap = s.heap ∧ s1.rightPasses = s.rightPasses ∧
        s1.leftReads = s.leftReads + min (blockSize - s.block.length) (rem.length + 1) := by
  induction rem with
  | nil =>
    intro fuel s hf hrem hfuel
    obtain ⟨k, rfl⟩ : ∃ k, fuel = k + 1 := ⟨fuel - 1, by simp at hfuel; omega⟩
    by_cases hb : s.block.length < blockSize
    · have h1 : ¬ blockSize ≤ s.block.length := by omega
      have h2 : 0 < blockSize - s.block.length := by omega
      have h3 : min (blockSize - s.block.length) 1 = 1 := by omega
      simp [fillBlock, hb, Scan.GetNext_nil _ _ _ hf hrem, h1, h2, h3, hrem,
        List.drop_eq_nil_iff.mp hrem]
    · have h1 : blockSize ≤ s.block.length := by omega
      have h2 : blockSize - s.block.length = 0 := by omega
      simp [fillBlock, hb, h1, h2, hrem, List.drop_eq_nil_iff.mp hrem]
  | cons x t ih =>
    intro fuel s hf hrem hfuel
    obtain ⟨k, rfl⟩ : ∃ k, fuel = k + 1 := ⟨fuel - 1, by simp at hfuel; omega⟩
    by_cases hb : s.block.length < blockSize
    · obtain ⟨s1, h1, h2, h3, h4, h5, h6⟩ := ih k
        { s with leftStatus := Status.OK,
                 leftScan := { s.leftScan with currRid := s.leftScan.currRid + 1 },
                 leftRec := x, leftReads := s.leftReads + 1, block := s.block ++ [x] }
        hf (get?_of_drop_cons hrem).2 (by simp at hfuel; omega)
      obtain ⟨d, hd⟩ : ∃ d, blockSize - s.block.length = d + 1 :=
        ⟨blockSize - s.block.length - 1, by omega⟩
      have hd1 : blockSize - (s.block.length + 1) = d := by omega
      refine ⟨s1, ?_, ?_, ?_, ?_, ?_, ?_⟩
      · simp only [fillBlock, Scan.GetNext_cons _ _ _ x t hf hrem]
        simpa [hb] using h1
      · simpa [hd, hd1] using h2
      · simpa using h3
      · simpa [hd, hd1] using h4
      · simp only [List.length_append, List.length_singleton, hd1] at h5
        rw [h5, hd]
        have e1 : ¬ blockSize ≤ s.block.length := by omega
        simp only [e1, if_false, List.length_cons]
        by_cases e2 : blockSize ≤ s.block.length + 1
        · have : ¬ (t.length + 1 < d + 1) := by omega
          simp [e2, this]
        · by_cases e3 : t.length < d
          · have : t.length + 1 < d + 1 := by omega
            simp [e2, e3, this]
          · have : ¬ (t.length + 1 < d + 1) := by omega
            simp [e2, e3, this]
      · obtain ⟨h7, h8, h9, h10⟩ := h6
        refine ⟨by simpa using h7, by simpa using h8, by simpa using h9, ?_⟩
        simp only [List.length_append, List.length_singleton, hd1] at h10
        rw [h10, hd]
        simp only [List.length_cons]
        omega
    · have h1 : blockSize ≤ s.block.length := by omega
      have h2 : blockSize - s.block.length = 0 := by omega
      simp [fillBlock, hb, h1, h2, hrem]

theorem blockLoop_noFaults (env : Env) (left right : JoinSpec) (blockSize : Nat)
    (hb : 1 ≤ blockSize) (hins : env.insertFaults = []) (first n : Nat) :
    ∀ (fuel : Nat) (rem : List Record) (s : BNLState),
      s.leftScan.file.scanFaults = [] → s.rightScan.file.scanFaults = [] →
      s.leftScan.file.recs.drop s.leftScan.currRid = rem → rem.length < fuel →
      rem.length < n → (s.rightScan.file.recs.drop first).length < n →
      s.rightScan.currRid = first → s.block = [] →
      ∃ s1, blockLoop env blockSize left right first n fuel s = some (Ctl.next s1) ∧
        s1.heap = s.heap ++
          blockOrder left right blockSize (s.rightScan.file.recs.drop first) fuel rem := by
  intro fuel
  induction fuel with
  | zero => intro rem s _ _ _ h; simp at h
  | succ k ih =>
    intro rem s hlf hrf hrem hfuel hn hnR hfirst hblock
    obtain ⟨s1, f1, f2, f3, f4, f5, f6, f7, f8, f9⟩ :=
      fillBlock_noFaults blockSize rem n s hlf hrem hn
    have hbl : ¬ blockSize ≤ s.block.length := by rw [hblock]; simp; omega
    simp only [hblock, List.length_nil, Nat.sub_zero, List.nil_append] at f2 f4 f5
    have hbl0 : ¬ blockSize ≤ 0 := by omega
    simp only [hbl0, if_false] at f5
    obtain ⟨s2, g1, g2, g3, g4, g5, g6, g7, g8, g9⟩ :=
      scanRight_noFaults env left right hins (s.rightScan.file.recs.drop first) n
        { s1 with rightRec := [] } (by simpa [f6] using hrf)
        (by simp [f6, hfirst]) hnR
    simp only at g2 g3 g4 g5 g6 g7
    by_cases hd : rem.length < blockSize
    · refine ⟨s2, ?_, ?_⟩
      · simp only [blockLoop, f1, g1]
        simp [g4, f5, hd]
      · simp [g2, f7, g6, f2, blockOrder, hd]
    · have hst : s2.leftStatus ≠ Status.DONE := by simp [g4, f5, hd]
      obtain ⟨s3, k1, k2⟩ := ih (rem.drop blockSize)
        { s2 with rightScan := s2.rightScan.MoveTo first, block := [] }
        (by simpa [g3, f3] using hlf)
        (by simpa [Scan.MoveTo, g7, f6] using hrf)
        (by simpa [g3] using f4)
        (by simp only [List.length_drop]; omega)
        (by simp only [List.length_drop]; omega)
        (by simpa [Scan.MoveTo, g7, f6] using hnR)
        rfl rfl
      refine ⟨s3, ?_, ?_⟩
      · simp only [blockLoop, f1, g1]
        simpa [hst] using k1
      · simp only [Scan.MoveTo, g7, f6] at k2
        rw [k2, g2]
        simp [f7, g6, f2, blockOrder, hd, List.append_assoc]

theorem equiJoin_append (left right : JoinSpec) (A B R : List Record) :
    equiJoin left right (A ++ B) R = equiJoin left right A R ++ equiJoin left right B R := by
  simp [equiJoin, List.flatMap_append]

theorem blockJoin_single (left right : JoinSpec) (l : Record) (R : List Record) :
    blockJoin left right [l] R =
      (R.filter fun r => decide (readInt l left.offset = readInt r right.offset)).map
        fun r => MakeNewRecord l r left right := by
  induction R with
  | nil => simp [blockJoin]
  | cons r t ih =>
    simp only [blockJoin, List.flatMap_cons] at ih ⊢
    rw [ih]
    by_cases h : readInt l left.offset = readInt r right.offset <;> simp [List.filter_cons, h]

theorem blockJoin_cons_perm (left right : JoinSpec) (l : Record) (c R : List Record) :
    (blockJoin left right (l :: c) R).Perm
      (blockJoin left right [l] R ++ blockJoin left right c R) := by
  induction R with
  | nil => simp [blockJoin]
  | cons r t ih =>
    have e : ∀ b : List Record, blockJoin left right b (r :: t) =
        (b.filter fun l => decide (readInt l left.offset = readInt r right.offset)).map
          (fun l => MakeNewRecord l r left right) ++ blockJoin left right b t := by
      intro b; simp [blockJoin, List.flatMap_cons]
    rw [e (l :: c), e [l], e c]
    by_cases h : readInt l left.offset = readInt r right.offset
    · simp only [List.filter_cons, h, decide_True, if_true, List.map_cons, List.filter_nil,
        List.map_nil, List.cons_append, List.nil_append, List.perm_cons]
      refine (List.Perm.append_left _ ih).trans ?_
      simp only [← List.append_assoc]
      exact List.Perm.append_right _ List.perm_append_comm
    · simp only [List.filter_cons, h, decide_False, List.filter_nil, List.map_nil,
        List.nil_append]
      refine (List.Perm.append_left _ ih).trans ?_
      simp only [← List.append_assoc]
      exact List.Perm.append_right _ List.perm_append_comm

theorem blockJoin_perm (left right : JoinSpec) (c R : List Record) :
    (blockJoin left right c R).Perm (equiJoin left right c R) := by
  induction c with
  | nil => simp [blockJoin, equiJoin]
  | cons l c ih =>
    refine (blockJoin_cons_perm left right l c R).trans ?_
    rw [blockJoin_single]
    have : equiJoin left right (l :: c) R =
        (R.filter fun r => decide (readInt l left.offset = readInt r right.offset)).map
          (fun r => MakeNewRecord l r left right) ++ equiJoin left right c R := by
      simp [equiJoin, List.flatMap_cons]
    rw [this]
    exact List.Perm.append_left _ ih

theorem blockOrder_perm (left right : JoinSpec) (blockSize : Nat) (hb : 1 ≤ blockSize)
    (R : List Record) :
    ∀ (n : Nat) (L : List Record), L.length < n →
      (blockOrder left right blockSize R n L).Perm (equiJoin left right L R) := by
  intro n
  induction n with
  | zero => intro L h; simp at h
  | succ k ih =>
    intro L hL
    by_cases hd : L.length < blockSize
    · have ht : L.take blockSize = L := List.take_of_length_le (by omega)
      simp only [blockOrder, hd, if_true, List.append_nil, ht]
      exact blockJoin_perm left right L R
    · have hsplit : equiJoin left right L R =
          equiJoin left right (L.take blockSize) R ++ equiJoin left right (L.drop blockSize) R := by
        rw [← equiJoin_append, List.take_append_drop]
      simp only [blockOrder, hd, if_false]
      rw [hsplit]
      exact List.Perm.append (blockJoin_perm left right _ R)
        (ih _ (by simp only [List.length_drop]; omega))

/-- A run of the block-nested-loop join in which no storage call fails:
`Execute` returns `OK`, hands the output file over and has inserted the
passes block after block. -/
theorem bnl_run (env : Env) (blockSize fuel : Nat) (left right : JoinSpec)
    (he : env.newHeapSt = Status.OK) (hins : env.insertFaults = [])
    (hl : left.file.openSt = Status.OK) (hlf : left.file.scanFaults = [])
    (hr : right.file.openSt = Status.OK) (hrf : right.file.scanFaults = [])
    (hb : 1 ≤ blockSize) (hfuel : left.file.recs.length + right.file.recs.length < fuel) :
    ∃ res, BlockNestedLoops.Execute env blockSize fuel left right = some res ∧
      res.status = Status.OK ∧ res.outFile = some res.heap ∧
      res.heap = blockOrder left right blockSize right.file.recs fuel left.file.recs := by
  obtain ⟨s1, h1, h2⟩ := blockLoop_noFaults env left right blockSize hb hins 0 fuel fuel
    left.file.recs
    { leftScan := left.file.OpenScan.2, rightScan := right.file.OpenScan.2, block := [],
      leftStatus := Status.DONE, rightStatus := right.file.OpenScan.1, leftRec := [],
      rightRec := [], heap := [], leftReads := 0, rightPasses := 0 }
    hlf hrf rfl (by omega) (by omega) (by simp [HeapFile.OpenScan]; omega) rfl rfl
  simp only [HeapFile.OpenScan, List.drop_zero, List.nil_append, hr] at h1 h2
  refine ⟨{ status := Status.OK, outFile := some s1.heap, heap := s1.heap,
            leftReads := s1.leftReads, rightPasses := s1.rightPasses, destroyCalls := 0 },
    ?_, rfl, rfl, h2⟩
  simp [BlockNestedLoops.Execute, he, HeapFile.OpenScan, hl, hr, h1]

/-! ### Index-nested-loop join -/

theorem buildIndex_noFaults (env : Env) (right : JoinSpec) (hti : env.treeInsertFaults = [])
    (rem : List Record) :
    ∀ (fuel : Nat) (s : INLState), s.rightScan.file.scanFaults = [] →
      s.rightScan.file.recs.drop s.rightScan.currRid = rem → rem.length < fuel →
      ∃ s1, buildIndex env right fuel s = some (Ctl.next s1) ∧
        s1.tree.entries = s.tree.entries ++ indexEntries env right s.rightScan.currRid rem ∧
        s1.tree.destroyed = s.tree.destroyed ∧
        s1.leftScan = s.leftScan ∧ s1.heap = s.heap := by
  induction rem with
  | nil =>
    intro fuel s hf hrem hfuel
    obtain ⟨k, rfl⟩ : ∃ k, fuel = k + 1 := ⟨fuel - 1, by simp at hfuel; omega⟩
    simp [buildIndex, Scan.GetNext_nil _ _ _ hf hrem, indexEntries]
  | cons x t ih =>
    intro fuel s hf hrem hfuel
    obtain ⟨k, rfl⟩ : ∃ k, fuel = k + 1 := ⟨fuel - 1, by simp at hfuel; omega⟩
    obtain ⟨s1, h1, h2, h3, h4, h5⟩ := ih k
      { s with rightStatus := Status.OK,
               rightScan := { s.rightScan with currRid := s.rightScan.currRid + 1 },
               rightRec := x, rightKey := env.toString (readInt x right.offset),
               tree := { s.tree with entries := s.tree.entries ++
                 [(env.toString (readInt x right.offset), s.rightScan.currRid)] } }
      hf (get?_of_drop_cons hrem).2 (by simp at hfuel; omega)
    refine ⟨s1, ?_, ?_, h3, h4, h5⟩
    · simp only [buildIndex, Scan.GetNext_cons _ _ _ x t hf hrem, BTreeFile.Insert, hti]
      simpa using h1
    · simpa [indexEntries, List.enumFrom_cons, List.append_assoc] using h2

theorem HeapFile.GetRecord_ok (f : HeapFile) (rid : RecordID) (rec r : Record)
    (hff : f.fetchFaults = []) (h : f.recs[rid]? = some r) :
    f.GetRecord rid rec = (Status.OK, r) := by
  simp [HeapFile.GetRecord, hff, h]

theorem probeLoop_noFaults (env : Env) (left right : JoinSpec) (hins : env.insertFaults = [])
    (hts : env.treeScanFaults = []) (hff : right.file.fetchFaults = [])
    (ps : List (Nat × Record)) :
    ∀ (fuel : Nat) (s : INLState), (∀ p ∈ ps, right.file.recs[p.1]? = some p.2) →
      ps.length < fuel →
      ∃ s1, probeLoop env left right fuel { pending := ps.map Prod.fst } s = some (Ctl.next s1) ∧
        s1.heap = s.heap ++ ps.map (fun p => MakeNewRecord s.leftRec p.2 left right) ∧
        s1.tree = s.tree ∧ s1.leftScan = s.leftScan := by
  induction ps with
  | nil =>
    intro fuel s _ hfuel
    obtain ⟨k, rfl⟩ : ∃ k, fuel = k + 1 := ⟨fuel - 1, by simp at hfuel; omega⟩
    simp [probeLoop, BTreeFileScan.GetNext]
  | cons p t ih =>
    intro fuel s hmem hfuel
    obtain ⟨k, rfl⟩ : ∃ k, fuel = k + 1 := ⟨fuel - 1, by simp at hfuel; omega⟩
    have hp : right.file.recs[p.1]? = some p.2 := hmem p (List.mem_cons_self _ _)
    obtain ⟨s1, h1, h2, h3, h4⟩ := ih k
      { s with rightRec := p.2,
               heap := s.heap ++ [MakeNewRecord s.leftRec p.2 left right] }
      (fun q hq => hmem q (List.mem_cons_of_mem _ hq)) (by simp at hfuel; omega)
    refine ⟨s1, ?_, ?_, h3, h4⟩
    · simp only [probeLoop, BTreeFileScan.GetNext, List.map_cons, hts,
        InsertRecord, hins]
      simpa [HeapFile.GetRecord_ok _ _ s.rightRec _ hff hp] using h1
    · simpa [List.append_assoc] using h2

theorem mem_enumFrom_zero {R : List Record} {p : Nat × Record} (h : p ∈ R.enumFrom 0) :
    R[p.1]? = some p.2 := by
  obtain ⟨i, r⟩ := p
  have := List.mem_enumFrom h
  rw [List.getElem?_eq_some_iff]
  refine ⟨by simpa using this.2.1, ?_⟩
  simpa using this.2.2.symm

theorem openScan_indexEntries (env : Env) (right : JoinSpec) (t : BTreeFile) (R : List Record)
    (k : Key) (ht : t.entries = indexEntries env right 0 R) :
    t.OpenScan k k =
      { pending := ((R.enumFrom 0).filter fun p =>
          decide (env.toString (readInt p.2 right.offset) = k)).map Prod.fst } := by
  have hk : ∀ e : Key, (k ≤ e ∧ e ≤ k) ↔ e = k :=
    fun e => ⟨fun h => le_antisymm h.2 h.1, fun h => by subst h; exact ⟨le_refl _, le_refl _⟩⟩
  simp only [BTreeFile.OpenScan, ht, indexEntries, List.filter_map, List.map_map]
  congr 2
  apply List.filter_congr
  intro p _
  simp [hk]

theorem filter_enumFrom_snd (P : Record → Bool) (R : List Record) (i : Nat) :
    ((R.enumFrom i).filter fun p => P p.2).map Prod.snd = R.filter P := by
  induction R generalizing i with
  | nil => simp
  | cons r t ih =>
    by_cases h : P r = true
    · simp [List.enumFrom_cons, List.filter_cons, h, ih]
    · simp [List.enumFrom_cons, List.filter_cons, h, ih]

theorem encJoin_eq_equiJoin (env : Env) (left right : JoinSpec)
    (hinj : Function.Injective env.toString) (L R : List Record) :
    encJoin env left right L R = equiJoin left right L R := by
  simp only [encJoin, equiJoin]
  apply List.flatMap_congr
  intro l _
  congr 1
  apply List.filter_congr
  intro r _
  simp only [decide_eq_decide]
  exact ⟨fun h => (hinj h).symm, fun h => by rw [h]⟩

theorem encJoin_nil_right (env : Env) (left right : JoinSpec) (L : List Record) :
    encJoin env left right L [] = [] := by
  simp [encJoin]

theorem probeAll_noFaults (env : Env) (left right : JoinSpec) (hins : env.insertFaults = [])
    (hts : env.treeScanFaults = []) (hff : right.file.fetchFaults = [])
    (n : Nat) (hn : right.file.recs.length < n) (rem : List Record) :
    ∀ (fuel : Nat) (s : INLState), s.leftScan.file.scanFaults = [] →
      s.leftScan.file.recs.drop s.leftScan.currRid = rem → rem.length < fuel →
      s.tree.entries = indexEntries env right 0 right.file.recs →
      ∃ s1, probeAll env left right n fuel s = some (Ctl.next s1) ∧
        s1.heap = s.heap ++ encJoin env left right rem right.file.recs ∧
        s1.tree = s.tree := by
  induction rem with
  | nil =>
    intro fuel s hf hrem hfuel _
    obtain ⟨k, rfl⟩ : ∃ k, fuel = k + 1 := ⟨fuel - 1, by simp at hfuel; omega⟩
    simp [probeAll, Scan.GetNext_nil _ _ _ hf hrem, encJoin]
  | cons x t ih =>
    intro fuel s hf hrem hfuel htree
    obtain ⟨k, rfl⟩ : ∃ k, fuel = k + 1 := ⟨fuel - 1, by simp at hfuel; omega⟩
    let s2 : INLState :=
      { s with leftStatus := Status.OK,
               leftScan := { s.leftScan with currRid := s.leftScan.currRid + 1 },
               leftRec := x, leftKey := env.toString (readInt x left.offset) }
    let ps := (right.file.recs.enumFrom 0).filter fun p =>
      decide (env.toString (readInt p.2 right.offset) = env.toString (readInt x left.offset))
    obtain ⟨s3, p1, p2, p3, p4⟩ := probeLoop_noFaults env left right hins hts hff ps n s2
      (fun p hp => mem_enumFrom_zero (List.mem_of_mem_filter hp))
      (lt_of_le_of_lt (List.length_filter_le _ _) (by simpa using hn))
    obtain ⟨s4, q1, q2, q3⟩ := ih k s3 (by simpa [p4, s2] using hf)
      (by simpa [p4, s2] using (get?_of_drop_cons hrem).2) (by simp at hfuel; omega)
      (by simpa [p3, s2] using htree)
    refine ⟨s4, ?_, ?_, ?_⟩
    · simp only [probeAll, Scan.GetNext_cons _ _ _ x t hf hrem]
      have ho := openScan_indexEntries env right s.tree right.file.recs
        (env.toString (readInt x left.offset)) htree
      simp only [ne_eq, not_true_eq_false, if_false, Status.noConfusion, ho]
      simp only [s2, ps] at p1
      simp [p1, q1]
    · rw [q2, p2]
      have e1 : ps.map (fun p => MakeNewRecord s2.leftRec p.2 left right) =
          (right.file.recs.filter fun r =>
            decide (env.toString (readInt r right.offset) =
              env.toString (readInt x left.offset))).map
              fun r => MakeNewRecord x r left right := by
        have := filter_enumFrom_snd (fun r => decide (env.toString (readInt r right.offset) =
          env.toString (readInt x left.offset))) right.file.recs 0
        have e2 : ps.map (fun p => MakeNewRecord s2.leftRec p.2 left right) =
            (ps.map Prod.snd).map (fun r => MakeNewRecord x r left right) := by
          simp [List.map_map, s2]
        rw [e2, this]
      rw [e1]
      simp [encJoin, List.flatMap_cons, List.append_assoc]
    · rw [q3, p3]

/-- A run of the index-nested-loop join in which no storage or index call
fails. -/
theorem inl_run (env : Env) (fuel : Nat) (left right : JoinSpec)
    (he : env.NoFaults) (hl : left.file.NoFaults) (hr : right.file.NoFaults)
    (hfuel : left.file.recs.length + right.file.recs.length < fuel) :
    ∃ res, IndexNestedLoops.Execute env fuel left right = some res ∧
      res.status = Status.OK ∧ res.outFile = some res.heap ∧ res.destroyCalls = 1 ∧
      res.heap = encJoin env left right left.file.recs right.file.recs := by
  obtain ⟨he1, he2, he3, he4, he5⟩ := he
  obtain ⟨hl1, hl2, _⟩ := hl
  obtain ⟨hr1, hr2, hr3⟩ := hr
  obtain ⟨s1, b1, b2, b3, b4, b5⟩ := buildIndex_noFaults env right he4 right.file.recs fuel
    { leftScan := { file := left.file, currRid := 0 },
      rightScan := { file := right.file, currRid := 0 },
      tree := { entries := [], destroyed := 0 },
      leftStatus := Status.OK, rightStatus := Status.OK, leftRec := [], rightRec := [],
      leftKey := [], rightKey := [], heap := [] }
    hr2 rfl (by omega)
  simp only [List.nil_append] at b2 b3 b4 b5
  obtain ⟨s2, p1, p2, p3⟩ := probeAll_noFaults env left right he2 he5 hr3 fuel (by omega)
    left.file.recs fuel s1 (by simpa [b4] using hl2) (by simp [b4]) (by omega) b2
  refine ⟨{ status := Status.OK, outFile := some s2.heap, heap := s2.heap, leftReads := 0,
            rightPasses := 0, destroyCalls := s2.tree.DestroyFile.destroyed },
    ?_, rfl, rfl, ?_, ?_⟩
  · simp [IndexNestedLoops.Execute, he1, he3, HeapFile.OpenScan, hl1, hr1, b1, p1]
  · simp [BTreeFile.DestroyFile, p3, b3]
  · simpa [b5] using p2

/-! ### Sort-merge join: facts about sorted lists -/

theorem equiJoin_nil_right (left right : JoinSpec) (L : List Record) :
    equiJoin left right L [] = [] := by
  simp [equiJoin]

theorem equiJoin_eq_nil (left right : JoinSpec) (L R : List Record)
    (h : ∀ l ∈ L, ∀ r ∈ R, readInt l left.offset ≠ readInt r right.offset) :
    equiJoin left right L R = [] := by
  simp only [equiJoin, List.flatMap_eq_nil_iff, List.map_eq_nil_iff, List.filter_eq_nil_iff]
  intro l hl r hr
  simpa using h l hl r hr

theorem equiJoin_drop_left (left right : JoinSpec) (A B R : List Record)
    (h : ∀ l ∈ A, ∀ r ∈ R, readInt l left.offset ≠ readInt r right.offset) :
    equiJoin left right (A ++ B) R = equiJoin left right B R := by
  rw [equiJoin_append, equiJoin_eq_nil left right A R h, List.nil_append]

theorem equiJoin_drop_right (left right : JoinSpec) (L A B : List Record)
    (h : ∀ l ∈ L, ∀ r ∈ A, readInt l left.offset ≠ readInt r right.offset) :
    equiJoin left right L (A ++ B) = equiJoin left right L B := by
  induction L with
  | nil => simp [equiJoin]
  | cons l t ih =>
    have e : ∀ R, equiJoin left right (l :: t) R =
        (R.filter fun r => decide (readInt l left.offset = readInt r right.offset)).map
          (fun r => MakeNewRecord l r left right) ++ equiJoin left right t R := by
      intro R; simp [equiJoin, List.flatMap_cons]
    rw [e, e, ih (fun x hx => h x (List.mem_cons_of_mem _ hx)), List.filter_append]
    have : (A.filter fun r => decide (readInt l left.offset = readInt r right.offset)) = [] := by
      rw [List.filter_eq_nil_iff]
      intro r hr
      simpa using h l (List.mem_cons_self _ _) r hr
    rw [this, List.nil_append]

theorem SortedBy.head_le {j : JoinSpec} {x : Record} {t : List Record}
    (h : SortedBy j (x :: t)) : ∀ r ∈ x :: t, readInt x j.offset ≤ readInt r j.offset := by
  intro r hr
  rcases List.mem_cons.mp hr with rfl | hr
  · exact le_refl _
  · exact List.rel_of_pairwise_cons h hr

theorem SortedBy.tail {j : JoinSpec} {x : Record} {t : List Record}
    (h : SortedBy j (x :: t)) : SortedBy j t :=
  List.Pairwise.of_cons h

theorem SortedBy.sublist {j : JoinSpec} {l l2 : List Record} (h : SortedBy j l)
    (hs : l2.Sublist l) : SortedBy j l2 :=
  List.Pairwise.sublist hs h

/-- In a list whose keys are all at least `k` and ascending, the records with
key `k` are a leading run. -/
theorem filter_eq_takeWhile (j : JoinSpec) (k : Int) (l : List Record) (hs : SortedBy j l)
    (hk : ∀ r ∈ l, k ≤ readInt r j.offset) :
    (l.filter fun r => decide (k = readInt r j.offset)) =
      l.takeWhile fun r => decide (readInt r j.offset = k) := by
  induction l with
  | nil => simp
  | cons x t ih =>
    by_cases hx : readInt x j.offset = k
    · subst hx
      simp only [List.filter_cons, List.takeWhile_cons, decide_True, if_true]
      rw [ih hs.tail (fun r hr => hk r (List.mem_cons_of_mem _ hr))]
    · have hx2 : ¬ k = readInt x j.offset := fun h => hx h.symm
      simp only [List.filter_cons, List.takeWhile_cons, hx, hx2, decide_False,
        Bool.false_eq_true, if_false]
      rw [List.filter_eq_nil_iff]
      intro r hr
      have hlt : k < readInt x j.offset :=
        lt_of_le_of_ne (hk x (List.mem_cons_self _ _)) hx2
      have := hs.head_le r (List.mem_cons_of_mem _ hr)
      simp only [decide_eq_true_eq]
      omega

theorem groupEnd_split (right : JoinSpec) (k : Int) (rs : List Record) :
    ∃ A, rs = A ++ groupEnd right k rs ∧ ∀ r ∈ A, readInt r right.offset = k := by
  induction rs with
  | nil => exact ⟨[], by simp [groupEnd]⟩
  | cons z v ih =>
    cases v with
    | nil => exact ⟨[], by simp [groupEnd]⟩
    | cons w v =>
      by_cases hz : readInt z right.offset = k
      · obtain ⟨A, hA, hAk⟩ := ih
        refine ⟨z :: A, ?_, ?_⟩
        · simp only [groupEnd, hz, if_true, List.cons_append]
          rw [← hA]
        · intro r hr
          rcases List.mem_cons.mp hr with rfl | hr
          · exact hz
          · exact hAk r hr
      · exact ⟨[], by simp [groupEnd, hz]⟩

theorem groupEnd_ne_nil (right : JoinSpec) (k : Int) (z : Record) (v : List Record) :
    groupEnd right k (z :: v) ≠ [] := by
  induction v generalizing z with
  | nil => simp [groupEnd]
  | cons w v ih =>
    by_cases hz : readInt z right.offset = k
    · simp only [groupEnd, hz, if_true]; exact ih w
    · simp [groupEnd, hz]

theorem groupEnd_length_le (right : JoinSpec) (k : Int) (rs : List Record) :
    (groupEnd right k rs).length ≤ rs.length := by
  obtain ⟨A, hA, _⟩ := groupEnd_split right k rs
  have := congrArg List.length hA
  simp only [List.length_append] at this
  omega

theorem groupEnd_sublist (right : JoinSpec) (k : Int) (rs : List Record) :
    (groupEnd right k rs).Sublist rs := by
  obtain ⟨A, hA, _⟩ := groupEnd_split right k rs
  conv_rhs => rw [hA]
  exact List.sublist_append_right _ _

/-! ### Sort-merge join: the loops -/

theorem advanceLeft_noFaults (left right : JoinSpec) (remL : List Record) :
    ∀ (fuel : Nat) (s : SMState), s.leftScan.file.scanFaults = [] →
      s.leftStatus = Status.OK →
      s.leftScan.file.recs.drop s.leftScan.currRid = remL → remL.length < fuel →
      ∃ st rid rec scan,
        advanceLeft left right fuel s =
          some (Ctl.next { s with leftStatus := st, leftRid := rid, leftRec := rec,
                                  leftScan := scan }) ∧
        scan.file = s.leftScan.file ∧
        SPos st rec scan ((s.leftRec :: remL).dropWhile fun l =>
          decide (readInt l left.offset < readInt s.rightGRec right.offset)) := by
  induction remL with
  | nil =>
    intro fuel s hf hst hrem hfuel
    obtain ⟨k, rfl⟩ : ∃ k, fuel = k + 1 := ⟨fuel - 1, by simp at hfuel; omega⟩
    by_cases hc : readInt s.leftRec left.offset < readInt s.rightGRec right.offset
    · refine ⟨Status.DONE, s.leftRid, s.leftRec, s.leftScan, ?_, rfl, ?_⟩
      · simp [advanceLeft, hc, Scan.GetNext_nil _ _ _ hf hrem]
      · simp [List.dropWhile, hc, SPos]
    · refine ⟨s.leftStatus, s.leftRid, s.leftRec, s.leftScan, ?_, rfl, ?_⟩
      · simp [advanceLeft, hc]
      · simp [List.dropWhile, hc, SPos, hst, hrem]
  | cons x t ih =>
    intro fuel s hf hst hrem hfuel
    obtain ⟨k, rfl⟩ : ∃ k, fuel = k + 1 := ⟨fuel - 1, by simp at hfuel; omega⟩
    by_cases hc : readInt s.leftRec left.offset < readInt s.rightGRec right.offset
    · obtain ⟨st, rid, rec, scan, h1, h2, h3⟩ := ih k
        { s with leftStatus := Status.OK, leftRid := s.leftScan.currRid, leftRec := x,
                 leftScan := { s.leftScan with currRid := s.leftScan.currRid + 1 } }
        hf rfl (get?_of_drop_cons hrem).2 (by simp at hfuel; omega)
      refine ⟨st, rid, rec, scan, ?_, h2, ?_⟩
      · simp only [advanceLeft, hc, if_true, Scan.GetNext_cons _ _ _ x t hf hrem]
        simpa using h1
      · simpa [List.dropWhile, hc] using h3
    · refine ⟨s.leftStatus, s.leftRid, s.leftRec, s.leftScan, ?_, rfl, ?_⟩
      · simp [advanceLeft, hc]
      · simp [List.dropWhile, hc, SPos, hst, hrem]

theorem advanceG_noFaults (left right : JoinSpec) (u : List Record) :
    ∀ (fuel : Nat) (s : SMState) (y : Record), s.rightGScan.file.scanFaults = [] →
      GPos s.rightGStatus s.rightGRid s.rightGRec s.rightGScan (y :: u) → u.length < fuel →
      ∃ st rid rec scan,
        advanceG left right fuel s =
          some (Ctl.next { s with rightGStatus := st, rightGRid := rid, rightGRec := rec,
                                  rightGScan := scan }) ∧
        scan.file = s.rightGScan.file ∧
        GPos st rid rec scan ((y :: u).dropWhile fun r =>
          decide (readInt r right.offset < readInt s.leftRec left.offset)) := by
  induction u with
  | nil =>
    intro fuel s y hf hpos hfuel
    obtain ⟨k, rfl⟩ : ∃ k, fuel = k + 1 := ⟨fuel - 1, by simp at hfuel; omega⟩
    obtain ⟨p1, p2, p3, p4⟩ := hpos
    have hnext : s.rightGScan.file.recs.drop s.rightGScan.currRid = [] := by
      rw [p4]; exact (get?_of_drop_cons p3).2
    by_cases hc : readInt s.leftRec left.offset > readInt s.rightGRec right.offset
    · refine ⟨Status.DONE, s.rightGRid, s.rightGRec, s.rightGScan, ?_, rfl, ?_⟩
      · simp [advanceG, hc, Scan.GetNext_nil _ _ _ hf hnext]
      · have hc2 : readInt y right.offset < readInt s.leftRec left.offset := by
          rw [← p2]; exact hc
        simp [List.dropWhile, hc2, GPos]
    · refine ⟨s.rightGStatus, s.rightGRid, s.rightGRec, s.rightGScan, ?_, rfl, ?_⟩
      · simp [advanceG, hc]
      · have hc2 : ¬ readInt y right.offset < readInt s.leftRec left.offset := by
          rw [← p2]; exact hc
        simp [List.dropWhile, hc2, GPos, p1, p2, p3, p4]
  | cons w v ih =>
    intro fuel s y hf hpos hfuel
    obtain ⟨k, rfl⟩ : ∃ k, fuel = k + 1 := ⟨fuel - 1, by simp at hfuel; omega⟩
    obtain ⟨p1, p2, p3, p4⟩ := hpos
    have hnext : s.rightGScan.file.recs.drop s.rightGScan.currRid = w :: v := by
      rw [p4]; exact (get?_of_drop_cons p3).2
    by_cases hc : readInt s.leftRec left.offset > readInt s.rightGRec right.offset
    · obtain ⟨st, rid, rec, scan, h1, h2, h3⟩ := ih k
        { s with rightGStatus := Status.OK, rightGRid := s.rightGScan.currRid, rightGRec := w,
                 rightGScan := { s.rightGScan with currRid := s.rightGScan.currRid + 1 } }
        w hf ⟨rfl, rfl, hnext, rfl⟩ (by simp at hfuel; omega)
      have hc2 : readInt y right.offset < readInt s.leftRec left.offset := by
        rw [← p2]; exact hc
      refine ⟨st, rid, rec, scan, ?_, h2, ?_⟩
      · simp only [advanceG, hc, if_true, Scan.GetNext_cons _ _ _ w v hf hnext]
        simpa using h1
      · simpa [List.dropWhile, hc2] using h3
    · refine ⟨s.rightGStatus, s.rightGRid, s.rightGRec, s.rightGScan, ?_, rfl, ?_⟩
      · simp [advanceG, hc]
      · have hc2 : ¬ readInt y right.offset < readInt s.leftRec left.offset := by
          rw [← p2]; exact hc
        simp [List.dropWhile, hc2, GPos, p1, p2, p3, p4]

theorem replayGroup_noFaults (env : Env) (left right : JoinSpec) (hins : env.insertFaults = [])
    (v : List Record) :
    ∀ (fuel : Nat) (s : SMState) (z : Record), s.rightScan.file.scanFaults = [] →
      s.rightRec = z → s.rightScan.file.recs.drop s.rightRid = z :: v →
      s.rightScan.currRid = s.rightRid + 1 → v.length < fuel →
      ∃ st rid rec scan,
        replayGroup env left right fuel s =
          some (Ctl.next { s with
            heap := s.heap ++ ((z :: v).takeWhile fun r =>
              decide (readInt r right.offset = readInt s.leftRec left.offset)).map
                fun r => MakeNewRecord s.leftRec r left right,
            rightStatus := st, rightRid := rid, rightRec := rec, rightScan := scan }) ∧
        scan.file = s.rightScan.file ∧
        scan.file.recs.drop rid = groupEnd right (readInt s.leftRec left.offset) (z :: v) := by
  induction v with
  | nil =>
    intro fuel s z hf hz hdrop hcur hfuel
    obtain ⟨k, rfl⟩ : ∃ k, fuel = k + 1 := ⟨fuel - 1, by simp at hfuel; omega⟩
    have hnext : s.rightScan.file.recs.drop s.rightScan.currRid = [] := by
      rw [hcur]; exact (get?_of_drop_cons hdrop).2
    by_cases hc : readInt s.rightRec right.offset = readInt s.leftRec left.offset
    · have hc2 : readInt z right.offset = readInt s.leftRec left.offset := by rw [← hz]; exact hc
      refine ⟨Status.DONE, s.rightRid, s.rightRec, s.rightScan, ?_, rfl, ?_⟩
      · simp [replayGroup, hc, InsertRecord, hins, Scan.GetNext_nil _ _ _ hf hnext,
          List.takeWhile, hc2, hz]
      · simpa [groupEnd] using hdrop
    · have hc2 : ¬ readInt z right.offset = readInt s.leftRec left.offset := by
        rw [← hz]; exact hc
      refine ⟨s.rightStatus, s.rightRid, s.rightRec, s.rightScan, ?_, rfl, ?_⟩
      · simp [replayGroup, hc, List.takeWhile, hc2]
      · simpa [groupEnd] using hdrop
  | cons w v ih =>
    intro fuel s z hf hz hdrop hcur hfuel
    obtain ⟨k, rfl⟩ : ∃ k, fuel = k + 1 := ⟨fuel - 1, by simp at hfuel; omega⟩
    have hnext : s.rightScan.file.recs.drop s.rightScan.currRid = w :: v := by
      rw [hcur]; exact (get?_of_drop_cons hdrop).2
    by_cases hc : readInt s.rightRec right.offset = readInt s.leftRec left.offset
    · have hc2 : readInt z right.offset = readInt s.leftRec left.offset := by rw [← hz]; exact hc
      obtain ⟨st, rid, rec, scan, h1, h2, h3⟩ := ih k
        { s with heap := s.heap ++ [MakeNewRecord s.leftRec s.rightRec left right],
                 rightStatus := Status.OK, rightRid := s.rightScan.currRid, rightRec := w,
                 rightScan := { s.rightScan with currRid := s.rightScan.currRid + 1 } }
        w hf rfl hnext rfl (by simp at hfuel; omega)
      refine ⟨st, rid, rec, scan, ?_, h2, ?_⟩
      · simp only [replayGroup, hc, if_true, InsertRecord, hins, List.not_mem_nil, if_false,
          Scan.GetNext_cons _ _ _ w v hf hnext]
        simpa [List.takeWhile_cons, hc2, hz, List.append_assoc] using h1
      · simpa [groupEnd, hc2] using h3
    · have hc2 : ¬ readInt z right.offset = readInt s.leftRec left.offset := by
        rw [← hz]; exact hc
      refine ⟨s.rightStatus, s.rightRid, s.rightRec, s.rightScan, ?_, rfl, ?_⟩
      · simp [replayGroup, hc, List.takeWhile, hc2]
      · simpa [groupEnd, hc2] using hdrop

theorem groupLoop_noFaults (env : Env) (left right : JoinSpec) (hins : env.insertFaults = [])
    (n : Nat) (y : Record) (u : List Record) (hn : u.length < n) (t : List Record) :
    ∀ (fuel : Nat) (s : SMState) (x : Record), s.leftScan.file.scanFaults = [] →
      s.rightScan.file.scanFaults = [] →
      SPos s.leftStatus s.leftRec s.leftScan (x :: t) →
      s.rightGRec = y → s.rightScan.file.recs.drop s.rightGRid = y :: u → t.length < fuel →
      ∃ lst lrid lrec lscan rst rrid rrec rscan,
        groupLoop env left right n fuel s =
          some (Ctl.next { s with
            heap := s.heap ++ ((x :: t).takeWhile fun l =>
              decide (readInt l left.offset = readInt y right.offset)).flatMap fun l =>
                ((y :: u).takeWhile fun r =>
                  decide (readInt r right.offset = readInt l left.offset)).map
                    fun r => MakeNewRecord l r left right,
            leftStatus := lst, leftRid := lrid, leftRec := lrec, leftScan := lscan,
            rightStatus := rst, rightRid := rrid, rightRec := rrec, rightScan := rscan }) ∧
        lscan.file = s.leftScan.file ∧ rscan.file = s.rightScan.file ∧
        SPos lst lrec lscan ((x :: t).dropWhile fun l =>
          decide (readInt l left.offset = readInt y right.offset)) ∧
        (readInt x left.offset = readInt y right.offset →
          rscan.file.recs.drop rrid = groupEnd right (readInt y right.offset) (y :: u)) ∧
        (readInt x left.offset ≠ readInt y right.offset → rrid = s.rightRid) := by
  induction t with
  | nil =>
    intro fuel s x hlf hrf hS hG hdrop hfuel
    obtain ⟨k, rfl⟩ : ∃ k, fuel = k + 1 := ⟨fuel - 1, by simp at hfuel; omega⟩
    obtain ⟨q1, q2, q3⟩ := hS
    by_cases hc : readInt x left.offset = readInt y right.offset
    · have hc1 : readInt s.leftRec left.offset = readInt s.rightGRec right.offset := by
        rw [q2, hG]; exact hc
      obtain ⟨st, rid, rec, scan, r1, r2, r3⟩ := replayGroup_noFaults env left right hins u n
        { s with rightStatus := Status.OK, rightRid := s.rightGRid, rightRec := y,
                 rightScan := { s.rightScan with currRid := s.rightGRid + 1 } }
        y hrf rfl hdrop rfl hn
      refine ⟨Status.DONE, s.leftRid, s.leftRec, s.leftScan, st, rid, rec, scan, ?_, rfl, r2,
        ?_, ?_, ?_⟩
      · simp only [groupLoop, hc1, if_true, Scan.MoveTo,
          Scan.GetNext_cons ⟨s.rightScan.file, s.rightGRid⟩ _ _ y u hrf hdrop]
        simp only [ne_eq, not_true_eq_false, if_false, r1]
        simp [Scan.GetNext_nil _ _ _ hlf q3, List.takeWhile, hc, q2]
      · simp [List.dropWhile, hc, SPos]
      · intro _
        simpa [q2, hc] using r3
      · intro h; exact absurd hc h
    · have hc1 : ¬ readInt s.leftRec left.offset = readInt s.rightGRec right.offset := by
        rw [q2, hG]; exact hc
      refine ⟨s.leftStatus, s.leftRid, s.leftRec, s.leftScan, s.rightStatus, s.rightRid,
        s.rightRec, s.rightScan, ?_, rfl, rfl, ?_, ?_, ?_⟩
      · simp [groupLoop, hc1, List.takeWhile, hc]
      · simp [List.dropWhile, hc, SPos, q1, q2, q3]
      · intro h; exact absurd h hc
      · intro _; rfl
  | cons x2 t ih =>
    intro fuel s x hlf hrf hS hG hdrop hfuel
    obtain ⟨k, rfl⟩ : ∃ k, fuel = k + 1 := ⟨fuel - 1, by simp at hfuel; omega⟩
    obtain ⟨q1, q2, q3⟩ := hS
    by_cases hc : readInt x left.offset = readInt y right.offset
    · have hc1 : readInt s.leftRec left.offset = readInt s.rightGRec right.offset := by
        rw [q2, hG]; exact hc
      obtain ⟨st, rid, rec, scan, r1, r2, r3⟩ := replayGroup_noFaults env left right hins u n
        { s with rightStatus := Status.OK, rightRid := s.rightGRid, rightRec := y,
                 rightScan := { s.rightScan with currRid := s.rightGRid + 1 } }
        y hrf rfl hdrop rfl hn
      obtain ⟨lst, lrid, lrec, lscan, rst, rrid, rrec, rscan, g1, g2, g3, g4, g5, g6⟩ := ih k
        { s with
            heap := s.heap ++ ((y :: u).takeWhile fun r =>
              decide (readInt r right.offset = readInt s.leftRec left.offset)).map
                fun r => MakeNewRecord s.leftRec r left right,
            rightStatus := st, rightRid := rid, rightRec := rec, rightScan := scan,
            leftStatus := Status.OK, leftRid := s.leftScan.currRid, leftRec := x2,
            leftScan := { s.leftScan with currRid := s.leftScan.currRid + 1 } }
        x2 hlf (by simpa [r2] using hrf) ⟨rfl, rfl, (get?_of_drop_cons q3).2⟩ hG
        (by simpa [r2] using hdrop) (by simp at hfuel; omega)
      refine ⟨lst, lrid, lrec, lscan, rst, rrid, rrec, rscan, ?_, g2, ?_, ?_, ?_, ?_⟩
      · simp only [groupLoop, hc1, if_true, Scan.MoveTo,
          Scan.GetNext_cons ⟨s.rightScan.file, s.rightGRid⟩ _ _ y u hrf hdrop]
        simp only [ne_eq, not_true_eq_false, if_false, r1]
        simp only [Scan.GetNext_cons _ _ _ x2 t hlf q3]
        simpa [List.takeWhile_cons, hc, q2, List.append_assoc] using g1
      · simpa [r2] using g3
      · simpa [List.dropWhile, hc] using g4
      · intro _
        by_cases hc2 : readInt x2 left.offset = readInt y right.offset
        · exact g5 hc2
        · have e1 := g6 hc2
          simp only at e1
          rw [e1, g3]
          simpa [q2, hc] using r3
      · intro h; exact absurd hc h
    · have hc1 : ¬ readInt s.leftRec left.offset = readInt s.rightGRec right.offset := by
        rw [q2, hG]; exact hc
      refine ⟨s.leftStatus, s.leftRid, s.leftRec, s.leftScan, s.rightStatus, s.rightRid,
        s.rightRec, s.rightScan, ?_, rfl, rfl, ?_, ?_, ?_⟩
      · simp [groupLoop, hc1, List.takeWhile, hc]
      · simp [List.dropWhile, hc, SPos, q1, q2, q3]
      · intro h; exact absurd h hc
      · intro _; rfl

theorem dropWhile_tail_length_le (p : Record → Bool) (x : Record) (t : List Record)
    (x1 : Record) (t1 : List Record) (h : (x :: t).dropWhile p = x1 :: t1) :
    t1.length ≤ t.length := by
  have := (List.dropWhile_sublist p (l := x :: t)).length_le
  rw [h] at this
  simpa using this

/-- One pass through the body of the main loop in a fault-free run, with `S`
on `x :: t` and `G` on `y :: u`. -/
theorem mergeStep_noFaults (env : Env) (left right : JoinSpec) (hins : env.insertFaults = [])
    (n : Nat) (s : SMState) (x y : Record) (t u : List Record)
    (hlf : s.leftScan.file.scanFaults = []) (hgf : s.rightGScan.file.scanFaults = [])
    (hfile : s.rightScan.file = s.rightGScan.file)
    (hS : SPos s.leftStatus s.leftRec s.leftScan (x :: t))
    (hG : GPos s.rightGStatus s.rightGRid s.rightGRec s.rightGScan (y :: u))
    (hnL : t.length < n) (hnR : u.length < n) :
    (((x :: t).dropWhile fun l => decide (readInt l left.offset < readInt y right.offset)) = [] →
      ∃ s1, mergeStep env left right n s = some (Ctl.brk s1) ∧ s1.heap = s.heap) ∧
    (∀ x1 t1,
      ((x :: t).dropWhile fun l => decide (readInt l left.offset < readInt y right.offset))
        = x1 :: t1 →
      ((((y :: u).dropWhile fun r => decide (readInt r right.offset < readInt x1 left.offset))
          = [] →
        ∃ s1, mergeStep env left right n s = some (Ctl.brk s1) ∧ s1.heap = s.heap) ∧
      (∀ y1 u1,
        ((y :: u).dropWhile fun r => decide (readInt r right.offset < readInt x1 left.offset))
          = y1 :: u1 →
        ∃ s1, mergeStep env left right n s = some (Ctl.next s1) ∧
          s1.heap = s.heap ++ (((x1 :: t1).takeWhile fun l =>
            decide (readInt l left.offset = readInt y1 right.offset)).flatMap fun l =>
              ((y1 :: u1).takeWhile fun r =>
                decide (readInt r right.offset = readInt l left.offset)).map
                  fun r => MakeNewRecord l r left right) ∧
          SPos s1.leftStatus s1.leftRec s1.leftScan ((x1 :: t1).dropWhile fun l =>
            decide (readInt l left.offset = readInt y1 right.offset)) ∧
          GPos s1.rightGStatus s1.rightGRid s1.rightGRec s1.rightGScan
            (if readInt x1 left.offset = readInt y1 right.offset
              then groupEnd right (readInt y1 right.offset) (y1 :: u1) else y1 :: u1) ∧
          s1.leftScan.file = s.leftScan.file ∧ s1.rightScan.file = s.rightScan.file ∧
          s1.rightGScan.file = s.rightGScan.file))) := by
  have hrf : s.rightScan.file.scanFaults = [] := by rw [hfile]; exact hgf
  obtain ⟨lst, lrid, lrec, lscan, a1, a2, a3⟩ := advanceLeft_noFaults left right t n s hlf
    hS.1 hS.2.2 hnL
  rw [hS.2.1, hG.2.1] at a3
  refine ⟨?_, ?_⟩
  · intro hL
    rw [hL] at a3
    refine ⟨{ s with leftStatus := lst, leftRid := lrid, leftRec := lrec, leftScan := lscan },
      ?_, rfl⟩
    simp only [mergeStep, a1]
    simp [show lst = Status.DONE from a3]
  · intro x1 t1 hL
    rw [hL] at a3
    obtain ⟨b1, b2, b3⟩ := a3
    subst b1 b2
    have ht1 : t1.length < n := lt_of_le_of_lt (dropWhile_tail_length_le _ _ _ _ _ hL) hnL
    obtain ⟨gst, grid, grec, gscan, c1, c2, c3⟩ := advanceG_noFaults left right u n
      { s with leftStatus := Status.OK, leftRid := lrid, leftRec := lrec, leftScan := lscan }
      y hgf hG hnR
    simp only at c1 c2 c3
    refine ⟨?_, ?_⟩
    · intro hR
      rw [hR] at c3
      refine ⟨{ s with leftStatus := Status.OK, leftRid := lrid, leftRec := lrec,
                       leftScan := lscan, rightGStatus := gst, rightGRid := grid,
                       rightGRec := grec, rightGScan := gscan }, ?_, rfl⟩
      simp only [mergeStep, a1, c1]
      simp [show gst = Status.DONE from c3]
    · intro y1 u1 hR
      rw [hR] at c3
      obtain ⟨d1, d2, d3, d4⟩ := c3
      subst d1 d2
      have hu1 : u1.length < n := lt_of_le_of_lt (dropWhile_tail_length_le _ _ _ _ _ hR) hnR
      have hTdrop : s.rightScan.file.recs.drop grid = grec :: u1 := by
        rw [hfile, ← c2]; exact d3
      obtain ⟨lst2, lrid2, lrec2, lscan2, rst, rrid, rrec, rscan, g1, g2, g3, g4, g5, g6⟩ :=
        groupLoop_noFaults env left right hins n grec u1 hu1 t1 n
          { s with leftStatus := Status.OK, leftRid := lrid, leftRec := lrec, leftScan := lscan,
                   rightGStatus := Status.OK, rightGRid := grid, rightGRec := grec,
                   rightGScan := gscan,
                   rightStatus := Status.OK, rightRid := grid, rightRec := grec,
                   rightScan := { s.rightScan with currRid := grid + 1 } }
          lrec (by simpa [a2] using hlf) hrf ⟨rfl, rfl, b3⟩ rfl hTdrop ht1
      simp only at g1 g2 g3 g5 g6
      have hnew : gscan.file.recs.drop rrid =
          (if readInt lrec left.offset = readInt grec right.offset
            then groupEnd right (readInt grec right.offset) (grec :: u1) else grec :: u1) := by
        by_cases hc : readInt lrec left.offset = readInt grec right.offset
        · rw [if_pos hc, c2, ← hfile, ← g3]; exact g5 hc
        · rw [if_neg hc, g6 hc]; exact d3
      obtain ⟨y2, u2, hy2⟩ : ∃ y2 u2,
          (if readInt lrec left.offset = readInt grec right.offset
            then groupEnd right (readInt grec right.offset) (grec :: u1) else grec :: u1)
            = y2 :: u2 := by
        by_cases hc : readInt lrec left.offset = readInt grec right.offset
        · rw [if_pos hc]
          cases hge : groupEnd right (readInt grec right.offset) (grec :: u1) with
          | nil => exact absurd hge (groupEnd_ne_nil _ _ _ _)
          | cons a b => exact ⟨a, b, rfl⟩
        · rw [if_neg hc]; exact ⟨grec, u1, rfl⟩
      rw [hy2] at hnew ⊢
      have hgf2 : gscan.file.scanFaults = [] := by rw [c2]; exact hgf
      refine ⟨{ s with
          heap := s.heap ++ ((lrec :: t1).takeWhile fun l =>
            decide (readInt l left.offset = readInt grec right.offset)).flatMap fun l =>
              ((grec :: u1).takeWhile fun r =>
                decide (readInt r right.offset = readInt l left.offset)).map
                  fun r => MakeNewRecord l r left right,
          leftStatus := lst2, leftRid := lrid2, leftRec := lrec2, leftScan := lscan2,
          rightStatus := rst, rightRid := rrid, rightRec := rrec, rightScan := rscan,
          rightGStatus := Status.OK, rightGRid := rrid, rightGRec := y2,
          rightGScan := { file := gscan.file, currRid := rrid + 1 } },
        ?_, ?_, ?_, ?_, ?_, ?_, ?_⟩
      · simp only [mergeStep, a1, c1, Scan.MoveTo]
        simp only [Status.noConfusion, if_false,
          Scan.GetNext_cons ⟨s.rightScan.file, grid⟩ _ _ grec u1 hrf hTdrop]
        simp only [ne_eq, not_true_eq_false, if_false, g1]
        simp only [Scan.GetNext_cons ⟨gscan.file, rrid⟩ _ _ y2 u2 hgf2 hnew]
        rfl
      · rfl
      · exact g4
      · exact ⟨rfl, rfl, hnew, rfl⟩
      · simpa [a2] using g2
      · exact g3
      · exact c2

/-! ### Sort-merge join: one step of the merge on sorted lists -/

theorem dropWhile_head_false (p : Record → Bool) (l : List Record) (a : Record)
    (b : List Record) (h : l.dropWhile p = a :: b) : p a = false := by
  have hne : l.dropWhile p ≠ [] := by rw [h]; simp
  have := List.head_dropWhile_not p l hne
  simpa [h] using this

theorem dropWhile_eq_or_shorter (p : Record → Bool) (l : List Record) :
    l.dropWhile p = l ∨ (l.dropWhile p).length < l.length := by
  cases l with
  | nil => left; rfl
  | cons a b =>
    by_cases h : p a = true
    · right
      have := (List.dropWhile_sublist p (l := b)).length_le
      simp only [List.dropWhile_cons, h, if_true, List.length_cons]
      omega
    · left
      simp [List.dropWhile_cons, h]

theorem dropWhile_key_ne (j : JoinSpec) (k : Int) (l : List Record) (hs : SortedBy j l)
    (hk : ∀ r ∈ l, k ≤ readInt r j.offset) :
    ∀ r ∈ l.dropWhile (fun r => decide (readInt r j.offset = k)), readInt r j.offset ≠ k := by
  induction l with
  | nil => simp
  | cons x t ih =>
    by_cases hx : readInt x j.offset = k
    · simp only [List.dropWhile_cons, hx, decide_True, if_true]
      exact ih hs.tail (fun r hr => hk r (List.mem_cons_of_mem _ hr))
    · simp only [List.dropWhile_cons, hx, decide_False, Bool.false_eq_true, if_false]
      intro r hr
      have h1 := hs.head_le r hr
      have h2 := hk x (List.mem_cons_self _ _)
      omega

theorem equiJoin_left_exhausted (left right : JoinSpec) (L : List Record) (y : Record)
    (u : List Record) (hR : SortedBy right (y :: u))
    (h : (L.dropWhile fun l => decide (readInt l left.offset < readInt y right.offset)) = []) :
    equiJoin left right L (y :: u) = [] := by
  apply equiJoin_eq_nil
  intro l hl r hr
  have h1 := List.dropWhile_eq_nil_iff.mp h l hl
  have h2 := hR.head_le r hr
  simp only [decide_eq_true_eq] at h1
  omega

theorem equiJoin_skip_left (left right : JoinSpec) (L L1 : List Record) (y : Record)
    (u : List Record) (hR : SortedBy right (y :: u))
    (h : (L.dropWhile fun l => decide (readInt l left.offset < readInt y right.offset)) = L1) :
    equiJoin left right L (y :: u) = equiJoin left right L1 (y :: u) := by
  conv_lhs => rw [← List.takeWhile_append_dropWhile
    (fun l => decide (readInt l left.offset < readInt y right.offset)) L]
  rw [h]
  apply equiJoin_drop_left
  intro l hl r hr
  have h1 := List.mem_takeWhile_imp hl
  have h2 := hR.head_le r hr
  simp only [decide_eq_true_eq] at h1
  omega

theorem equiJoin_skip_right (left right : JoinSpec) (x1 : Record) (t1 R R1 : List Record)
    (hL : SortedBy left (x1 :: t1))
    (h : (R.dropWhile fun r => decide (readInt r right.offset < readInt x1 left.offset)) = R1) :
    equiJoin left right (x1 :: t1) R = equiJoin left right (x1 :: t1) R1 := by
  conv_lhs => rw [← List.takeWhile_append_dropWhile
    (fun r => decide (readInt r right.offset < readInt x1 left.offset)) R]
  rw [h]
  apply equiJoin_drop_right
  intro l hl r hr
  have h1 := List.mem_takeWhile_imp hr
  have h2 := hL.head_le l hl
  simp only [decide_eq_true_eq] at h1
  omega

/-- The equi-join of two sorted lists whose heads carry the same key is the
cross product of the two leading groups followed by the equi-join of what
follows the left group with the records from `groupEnd` on. -/
theorem equiJoin_group (left right : JoinSpec) (x1 y1 : Record) (t1 u1 : List Record)
    (hL : SortedBy left (x1 :: t1)) (hR : SortedBy right (y1 :: u1))
    (hc : readInt x1 left.offset = readInt y1 right.offset) :
    equiJoin left right (x1 :: t1) (y1 :: u1) =
      (((x1 :: t1).takeWhile fun l =>
          decide (readInt l left.offset = readInt y1 right.offset)).flatMap fun l =>
            ((y1 :: u1).takeWhile fun r =>
              decide (readInt r right.offset = readInt l left.offset)).map
                fun r => MakeNewRecord l r left right) ++
        equiJoin left right
          ((x1 :: t1).dropWhile fun l => decide (readInt l left.offset = readInt y1 right.offset))
          (groupEnd right (readInt y1 right.offset) (y1 :: u1)) := by
  conv_lhs => rw [← List.takeWhile_append_dropWhile
    (fun l => decide (readInt l left.offset = readInt y1 right.offset)) (x1 :: t1)]
  rw [equiJoin_append]
  congr 1
  · simp only [equiJoin]
    apply List.flatMap_congr
    intro l hl
    have hk : readInt l left.offset = readInt y1 right.offset := by
      simpa using List.mem_takeWhile_imp hl
    rw [filter_eq_takeWhile right (readInt l left.offset) (y1 :: u1) hR
      (fun r hr => by rw [hk]; exact hR.head_le r hr)]
  · obtain ⟨A, hA, hAk⟩ := groupEnd_split right (readInt y1 right.offset) (y1 :: u1)
    conv_lhs => rw [hA]
    apply equiJoin_drop_right
    intro l hl r hr
    have h1 := dropWhile_key_ne left (readInt y1 right.offset) (x1 :: t1) hL
      (fun r hr => by rw [← hc]; exact hL.head_le r hr) l hl
    rw [hAk r hr]
    exact h1

theorem equiJoin_no_group (left right : JoinSpec) (x1 y1 : Record) (t1 u1 : List Record)
    (hc : readInt x1 left.offset ≠ readInt y1 right.offset) :
    equiJoin left right (x1 :: t1) (y1 :: u1) =
      (((x1 :: t1).takeWhile fun l =>
          decide (readInt l left.offset = readInt y1 right.offset)).flatMap fun l =>
            ((y1 :: u1).takeWhile fun r =>
              decide (readInt r right.offset = readInt l left.offset)).map
                fun r => MakeNewRecord l r left right) ++
        equiJoin left right
          ((x1 :: t1).dropWhile fun l => decide (readInt l left.offset = readInt y1 right.offset))
          (y1 :: u1) := by
  simp [List.takeWhile_cons, List.dropWhile_cons, hc]

theorem mergeLoop_done (env : Env) (left right : JoinSpec) (n k : Nat) (s : SMState)
    (h : s.leftStatus = Status.DONE ∨ s.rightGStatus = Status.DONE) :
    mergeLoop env left right n (k + 1) s = some (Ctl.next s) := by
  rcases h with h | h <;> simp [mergeLoop, h]

/-- The main loop in a fault-free run over sorted copies, with `S` on `Ls`
and `G` on `Rs`: it ends and has appended the equi-join of `Ls` and `Rs`. -/
theorem mergeLoop_noFaults (env : Env) (left right : JoinSpec) (hins : env.insertFaults = [])
    (n : Nat) :
    ∀ (m : Nat) (Ls Rs : List Record) (fuel : Nat) (s : SMState),
      Ls.length + Rs.length ≤ m → m < fuel → Ls.length + Rs.length ≤ n →
      SortedBy left Ls → SortedBy right Rs →
      s.leftScan.file.scanFaults = [] → s.rightGScan.file.scanFaults = [] →
      s.rightScan.file = s.rightGScan.file →
      SPos s.leftStatus s.leftRec s.leftScan Ls →
      GPos s.rightGStatus s.rightGRid s.rightGRec s.rightGScan Rs →
      ∃ s1, mergeLoop env left right n fuel s = some (Ctl.next s1) ∧
        s1.heap = s.heap ++ equiJoin left right Ls Rs := by
  intro m
  induction m with
  | zero =>
    intro Ls Rs fuel s hm hfuel _ _ _ _ _ _ hS _
    obtain ⟨k, rfl⟩ : ∃ k, fuel = k + 1 := ⟨fuel - 1, by omega⟩
    have hLs : Ls = [] := List.eq_nil_of_length_eq_zero (by omega)
    subst hLs
    exact ⟨s, mergeLoop_done env left right n k s (Or.inl hS), by simp [equiJoin]⟩
  | succ m ih =>
    intro Ls Rs fuel s hm hfuel hn hsL hsR hlf hgf hfile hS hG
    obtain ⟨k, rfl⟩ : ∃ k, fuel = k + 1 := ⟨fuel - 1, by omega⟩
    cases Ls with
    | nil => exact ⟨s, mergeLoop_done env left right n k s (Or.inl hS), by simp [equiJoin]⟩
    | cons x t =>
      cases Rs with
      | nil =>
        exact ⟨s, mergeLoop_done env left right n k s (Or.inr hG),
          by simp [equiJoin_nil_right]⟩
      | cons y u =>
        have hcond : s.leftStatus ≠ Status.DONE ∧ s.rightGStatus ≠ Status.DONE := by
          rw [hS.1, hG.1]; exact ⟨by decide, by decide⟩
        simp only [List.length_cons] at hm hn
        obtain ⟨stepL, stepR⟩ := mergeStep_noFaults env left right hins n s x y t u hlf hgf
          hfile hS hG (by omega) (by omega)
        cases hL : (x :: t).dropWhile
            fun l => decide (readInt l left.offset < readInt y right.offset) with
        | nil =>
          obtain ⟨s1, e1, e2⟩ := stepL hL
          refine ⟨s1, ?_, ?_⟩
          · simp only [mergeLoop, e1, if_pos hcond]
          · rw [e2, equiJoin_left_exhausted left right (x :: t) y u hsR hL, List.append_nil]
        | cons x1 t1 =>
          have hsL1 : SortedBy left (x1 :: t1) := by
            rw [← hL]; exact hsL.sublist (List.dropWhile_sublist _)
          have hj1 := equiJoin_skip_left left right (x :: t) (x1 :: t1) y u hsR hL
          obtain ⟨stepR0, stepR1⟩ := stepR x1 t1 hL
          cases hR : (y :: u).dropWhile
              fun r => decide (readInt r right.offset < readInt x1 left.offset) with
          | nil =>
            obtain ⟨s1, e1, e2⟩ := stepR0 hR
            refine ⟨s1, ?_, ?_⟩
            · simp only [mergeLoop, e1, if_pos hcond]
            · rw [e2, hj1, equiJoin_skip_right left right x1 t1 (y :: u) [] hsL1 hR,
                equiJoin_nil_right, List.append_nil]
          | cons y1 u1 =>
            have hsR1 : SortedBy right (y1 :: u1) := by
              rw [← hR]; exact hsR.sublist (List.dropWhile_sublist _)
            have hj2 := equiJoin_skip_right left right x1 t1 (y :: u) (y1 :: u1) hsL1 hR
            obtain ⟨s1, e1, e2, e3, e4, e5, e6, e7⟩ := stepR1 y1 u1 hR
            have hlen1 : (x1 :: t1).length ≤ (x :: t).length := by
              rw [← hL]; exact (List.dropWhile_sublist _).length_le
            have hlen2 : (y1 :: u1).length ≤ (y :: u).length := by
              rw [← hR]; exact (List.dropWhile_sublist _).length_le
            simp only [List.length_cons] at hlen1 hlen2
            have hx1 : ¬ readInt x1 left.offset < readInt y right.offset := by
              simpa using dropWhile_head_false _ _ _ _ hL
            have hy1 : ¬ readInt y1 right.offset < readInt x1 left.offset := by
              simpa using dropWhile_head_false _ _ _ _ hR
            by_cases hc : readInt x1 left.offset = readInt y1 right.offset
            · rw [if_pos hc] at e4
              have hdl : ((x1 :: t1).dropWhile fun l =>
                  decide (readInt l left.offset = readInt y1 right.offset)).length
                    ≤ t1.length := by
                simp only [List.dropWhile_cons, hc, decide_True, if_true]
                exact (List.dropWhile_sublist _).length_le
              have hgl := groupEnd_length_le right (readInt y1 right.offset) (y1 :: u1)
              simp only [List.length_cons] at hgl
              obtain ⟨s2, f1, f2⟩ := ih _ _ k s1 (by omega) (by omega) (by omega)
                (hsL1.sublist (List.dropWhile_sublist _))
                (hsR1.sublist (groupEnd_sublist _ _ _))
                (by rw [e5]; exact hlf) (by rw [e7]; exact hgf) (by rw [e6, e7]; exact hfile)
                e3 e4
              refine ⟨s2, ?_, ?_⟩
              · simp only [mergeLoop, e1, if_pos hcond]
                exact f1
              · rw [f2, e2, hj1, hj2, equiJoin_group left right x1 y1 t1 u1 hsL1 hsR1 hc,
                  List.append_assoc]
            · rw [if_neg hc] at e4
              have hdl : ((x1 :: t1).dropWhile fun l =>
                  decide (readInt l left.offset = readInt y1 right.offset)).length
                    ≤ t1.length + 1 := by
                have := (List.dropWhile_sublist (l := x1 :: t1) fun l =>
                  decide (readInt l left.offset = readInt y1 right.offset)).length_le
                simpa using this
              have hprog : t1.length + u1.length < t.length + u.length := by
                rcases dropWhile_eq_or_shorter
                  (fun l => decide (readInt l left.offset < readInt y right.offset))
                  (x :: t) with h1 | h1
                · rcases dropWhile_eq_or_shorter
                    (fun r => decide (readInt r right.offset < readInt x1 left.offset))
                    (y :: u) with h2 | h2
                  · rw [hL] at h1
                    rw [hR] at h2
                    injection h1 with h1a h1b
                    injection h2 with h2a h2b
                    subst h1a h2a
                    omega
                  · rw [hR] at h2
                    simp only [List.length_cons] at h2
                    omega
                · rw [hL] at h1
                  simp only [List.length_cons] at h1
                  omega
              obtain ⟨s2, f1, f2⟩ := ih _ _ k s1 (by simp only [List.length_cons]; omega)
                (by omega) (by simp only [List.length_cons]; omega)
                (hsL1.sublist (List.dropWhile_sublist _)) hsR1
                (by rw [e5]; exact hlf) (by rw [e7]; exact hgf) (by rw [e6, e7]; exact hfile)
                e3 e4
              refine ⟨s2, ?_, ?_⟩
              · simp only [mergeLoop, e1, if_pos hcond]
                exact f1
              · rw [f2, e2, hj1, hj2, equiJoin_no_group left right x1 y1 t1 u1 hc,
                  List.append_assoc]

/-! ### Sort-merge join: the whole run -/

theorem primed_SPos (f : HeapFile) (hf : f.scanFaults = []) :
    SPos ((Scan.mk f 0).GetNext 0 []).status ((Scan.mk f 0).GetNext 0 []).recPtr
      ((Scan.mk f 0).GetNext 0 []).scan f.recs := by
  cases h : f.recs with
  | nil =>
    rw [Scan.GetNext_nil _ _ _ hf (by simp [h])]
    simp [SPos]
  | cons x t =>
    rw [Scan.GetNext_cons _ _ _ x t hf (by simp [h])]
    simp [SPos, h]

theorem primed_GPos (f : HeapFile) (hf : f.scanFaults = []) :
    GPos ((Scan.mk f 0).GetNext 0 []).status ((Scan.mk f 0).GetNext 0 []).rid
      ((Scan.mk f 0).GetNext 0 []).recPtr ((Scan.mk f 0).GetNext 0 []).scan f.recs := by
  cases h : f.recs with
  | nil =>
    rw [Scan.GetNext_nil _ _ _ hf (by simp [h])]
    simp [GPos]
  | cons x t =>
    rw [Scan.GetNext_cons _ _ _ x t hf (by simp [h])]
    simp [GPos, h]

theorem GetNext_file (sc : Scan) (rid : RecordID) (rec : Record) :
    (sc.GetNext rid rec).scan.file = sc.file := by
  unfold Scan.GetNext
  split
  · rfl
  · split <;> rfl

/-- A run of the sort-merge join in which no storage call fails and the
sorted copies are ascending: `Execute` returns `OK`, hands the output file
over and has inserted the equi-join of the sorted copies, in the order of the
left copy. -/
theorem sm_run (env : Env) (fuel : Nat) (left right : JoinSpec)
    (he : env.newHeapSt = Status.OK) (hins : env.insertFaults = [])
    (hl : (env.SortHeapFile left.file left.recLen left.offset).NoFaults)
    (hr : (env.SortHeapFile right.file right.recLen right.offset).NoFaults)
    (hsl : SortedBy left (env.SortHeapFile left.file left.recLen left.offset).recs)
    (hsr : SortedBy right (env.SortHeapFile right.file right.recLen right.offset).recs)
    (hfuel : (env.SortHeapFile left.file left.recLen left.offset).recs.length +
      (env.SortHeapFile right.file right.recLen right.offset).recs.length < fuel) :
    ∃ res, SortMerge.Execute env fuel left right = some res ∧
      res.status = Status.OK ∧ res.outFile = some res.heap ∧
      res.heap = equiJoin left right (env.SortHeapFile left.file left.recLen left.offset).recs
        (env.SortHeapFile right.file right.recLen right.offset).recs := by
  obtain ⟨hl1, hl2, _⟩ := hl
  obtain ⟨hr1, hr2, _⟩ := hr
  obtain ⟨s1, m1, m2⟩ := mergeLoop_noFaults env left right hins fuel
    ((env.SortHeapFile left.file left.recLen left.offset).recs.length +
      (env.SortHeapFile right.file right.recLen right.offset).recs.length)
    _ _ fuel
    (primed (env.SortHeapFile left.file left.recLen left.offset).OpenScan.2
      (env.SortHeapFile right.file right.recLen right.offset).OpenScan.2
      (env.SortHeapFile right.file right.recLen right.offset).OpenScan.2)
    (le_refl _) hfuel (le_of_lt hfuel) hsl hsr
    (by simp only [primed, GetNext_file, HeapFile.OpenScan]; exact hl2)
    (by simp only [primed, GetNext_file, HeapFile.OpenScan]; exact hr2)
    (by simp only [primed, GetNext_file, HeapFile.OpenScan])
    (primed_SPos _ hl2) (primed_GPos _ hr2)
  refine ⟨{ status := Status.OK, outFile := some s1.heap, heap := s1.heap, leftReads := 0,
            rightPasses := 0, destroyCalls := 0 }, ?_, rfl, rfl, ?_⟩
  · simp only [SortMerge.Execute, he, hl1, hr1, HeapFile.OpenScan, ne_eq, not_true_eq_false,
      if_false] at m1 ⊢
    rw [m1]
  · simpa [primed] using m2

theorem equiJoin_perm (left right : JoinSpec) {L1 L2 R1 R2 : List Record}
    (hL : L1.Perm L2) (hR : R1.Perm R2) :
    (equiJoin left right L1 R1).Perm (equiJoin left right L2 R2) := by
  refine (List.Perm.flatMap_right _ hL).trans ?_
  apply List.Perm.flatMap_left
  intro l _
  exact (hR.filter _).map _

/-- The number of output tuples of the equi-join whose left part satisfies
`p` when only the left records with `q` produce such tuples. -/
theorem countP_equiJoin (left right : JoinSpec) (k : Int) (L R : List Record)
    (hlen : ∀ l ∈ L, l.length = left.recLen) :
    (equiJoin left right L R).countP
        (fun o => decide (readInt (o.take left.recLen) left.offset = k)) =
      L.countP (fun l => decide (readInt l left.offset = k)) *
        R.countP (fun r => decide (readInt r right.offset = k)) := by
  induction L with
  | nil => simp [equiJoin]
  | cons l t ih =>
    have e : equiJoin left right (l :: t) R =
        (R.filter fun r => decide (readInt l left.offset = readInt r right.offset)).map
          (fun r => MakeNewRecord l r left right) ++ equiJoin left right t R := by
      simp [equiJoin, List.flatMap_cons]
    have hl : l.length = left.recLen := hlen l (List.mem_cons_self _ _)
    have htake : ∀ r : Record, (MakeNewRecord l r left right).take left.recLen = l := by
      intro r
      simp [MakeNewRecord, ← hl]
    rw [e, List.countP_append, ih (fun x hx => hlen x (List.mem_cons_of_mem _ hx)),
      List.countP_map]
    have hcomp : ((fun o : Record => decide (readInt (o.take left.recLen) left.offset = k)) ∘
        fun r => MakeNewRecord l r left right) = fun _ => decide (readInt l left.offset = k) := by
      funext r
      simp [htake]
    rw [hcomp]
    by_cases hk : readInt l left.offset = k
    · have h1 : (R.filter fun r => decide (readInt l left.offset = readInt r right.offset)).countP
          (fun _ => decide (readInt l left.offset = k)) =
          R.countP (fun r => decide (readInt r right.offset = k)) := by
        rw [List.countP_filter]
        apply List.countP_congr
        intro r _
        simp only [hk, decide_True, Bool.true_and, decide_eq_true_eq]
        exact ⟨fun h => h.symm, fun h => h.symm⟩
      rw [h1, List.countP_cons_of_pos _ _ (by simpa using hk)]
      ring
    · have h1 : (R.filter fun r => decide (readInt l left.offset = readInt r right.offset)).countP
          (fun _ => decide (readInt l left.offset = k)) = 0 := by
        rw [List.countP_eq_zero]
        intro r _
        simpa using hk
      rw [h1, List.countP_cons_of_neg _ _ (by simpa using hk)]
      ring

/-! ### Block size zero -/

theorem blockJoin_nil_block (left right : JoinSpec) (R : List Record) :
    blockJoin left right [] R = [] := by
  simp [blockJoin]

/-- With `blockSize = 0` and no faults the left scan is never read, the right
scan is run once and nothing is inserted. -/
theorem bnl_run_zero (env : Env) (fuel : Nat) (left right : JoinSpec)
    (he : env.newHeapSt = Status.OK) (hins : env.insertFaults = [])
    (hl : left.file.openSt = Status.OK) (hlf : left.file.scanFaults = [])
    (hr : right.file.openSt = Status.OK) (hrf : right.file.scanFaults = [])
    (hfuel : left.file.recs.length + right.file.recs.length < fuel) :
    BlockNestedLoops.Execute env 0 fuel left right =
      some { status := Status.OK, outFile := some [], heap := [], leftReads := 0,
             rightPasses := 1, destroyCalls := 0 } := by
  obtain ⟨k, rfl⟩ : ∃ k, fuel = k + 1 := ⟨fuel - 1, by omega⟩
  obtain ⟨s1, f1, f2, f3, f4, f5, f6, f7, f8, f9⟩ := fillBlock_noFaults 0 left.file.recs (k + 1)
    { leftScan := { file := left.file, currRid := 0 },
      rightScan := { file := right.file, currRid := 0 }, block := [],
      leftStatus := Status.DONE, rightStatus := Status.OK, leftRec := [], rightRec := [],
      heap := [], leftReads := 0, rightPasses := 0 }
    hlf rfl (by omega)
  simp only [List.length_nil, Nat.sub_zero, List.take_zero, List.append_nil, le_refl, if_true,
    Nat.zero_min, Nat.add_zero] at f2 f5 f6 f7 f8 f9
  obtain ⟨s2, g1, g2, g3, g4, g5, g6, g7, g8, g9⟩ := scanRight_noFaults env left right hins
    right.file.recs (k + 1) { s1 with rightRec := [] } (by simpa [f6] using hrf)
    (by simp [f6]) (by omega)
  simp only [f2, f5, f7, f8, f9, blockJoin_nil_block, List.append_nil] at g2 g4 g8 g9
  simp only [BlockNestedLoops.Execute, he, HeapFile.OpenScan, hl, hr, ne_eq, not_true_eq_false,
    if_false, blockLoop, f1, g1, g4, if_true, g2, g8, g9]

/-! ### The three joins in fault-free runs -/

theorem bnl_correct (env : Env) (blockSize fuel : Nat) (left right : JoinSpec)
    (he : env.NoFaults) (hl : left.file.NoFaults) (hr : right.file.NoFaults)
    (hb : 1 ≤ blockSize) (hfuel : left.file.recs.length + right.file.recs.length < fuel) :
    ∃ res, BlockNestedLoops.Execute env blockSize fuel left right = some res ∧
      res.status = Status.OK ∧ res.outFile = some res.heap ∧
      res.heap.Perm (equiJoin left right left.file.recs right.file.recs) := by
  obtain ⟨res, h1, h2, h3, h4⟩ := bnl_run env blockSize fuel left right he.1 he.2.1 hl.1 hl.2.1
    hr.1 hr.2.1 hb hfuel
  refine ⟨res, h1, h2, h3, ?_⟩
  rw [h4]
  exact blockOrder_perm left right blockSize hb _ fuel _ (by omega)

theorem inl_correct (env : Env) (fuel : Nat) (left right : JoinSpec)
    (he : env.NoFaults) (hl : left.file.NoFaults) (hr : right.file.NoFaults)
    (hinj : Function.Injective env.toString)
    (hfuel : left.file.recs.length + right.file.recs.length < fuel) :
    ∃ res, IndexNestedLoops.Execute env fuel left right = some res ∧
      res.status = Status.OK ∧ res.outFile = some res.heap ∧
      res.heap = equiJoin left right left.file.recs right.file.recs := by
  obtain ⟨res, h1, h2, h3, _, h5⟩ := inl_run env fuel left right he hl hr hfuel
  exact ⟨res, h1, h2, h3, by rw [h5, encJoin_eq_equiJoin env left right hinj]⟩

theorem sm_correct (env : Env) (fuel : Nat) (left right : JoinSpec)
    (he : env.NoFaults) (hsl : env.SortsByKey left) (hsr : env.SortsByKey right)
    (hfuel : left.file.recs.length + right.file.recs.length < fuel) :
    ∃ res, SortMerge.Execute env fuel left right = some res ∧
      res.status = Status.OK ∧ res.outFile = some res.heap ∧
      res.heap = equiJoin left right (env.SortHeapFile left.file left.recLen left.offset).recs
        (env.SortHeapFile right.file right.recLen right.offset).recs ∧
      res.heap.Perm (equiJoin left right left.file.recs right.file.recs) := by
  obtain ⟨pl, sl, fl⟩ := hsl
  obtain ⟨pr, sr, fr⟩ := hsr
  obtain ⟨res, h1, h2, h3, h4⟩ := sm_run env fuel left right he.1 he.2.1 fl fr sl sr
    (by rw [pl.length_eq, pr.length_eq]; exact hfuel)
  refine ⟨res, h1, h2, h3, h4, ?_⟩
  rw [h4]
  exact equiJoin_perm left right pl pr

/-- The sort-merge join when one sorted copy is empty. -/
theorem sm_run_empty (env : Env) (fuel : Nat) (left right : JoinSpec)
    (he : env.newHeapSt = Status.OK)
    (hl : (env.SortHeapFile left.file left.recLen left.offset).NoFaults)
    (hr : (env.SortHeapFile right.file right.recLen right.offset).NoFaults)
    (hempty : (env.SortHeapFile left.file left.recLen left.offset).recs = [] ∨
      (env.SortHeapFile right.file right.recLen right.offset).recs = [])
    (hfuel : 0 < fuel) :
    SortMerge.Execute env fuel left right =
      some { status := Status.OK, outFile := some [], heap := [], leftReads := 0,
             rightPasses := 0, destroyCalls := 0 } := by
  obtain ⟨k, rfl⟩ : ∃ k, fuel = k + 1 := ⟨fuel - 1, by omega⟩
  obtain ⟨hl1, hl2, _⟩ := hl
  obtain ⟨hr1, hr2, _⟩ := hr
  have hS := primed_SPos _ hl2
  have hG := primed_GPos _ hr2
  have hdone : (primed (env.SortHeapFile left.file left.recLen left.offset).OpenScan.2
      (env.SortHeapFile right.file right.recLen right.offset).OpenScan.2
      (env.SortHeapFile right.file right.recLen right.offset).OpenScan.2).leftStatus
        = Status.DONE ∨
      (primed (env.SortHeapFile left.file left.recLen left.offset).OpenScan.2
      (env.SortHeapFile right.file right.recLen right.offset).OpenScan.2
      (env.SortHeapFile right.file right.recLen right.offset).OpenScan.2).rightGStatus
        = Status.DONE := by
    rcases hempty with h | h
    · left
      rw [h] at hS
      exact hS
    · right
      rw [h] at hG
      exact hG
  have hm := mergeLoop_done env left right (k + 1) k _ hdone
  simp only [SortMerge.Execute, he, hl1, hr1, HeapFile.OpenScan, ne_eq, not_true_eq_false,
    if_false] at hm ⊢
  rw [hm]
  rfl

/-! ### The sample inputs -/

theorem unaryKey_injective : Function.Injective unaryKey := by
  intro a b h
  unfold unaryKey at h
  injection h with h1 h2
  have h3 : a.natAbs = b.natAbs := by
    have := congrArg List.length h2
    simpa using this
  by_cases ha : a < 0 <;> by_cases hb : b < 0 <;> simp [ha, hb] at h1 <;> omega

theorem insertionSorter_sorts (env : Env) (hs : env.SortHeapFile = insertionSorter)
    (j : JoinSpec) (hj : j.file.NoFaults) : env.SortsByKey j := by
  have htot : IsTotal Record (fun a b => readInt a j.offset ≤ readInt b j.offset) :=
    ⟨fun a b => le_total _ _⟩
  have htr : IsTrans Record (fun a b => readInt a j.offset ≤ readInt b j.offset) :=
    ⟨fun a b c => le_trans⟩
  rw [Env.SortsByKey, hs]
  exact ⟨List.perm_insertionSort _ _, List.sorted_insertionSort _ _, hj⟩

theorem sampleEnv_noFaults : sampleEnv.NoFaults :=
  ⟨rfl, rfl, rfl, rfl, rfl⟩

theorem soundFile_noFaults (recs : List Record) : (soundFile recs).NoFaults :=
  ⟨rfl, rfl, rfl⟩

/-! ## The claims -/

/-- C1 (cross-strategy equivalence): for all finite relations `left` and
`right` and every `blockSize ≥ 1`, when no storage or index call fails, the
key encoder is injective and `SortHeapFile` returns a key-ascending
permutation of its input, the three `Execute` functions return `OK` (given
fuel beyond `|left| + |right|`) and their three output relations are equal as
multisets of concatenated tuples. -/
theorem cross_strategy_equivalence (env : Env) (blockSize fuel : Nat) (left right : JoinSpec)
    (hb : 1 ≤ blockSize) (he : env.NoFaults) (hl : left.file.NoFaults)
    (hr : right.file.NoFaults) (hinj : Function.Injective env.toString)
    (hsl : env.SortsByKey left) (hsr : env.SortsByKey right)
    (hfuel : left.file.recs.length + right.file.recs.length < fuel) :
    statusOf (BlockNestedLoops.Execute env blockSize fuel left right) = some Status.OK ∧
    statusOf (IndexNestedLoops.Execute env fuel left right) = some Status.OK ∧
    statusOf (SortMerge.Execute env fuel left right) = some Status.OK ∧
    outputBag (BlockNestedLoops.Execute env blockSize fuel left right) =
      outputBag (IndexNestedLoops.Execute env fuel left right) ∧
    outputBag (IndexNestedLoops.Execute env fuel left right) =
      outputBag (SortMerge.Execute env fuel left right) ∧
    outputBag (SortMerge.Execute env fuel left right) =
      some ↑(equiJoin left right left.file.recs right.file.recs) := by
  obtain ⟨b, b1, b2, b3, b4⟩ := bnl_correct env blockSize fuel left right he hl hr hb hfuel
  obtain ⟨i, i1, i2, i3, i4⟩ := inl_correct env fuel left right he hl hr hinj hfuel
  obtain ⟨m, m1, m2, m3, _, m5⟩ := sm_correct env fuel left right he hsl hsr hfuel
  have eb : (b.heap : Multiset Record) = ↑(equiJoin left right left.file.recs right.file.recs) :=
    Quotient.sound b4
  have em : (m.heap : Multiset Record) = ↑(equiJoin left right left.file.recs right.file.recs) :=
    Quotient.sound m5
  simp [statusOf, outputBag, outputOf, b1, b2, b3, i1, i2, i3, m1, m2, m3, eb, em, i4]

theorem cross_strategy_equivalence_witness :
    statusOf (BlockNestedLoops.Execute sampleEnv 2 7 exampleLeft exampleRight) = some Status.OK ∧
    statusOf (IndexNestedLoops.Execute sampleEnv 7 exampleLeft exampleRight) = some Status.OK ∧
    statusOf (SortMerge.Execute sampleEnv 7 exampleLeft exampleRight) = some Status.OK ∧
    outputBag (BlockNestedLoops.Execute sampleEnv 2 7 exampleLeft exampleRight) =
      outputBag (IndexNestedLoops.Execute sampleEnv 7 exampleLeft exampleRight) ∧
    outputBag (IndexNestedLoops.Execute sampleEnv 7 exampleLeft exampleRight) =
      outputBag (SortMerge.Execute sampleEnv 7 exampleLeft exampleRight) ∧
    outputBag (SortMerge.Execute sampleEnv 7 exampleLeft exampleRight) =
      some ↑(equiJoin exampleLeft exampleRight exampleLeft.file.recs exampleRight.file.recs) :=
  cross_strategy_equivalence sampleEnv 2 7 exampleLeft exampleRight (by decide)
    sampleEnv_noFaults (soundFile_noFaults _) (soundFile_noFaults _) unaryKey_injective
    (insertionSorter_sorts sampleEnv rfl exampleLeft (soundFile_noFaults _))
    (insertionSorter_sorts sampleEnv rfl exampleRight (soundFile_noFaults _)) (by decide)

/-- C2 (sort-merge is duplicate-safe): when `SortHeapFile` returns
key-ascending permutations and no call fails (a cursor read at the end of the
stream leaves the id it last returned), `SortMerge::Execute` returns `OK`, its
output multiset is exactly the equi-join `{ l ++ r | key(l) = key(r) }`, and
for every key `k` the number of output tuples whose left part has key `k` is
`M * N`, with `M` left tuples and `N` right tuples of key `k`. -/
theorem sort_merge_duplicate_safe (env : Env) (fuel : Nat) (left right : JoinSpec)
    (he : env.NoFaults) (hsl : env.SortsByKey left) (hsr : env.SortsByKey right)
    (hlen : ∀ l ∈ left.file.recs, l.length = left.recLen)
    (hfuel : left.file.recs.length + right.file.recs.length < fuel) :
    statusOf (SortMerge.Execute env fuel left right) = some Status.OK ∧
    outputBag (SortMerge.Execute env fuel left right) =
      some ↑(equiJoin left right left.file.recs right.file.recs) ∧
    ∀ k : Int,
      (outputOf (SortMerge.Execute env fuel left right)).map
          (fun h => h.countP fun o => decide (readInt (o.take left.recLen) left.offset = k)) =
        some ((left.file.recs.countP fun l => decide (readInt l left.offset = k)) *
          (right.file.recs.countP fun r => decide (readInt r right.offset = k))) := by
  obtain ⟨m, m1, m2, m3, _, m5⟩ := sm_correct env fuel left right he hsl hsr hfuel
  have em : (m.heap : Multiset Record) = ↑(equiJoin left right left.file.recs right.file.recs) :=
    Quotient.sound m5
  refine ⟨by simp [statusOf, m1, m2], by simp [outputBag, outputOf, m1, m3, em], ?_⟩
  intro k
  simp only [outputOf, m1, Option.some_bind, m3, Option.map_some']
  rw [m5.countP_eq, countP_equiJoin left right k _ _ hlen]

theorem sort_merge_duplicate_safe_witness :
    statusOf (SortMerge.Execute sampleEnv 7 exampleLeft exampleRight) = some Status.OK ∧
    outputBag (SortMerge.Execute sampleEnv 7 exampleLeft exampleRight) =
      some ↑(equiJoin exampleLeft exampleRight exampleLeft.file.recs exampleRight.file.recs) ∧
    ∀ k : Int,
      (outputOf (SortMerge.Execute sampleEnv 7 exampleLeft exampleRight)).map
          (fun h => h.countP fun o =>
            decide (readInt (o.take exampleLeft.recLen) exampleLeft.offset = k)) =
        some ((exampleLeft.file.recs.countP fun l =>
            decide (readInt l exampleLeft.offset = k)) *
          (exampleRight.file.recs.countP fun r =>
            decide (readInt r exampleRight.offset = k))) :=
  sort_merge_duplicate_safe sampleEnv 7 exampleLeft exampleRight sampleEnv_noFaults
    (insertionSorter_sorts sampleEnv rfl exampleLeft (soundFile_noFaults _))
    (insertionSorter_sorts sampleEnv rfl exampleRight (soundFile_noFaults _))
    (by decide) (by decide)

/-- C3 (block-size independence): for all relations and all block sizes
`b1 ≥ 1` and `b2 ≥ 1`, when no storage call fails (`MoveTo(firstRightScanRid)`
puts the right scan back on its first tuple), `BlockNestedLoops::Execute`
returns `OK` for both and the two output multisets are equal, both being the
equi-join `{ l ++ r | key(l) = key(r) }`. -/
theorem block_size_independence (env : Env) (b1 b2 fuel : Nat) (left right : JoinSpec)
    (h1 : 1 ≤ b1) (h2 : 1 ≤ b2) (he : env.NoFaults) (hl : left.file.NoFaults)
    (hr : right.file.NoFaults)
    (hfuel : left.file.recs.length + right.file.recs.length < fuel) :
    statusOf (BlockNestedLoops.Execute env b1 fuel left right) = some Status.OK ∧
    statusOf (BlockNestedLoops.Execute env b2 fuel left right) = some Status.OK ∧
    outputBag (BlockNestedLoops.Execute env b1 fuel left right) =
      outputBag (BlockNestedLoops.Execute env b2 fuel left right) ∧
    outputBag (BlockNestedLoops.Execute env b2 fuel left right) =
      some ↑(equiJoin left right left.file.recs right.file.recs) := by
  obtain ⟨x, x1, x2, x3, x4⟩ := bnl_correct env b1 fuel left right he hl hr h1 hfuel
  obtain ⟨y, y1, y2, y3, y4⟩ := bnl_correct env b2 fuel left right he hl hr h2 hfuel
  have ex : (x.heap : Multiset Record) = ↑(equiJoin left right left.file.recs right.file.recs) :=
    Quotient.sound x4
  have ey : (y.heap : Multiset Record) = ↑(equiJoin left right left.file.recs right.file.recs) :=
    Quotient.sound y4
  simp [statusOf, outputBag, outputOf, x1, x2, x3, y1, y2, y3, ex, ey]

theorem block_size_independence_witness :
    statusOf (BlockNestedLoops.Execute sampleEnv 1 7 exampleLeft exampleRight) = some Status.OK ∧
    statusOf (BlockNestedLoops.Execute sampleEnv 103 7 exampleLeft exampleRight)
      = some Status.OK ∧
    outputBag (BlockNestedLoops.Execute sampleEnv 1 7 exampleLeft exampleRight) =
      outputBag (BlockNestedLoops.Execute sampleEnv 103 7 exampleLeft exampleRight) ∧
    outputBag (BlockNestedLoops.Execute sampleEnv 103 7 exampleLeft exampleRight) =
      some ↑(equiJoin exampleLeft exampleRight exampleLeft.file.recs exampleRight.file.recs) :=
  block_size_independence sampleEnv 1 103 7 exampleLeft exampleRight (by decide) (by decide)
    sampleEnv_noFaults (soundFile_noFaults _) (soundFile_noFaults _) (by decide)

/-- C4 (index-nested-loop completeness and soundness with duplicate keys):
with an injective key encoder and an index whose range scan with
`low = high = k` returns the ids inserted under `k`, once per insertion, and
no failing call, `IndexNestedLoops::Execute` returns `OK` and its output
multiset is the equi-join `{ l ++ r | key(l) = key(r) }`: for every left tuple
one output tuple per right tuple of the same key and nothing else, also when
several right tuples share a key. -/
theorem index_nested_loop_complete_sound (env : Env) (fuel : Nat) (left right : JoinSpec)
    (he : env.NoFaults) (hl : left.file.NoFaults) (hr : right.file.NoFaults)
    (hinj : Function.Injective env.toString)
    (hfuel : left.file.recs.length + right.file.recs.length < fuel) :
    statusOf (IndexNestedLoops.Execute env fuel left right) = some Status.OK ∧
    outputBag (IndexNestedLoops.Execute env fuel left right) =
      some ↑(equiJoin left right left.file.recs right.file.recs) ∧
    ∀ l r : Record,
      (outputOf (IndexNestedLoops.Execute env fuel left right)).map
          (fun h => h.count (MakeNewRecord l r left right)) =
        some ((equiJoin left right left.file.recs right.file.recs).count
          (MakeNewRecord l r left right)) := by
  obtain ⟨i, i1, i2, i3, i4⟩ := inl_correct env fuel left right he hl hr hinj hfuel
  simp [statusOf, outputBag, outputOf, i1, i2, i3, i4]

theorem index_nested_loop_complete_sound_witness :
    statusOf (IndexNestedLoops.Execute sampleEnv 7 exampleLeft exampleRight) = some Status.OK ∧
    outputBag (IndexNestedLoops.Execute sampleEnv 7 exampleLeft exampleRight) =
      some ↑(equiJoin exampleLeft exampleRight exampleLeft.file.recs exampleRight.file.recs) ∧
    ∀ l r : Record,
      (outputOf (IndexNestedLoops.Execute sampleEnv 7 exampleLeft exampleRight)).map
          (fun h => h.count (MakeNewRecord l r exampleLeft exampleRight)) =
        some ((equiJoin exampleLeft exampleRight exampleLeft.file.recs
          exampleRight.file.recs).count (MakeNewRecord l r exampleLeft exampleRight)) :=
  index_nested_loop_complete_sound sampleEnv 7 exampleLeft exampleRight sampleEnv_noFaults
    (soundFile_noFaults _) (soundFile_noFaults _) unaryKey_injective (by decide)

theorem mem_equiJoin (left right : JoinSpec) (L R : List Record) (o : Record)
    (h : o ∈ equiJoin left right L R) :
    ∃ l ∈ L, ∃ r ∈ R, o = l ++ r ∧ readInt l left.offset = readInt r right.offset := by
  simp only [equiJoin, List.mem_flatMap, List.mem_map, List.mem_filter,
    decide_eq_true_eq] at h
  obtain ⟨l, hl, r, ⟨hr, hk⟩, ho⟩ := h
  exact ⟨l, hl, r, hr, ho.symm, hk⟩

theorem tupleShape_of_mem (left right : JoinSpec) (L R : List Record)
    (hL : ∀ l, l ∈ L → l ∈ left.file.recs) (hR : ∀ r, r ∈ R → r ∈ right.file.recs)
    (hlenL : ∀ l ∈ left.file.recs, l.length = left.recLen)
    (hlenR : ∀ r ∈ right.file.recs, r.length = right.recLen)
    (o : Record) (h : o ∈ equiJoin left right L R) : TupleShape left right o := by
  obtain ⟨l, hl, r, hr, ho, hk⟩ := mem_equiJoin left right L R o h
  have h1 := hlenL l (hL l hl)
  have h2 := hlenR r (hR r hr)
  subst ho
  refine ⟨by simp [h1, h2], l, hL l hl, r, hR r hr, ?_, ?_, hk⟩
  · simp [← h1]
  · simp [← h1]

/-- The block-nested-loop join for any block size when the equi-join is
empty. -/
theorem bnl_output_nil (env : Env) (blockSize fuel : Nat) (left right : JoinSpec)
    (he : env.NoFaults) (hl : left.file.NoFaults) (hr : right.file.NoFaults)
    (hnil : equiJoin left right left.file.recs right.file.recs = [])
    (hfuel : left.file.recs.length + right.file.recs.length < fuel) :
    statusOf (BlockNestedLoops.Execute env blockSize fuel left right) = some Status.OK ∧
      outputOf (BlockNestedLoops.Execute env blockSize fuel left right) = some [] := by
  by_cases hb : blockSize = 0
  · subst hb
    rw [bnl_run_zero env fuel left right he.1 he.2.1 hl.1 hl.2.1 hr.1 hr.2.1 hfuel]
    exact ⟨rfl, rfl⟩
  · obtain ⟨b, b1, b2, b3, b4⟩ := bnl_correct env blockSize fuel left right he hl hr
      (by omega) hfuel
    rw [hnil] at b4
    simp [statusOf, outputOf, b1, b2, b3, List.Perm.eq_nil b4]

/-- Tuple shape in the runs without a failing call: in a run of any of the
three strategies in which every storage and index call succeeds (so that
`Execute` returns `OK`), with fixed-length input tuples, every tuple inserted
into the output relation has length `left.recLen + right.recLen`, its first
`left.recLen` bytes are a tuple `l` of the left relation, its remaining bytes a
tuple `r` of the right relation, and the join attributes of `l` and `r` are
equal.  Successful runs with a failing call are not covered here. -/
theorem tuple_shape (env : Env) (blockSize fuel : Nat) (left right : JoinSpec)
    (he : env.NoFaults) (hl : left.file.NoFaults) (hr : right.file.NoFaults)
    (hinj : Function.Injective env.toString)
    (hsl : env.SortsByKey left) (hsr : env.SortsByKey right)
    (hlenL : ∀ l ∈ left.file.recs, l.length = left.recLen)
    (hlenR : ∀ r ∈ right.file.recs, r.length = right.recLen)
    (hfuel : left.file.recs.length + right.file.recs.length < fuel) :
    (statusOf (BlockNestedLoops.Execute env blockSize fuel left right) = some Status.OK ∧
      ∀ h, insertedOf (BlockNestedLoops.Execute env blockSize fuel left right) = some h →
        ∀ o ∈ h, TupleShape left right o) ∧
    (statusOf (IndexNestedLoops.Execute env fuel left right) = some Status.OK ∧
      ∀ h, insertedOf (IndexNestedLoops.Execute env fuel left right) = some h →
        ∀ o ∈ h, TupleShape left right o) ∧
    (statusOf (SortMerge.Execute env fuel left right) = some Status.OK ∧
      ∀ h, insertedOf (SortMerge.Execute env fuel left right) = some h →
        ∀ o ∈ h, TupleShape left right o) := by
  have hshape := tupleShape_of_mem left right left.file.recs right.file.recs
    (fun _ h => h) (fun _ h => h) hlenL hlenR
  refine ⟨?_, ?_, ?_⟩
  · by_cases hb : blockSize = 0
    · subst hb
      rw [bnl_run_zero env fuel left right he.1 he.2.1 hl.1 hl.2.1 hr.1 hr.2.1 hfuel]
      refine ⟨rfl, ?_⟩
      intro h hh o ho
      simp only [insertedOf, Option.map_some', Option.some.injEq] at hh
      subst hh
      simp at ho
    · obtain ⟨b, b1, b2, _, b4⟩ := bnl_correct env blockSize fuel left right he hl hr
        (by omega) hfuel
      refine ⟨by simp [statusOf, b1, b2], ?_⟩
      intro h hh o ho
      simp only [insertedOf, b1, Option.map_some', Option.some.injEq] at hh
      subst hh
      exact hshape o (b4.mem_iff.mp ho)
  · obtain ⟨i, i1, i2, _, i4⟩ := inl_correct env fuel left right he hl hr hinj hfuel
    refine ⟨by simp [statusOf, i1, i2], ?_⟩
    intro h hh o ho
    simp only [insertedOf, i1, Option.map_some', Option.some.injEq] at hh
    subst hh
    rw [i4] at ho
    exact hshape o ho
  · obtain ⟨m, m1, m2, _, _, m5⟩ := sm_correct env fuel left right he hsl hsr hfuel
    refine ⟨by simp [statusOf, m1, m2], ?_⟩
    intro h hh o ho
    simp only [insertedOf, m1, Option.map_some', Option.some.injEq] at hh
    subst hh
    exact hshape o (m5.mem_iff.mp ho)

theorem tuple_shape_witness :
    (statusOf (BlockNestedLoops.Execute sampleEnv 2 7 exampleLeft exampleRight)
        = some Status.OK ∧
      ∀ h, insertedOf (BlockNestedLoops.Execute sampleEnv 2 7 exampleLeft exampleRight) = some h →
        ∀ o ∈ h, TupleShape exampleLeft exampleRight o) ∧
    (statusOf (IndexNestedLoops.Execute sampleEnv 7 exampleLeft exampleRight) = some Status.OK ∧
      ∀ h, insertedOf (IndexNestedLoops.Execute sampleEnv 7 exampleLeft exampleRight) = some h →
        ∀ o ∈ h, TupleShape exampleLeft exampleRight o) ∧
    (statusOf (SortMerge.Execute sampleEnv 7 exampleLeft exampleRight) = some Status.OK ∧
      ∀ h, insertedOf (SortMerge.Execute sampleEnv 7 exampleLeft exampleRight) = some h →
        ∀ o ∈ h, TupleShape exampleLeft exampleRight o) :=
  tuple_shape sampleEnv 2 7 exampleLeft exampleRight sampleEnv_noFaults
    (soundFile_noFaults _) (soundFile_noFaults _) unaryKey_injective
    (insertionSorter_sorts sampleEnv rfl exampleLeft (soundFile_noFaults _))
    (insertionSorter_sorts sampleEnv rfl exampleRight (soundFile_noFaults _))
    (by decide) (by decide) (by decide)

/-- C5 (tuple shape): a successful run of the index-nested-loop join that
inserts a tuple without the shape.  With the left relation `probeLeft` and the
right relation `unfetchableRight`, whose tuple with id 0 matches the left tuple
and cannot be fetched, `IndexNestedLoops::Execute` returns `OK` and assigns
`out.file`, and the one tuple it inserted, `(7, 1)` followed by `(9, 3)`, has
the length `left.recLen + right.recLen` and the left tuple as its first
`left.recLen` bytes, but the join attributes of its two parts differ: it is
not of the shape. -/
theorem tuple_shape_lost_on_undetected_fetch_failure :
    statusOf (IndexNestedLoops.Execute sampleEnv 4 probeLeft unfetchableRight) =
      some Status.OK ∧
    outputOf (IndexNestedLoops.Execute sampleEnv 4 probeLeft unfetchableRight) =
      some [[7, 0, 0, 0, 1, 9, 0, 0, 0, 3]] ∧
    insertedOf (IndexNestedLoops.Execute sampleEnv 4 probeLeft unfetchableRight) =
      some [[7, 0, 0, 0, 1, 9, 0, 0, 0, 3]] ∧
    [7, 0, 0, 0, 1, 9, 0, 0, 0, 3].length = probeLeft.recLen + unfetchableRight.recLen ∧
    [7, 0, 0, 0, 1, 9, 0, 0, 0, 3].take probeLeft.recLen ∈ probeLeft.file.recs ∧
    [7, 0, 0, 0, 1, 9, 0, 0, 0, 3].drop probeLeft.recLen ∈ unfetchableRight.file.recs ∧
    readInt ([7, 0, 0, 0, 1, 9, 0, 0, 0, 3].take probeLeft.recLen) probeLeft.offset ≠
      readInt ([7, 0, 0, 0, 1, 9, 0, 0, 0, 3].drop probeLeft.recLen)
        unfetchableRight.offset ∧
    ¬ TupleShape probeLeft unfetchableRight [7, 0, 0, 0, 1, 9, 0, 0, 0, 3] := by
  refine ⟨by decide, by decide, by decide, by decide, by decide, by decide, by decide, ?_⟩
  unfold TupleShape
  decide

theorem equiJoin_example :
    equiJoin exampleLeft exampleRight exampleLeft.file.recs exampleRight.file.recs
      = exampleOutput := by
  decide

/-- C6 (duplicate-key cross product example): with
`left = [(1,"a"), (2,"b"), (2,"c")]` and `right = [(2,"x"), (2,"y"), (3,"z")]`
joined on the first field, each of `BlockNestedLoops::Execute` (for every
`blockSize ≥ 1`), `IndexNestedLoops::Execute` and `SortMerge::Execute` returns
`OK` with an output whose multiset is exactly the four tuples `(2,"b",2,"x")`,
`(2,"b",2,"y")`, `(2,"c",2,"x")`, `(2,"c",2,"y")`. -/
theorem duplicate_key_example (env : Env) (blockSize fuel : Nat)
    (hb : 1 ≤ blockSize) (he : env.NoFaults) (hinj : Function.Injective env.toString)
    (hsl : env.SortsByKey exampleLeft) (hsr : env.SortsByKey exampleRight)
    (hfuel : 6 < fuel) :
    statusOf (BlockNestedLoops.Execute env blockSize fuel exampleLeft exampleRight)
      = some Status.OK ∧
    outputBag (BlockNestedLoops.Execute env blockSize fuel exampleLeft exampleRight)
      = some ↑exampleOutput ∧
    statusOf (IndexNestedLoops.Execute env fuel exampleLeft exampleRight) = some Status.OK ∧
    outputBag (IndexNestedLoops.Execute env fuel exampleLeft exampleRight)
      = some ↑exampleOutput ∧
    statusOf (SortMerge.Execute env fuel exampleLeft exampleRight) = some Status.OK ∧
    outputBag (SortMerge.Execute env fuel exampleLeft exampleRight) = some ↑exampleOutput := by
  have hf : exampleLeft.file.recs.length + exampleRight.file.recs.length < fuel := by
    simpa [exampleLeft, exampleRight, soundFile] using hfuel
  obtain ⟨b, b1, b2, b3, b4⟩ := bnl_correct env blockSize fuel exampleLeft exampleRight he
    (soundFile_noFaults _) (soundFile_noFaults _) hb hf
  obtain ⟨i, i1, i2, i3, i4⟩ := inl_correct env fuel exampleLeft exampleRight he
    (soundFile_noFaults _) (soundFile_noFaults _) hinj hf
  obtain ⟨m, m1, m2, m3, _, m5⟩ := sm_correct env fuel exampleLeft exampleRight he hsl hsr hf
  rw [equiJoin_example] at b4 i4 m5
  have eb : (b.heap : Multiset Record) = ↑exampleOutput := Quotient.sound b4
  have em : (m.heap : Multiset Record) = ↑exampleOutput := Quotient.sound m5
  simp [statusOf, outputBag, outputOf, b1, b2, b3, i1, i2, i3, m1, m2, m3, eb, em, i4]

theorem duplicate_key_example_witness :
    statusOf (BlockNestedLoops.Execute sampleEnv 1 7 exampleLeft exampleRight)
      = some Status.OK ∧
    outputBag (BlockNestedLoops.Execute sampleEnv 1 7 exampleLeft exampleRight)
      = some ↑exampleOutput ∧
    statusOf (IndexNestedLoops.Execute sampleEnv 7 exampleLeft exampleRight) = some Status.OK ∧
    outputBag (IndexNestedLoops.Execute sampleEnv 7 exampleLeft exampleRight)
      = some ↑exampleOutput ∧
    statusOf (SortMerge.Execute sampleEnv 7 exampleLeft exampleRight) = some Status.OK ∧
    outputBag (SortMerge.Execute sampleEnv 7 exampleLeft exampleRight)
      = some ↑exampleOutput :=
  duplicate_key_example sampleEnv 1 7 (by decide) sampleEnv_noFaults unaryKey_injective
    (insertionSorter_sorts sampleEnv rfl exampleLeft (soundFile_noFaults _))
    (insertionSorter_sorts sampleEnv rfl exampleRight (soundFile_noFaults _)) (by decide)

/-- C7 (empty-input law): for each of the three strategies and every block
size, if the left relation or the right relation is empty and no storage call
fails (the sorted copies being permutations of the relations), `Execute`
returns `OK` and the output relation contains no tuples. -/
theorem empty_input_law (env : Env) (blockSize fuel : Nat) (left right : JoinSpec)
    (he : env.NoFaults) (hl : left.file.NoFaults) (hr : right.file.NoFaults)
    (hpl : (env.SortHeapFile left.file left.recLen left.offset).recs.Perm left.file.recs)
    (hpr : (env.SortHeapFile right.file right.recLen right.offset).recs.Perm right.file.recs)
    (hfl : (env.SortHeapFile left.file left.recLen left.offset).NoFaults)
    (hfr : (env.SortHeapFile right.file right.recLen right.offset).NoFaults)
    (hempty : left.file.recs = [] ∨ right.file.recs = [])
    (hfuel : left.file.recs.length + right.file.recs.length < fuel) :
    statusOf (BlockNestedLoops.Execute env blockSize fuel left right) = some Status.OK ∧
    outputOf (BlockNestedLoops.Execute env blockSize fuel left right) = some [] ∧
    statusOf (IndexNestedLoops.Execute env fuel left right) = some Status.OK ∧
    outputOf (IndexNestedLoops.Execute env fuel left right) = some [] ∧
    statusOf (SortMerge.Execute env fuel left right) = some Status.OK ∧
    outputOf (SortMerge.Execute env fuel left right) = some [] := by
  have hnil : equiJoin left right left.file.recs right.file.recs = [] := by
    rcases hempty with h | h
    · rw [h]; simp [equiJoin]
    · rw [h]; exact equiJoin_nil_right _ _ _
  have henc : encJoin env left right left.file.recs right.file.recs = [] := by
    rcases hempty with h | h
    · rw [h]; simp [encJoin]
    · rw [h]; exact encJoin_nil_right _ _ _ _
  obtain ⟨b1, b2⟩ := bnl_output_nil env blockSize fuel left right he hl hr hnil hfuel
  obtain ⟨i, i1, i2, i3, _, i5⟩ := inl_run env fuel left right he hl hr hfuel
  have hse : (env.SortHeapFile left.file left.recLen left.offset).recs = [] ∨
      (env.SortHeapFile right.file right.recLen right.offset).recs = [] := by
    rcases hempty with h | h
    · left; rw [h] at hpl; exact List.Perm.eq_nil hpl
    · right; rw [h] at hpr; exact List.Perm.eq_nil hpr
  have hm := sm_run_empty env fuel left right he.1 hfl hfr hse (by omega)
  rw [henc] at i5
  refine ⟨b1, b2, ?_, ?_, ?_, ?_⟩
  · simp [statusOf, i1, i2]
  · simp [outputOf, i1, i3, i5]
  · rw [hm]; rfl
  · rw [hm]; rfl

theorem empty_input_law_witness :
    statusOf (BlockNestedLoops.Execute sampleEnv 2 4 emptyLeft exampleRight) = some Status.OK ∧
    outputOf (BlockNestedLoops.Execute sampleEnv 2 4 emptyLeft exampleRight) = some [] ∧
    statusOf (IndexNestedLoops.Execute sampleEnv 4 emptyLeft exampleRight) = some Status.OK ∧
    outputOf (IndexNestedLoops.Execute sampleEnv 4 emptyLeft exampleRight) = some [] ∧
    statusOf (SortMerge.Execute sampleEnv 4 emptyLeft exampleRight) = some Status.OK ∧
    outputOf (SortMerge.Execute sampleEnv 4 emptyLeft exampleRight) = some [] :=
  empty_input_law sampleEnv 2 4 emptyLeft exampleRight sampleEnv_noFaults
    (soundFile_noFaults _) (soundFile_noFaults _)
    (insertionSorter_sorts sampleEnv rfl emptyLeft (soundFile_noFaults _)).1
    (insertionSorter_sorts sampleEnv rfl exampleRight (soundFile_noFaults _)).1
    (insertionSorter_sorts sampleEnv rfl emptyLeft (soundFile_noFaults _)).2.2
    (insertionSorter_sorts sampleEnv rfl exampleRight (soundFile_noFaults _)).2.2
    (Or.inl rfl) (by decide)

/-- C8 (no-match case): for each of the three strategies and every block
size, if no left tuple has the join-attribute value of a right tuple and no
call fails (the key encoder being injective and the sorted copies
key-ascending permutations), `Execute` returns `OK` and the output relation is
empty. -/
theorem no_match_case (env : Env) (blockSize fuel : Nat) (left right : JoinSpec)
    (he : env.NoFaults) (hl : left.file.NoFaults) (hr : right.file.NoFaults)
    (hinj : Function.Injective env.toString)
    (hsl : env.SortsByKey left) (hsr : env.SortsByKey right)
    (hno : ∀ l ∈ left.file.recs, ∀ r ∈ right.file.recs,
      readInt l left.offset ≠ readInt r right.offset)
    (hfuel : left.file.recs.length + right.file.recs.length < fuel) :
    statusOf (BlockNestedLoops.Execute env blockSize fuel left right) = some Status.OK ∧
    outputOf (BlockNestedLoops.Execute env blockSize fuel left right) = some [] ∧
    statusOf (IndexNestedLoops.Execute env fuel left right) = some Status.OK ∧
    outputOf (IndexNestedLoops.Execute env fuel left right) = some [] ∧
    statusOf (SortMerge.Execute env fuel left right) = some Status.OK ∧
    outputOf (SortMerge.Execute env fuel left right) = some [] := by
  have hnil := equiJoin_eq_nil left right _ _ hno
  obtain ⟨b1, b2⟩ := bnl_output_nil env blockSize fuel left right he hl hr hnil hfuel
  obtain ⟨i, i1, i2, i3, i4⟩ := inl_correct env fuel left right he hl hr hinj hfuel
  obtain ⟨m, m1, m2, m3, _, m5⟩ := sm_correct env fuel left right he hsl hsr hfuel
  rw [hnil] at i4 m5
  refine ⟨b1, b2, ?_, ?_, ?_, ?_⟩
  · simp [statusOf, i1, i2]
  · simp [outputOf, i1, i3, i4]
  · simp [statusOf, m1, m2]
  · simp [outputOf, m1, m3, List.Perm.eq_nil m5]

theorem no_match_case_witness :
    statusOf (BlockNestedLoops.Execute sampleEnv 2 5 probeLeft exampleRight) = some Status.OK ∧
    outputOf (BlockNestedLoops.Execute sampleEnv 2 5 probeLeft exampleRight) = some [] ∧
    statusOf (IndexNestedLoops.Execute sampleEnv 5 probeLeft exampleRight) = some Status.OK ∧
    outputOf (IndexNestedLoops.Execute sampleEnv 5 probeLeft exampleRight) = some [] ∧
    statusOf (SortMerge.Execute sampleEnv 5 probeLeft exampleRight) = some Status.OK ∧
    outputOf (SortMerge.Execute sampleEnv 5 probeLeft exampleRight) = some [] :=
  no_match_case sampleEnv 2 5 probeLeft exampleRight sampleEnv_noFaults
    (soundFile_noFaults _) (soundFile_noFaults _) unaryKey_injective
    (insertionSorter_sorts sampleEnv rfl probeLeft (soundFile_noFaults _))
    (insertionSorter_sorts sampleEnv rfl exampleRight (soundFile_noFaults _))
    (by decide) (by decide)

/-- C9 (fetch failure in the index-nested-loop join): with the right
relation `unfetchableRight`, whose tuple with id 0 matches the left tuple and
cannot be fetched, `right.file->GetRecord` reports `FAIL` for the id the probe
returns, and `IndexNestedLoops::Execute` nevertheless inserts a tuple for that
id (the left tuple followed by the stale contents of `rightRec`, the last
right tuple scanned), returns `OK` and assigns `out.file`. -/
theorem fetch_failure_not_detected :
    (unfetchableRight.file.GetRecord 0 [9, 0, 0, 0, 3]).1 = Status.FAIL ∧
    IndexNestedLoops.Execute sampleEnv 4 probeLeft unfetchableRight =
      some { status := Status.OK, outFile := some [[7, 0, 0, 0, 1, 9, 0, 0, 0, 3]],
             heap := [[7, 0, 0, 0, 1, 9, 0, 0, 0, 3]], leftReads := 0, rightPasses := 0,
             destroyCalls := 1 } := by
  decide

/-- C10 (cursor-read failures in the sort-merge join): with an empty left
relation and the right relation `unreadableRight`, the priming reads of `T`
and `G` on the sorted right copy report `FAIL`, and `SortMerge::Execute`
nevertheless returns `OK` and assigns `out.file`. -/
theorem priming_read_failure_not_detected :
    ((sampleEnv.SortHeapFile unreadableRight.file unreadableRight.recLen
        unreadableRight.offset).OpenScan.2.GetNext 0 []).status = Status.FAIL ∧
    SortMerge.Execute sampleEnv 3 emptyLeft unreadableRight =
      some { status := Status.OK, outFile := some [], heap := [], leftReads := 0,
             rightPasses := 0, destroyCalls := 0 } := by
  decide

/-! ### Output order -/

theorem chunksOf_nil (blockSize n : Nat) : chunksOf blockSize n [] = [] := by
  cases n <;> rfl

theorem blockOrder_eq_chunks (left right : JoinSpec) (blockSize : Nat) (hb : 1 ≤ blockSize)
    (R : List Record) :
    ∀ (k : Nat) (L : List Record) (m n : Nat), L.length ≤ k → L.length < m → L.length ≤ n →
      blockOrder left right blockSize R m L =
        (chunksOf blockSize n L).flatMap fun c => blockJoin left right c R := by
  intro k
  induction k with
  | zero =>
    intro L m n hk hm _
    have hL : L = [] := List.eq_nil_of_length_eq_zero (by omega)
    subst hL
    obtain ⟨m1, rfl⟩ : ∃ m1, m = m1 + 1 := ⟨m - 1, by simp at hm; omega⟩
    have h0 : (0 : Nat) < blockSize := by omega
    simp [blockOrder, chunksOf_nil, blockJoin_nil_block, h0]
  | succ k ih =>
    intro L m n hk hm hn
    obtain ⟨m1, rfl⟩ : ∃ m1, m = m1 + 1 := ⟨m - 1, by omega⟩
    cases L with
    | nil =>
      have h0 : (0 : Nat) < blockSize := by omega
      simp [blockOrder, chunksOf_nil, blockJoin_nil_block, h0]
    | cons x t =>
      obtain ⟨n1, rfl⟩ : ∃ n1, n = n1 + 1 := ⟨n - 1, by simp at hn; omega⟩
      simp only [blockOrder, chunksOf, List.flatMap_cons]
      congr 1
      by_cases hd : (x :: t).length < blockSize
      · have hnil : (x :: t).drop blockSize = [] := List.drop_eq_nil_of_le (by omega)
        rw [if_pos hd, hnil, chunksOf_nil]
        rfl
      · rw [if_neg hd]
        simp only [List.length_cons] at hk hm hn hd
        exact ih _ m1 n1 (by simp only [List.length_drop, List.length_cons]; omega)
          (by simp only [List.length_drop, List.length_cons]; omega)
          (by simp only [List.length_drop, List.length_cons]; omega)

theorem blockOrder_eq_chunkedJoin (left right : JoinSpec) (blockSize : Nat)
    (hb : 1 ≤ blockSize) (L R : List Record) (m : Nat) (hm : L.length < m) :
    blockOrder left right blockSize R m L = chunkedJoin left right blockSize L R := by
  rw [blockOrder_eq_chunks left right blockSize hb R L.length L m L.length (le_refl _) hm
    (le_refl _)]
  rfl

theorem chunksOf_one (n : Nat) :
    ∀ L : List Record, L.length ≤ n → chunksOf 1 n L = L.map fun l => [l] := by
  induction n with
  | zero =>
    intro L h
    have hL : L = [] := List.eq_nil_of_length_eq_zero (by omega)
    subst hL
    rfl
  | succ n ih =>
    intro L h
    cases L with
    | nil => rfl
    | cons x t =>
      simp only [chunksOf, List.take_succ_cons, List.take_zero, List.drop_succ_cons,
        List.drop_zero, List.map_cons]
      rw [ih t (by simpa using h)]

theorem chunkedJoin_one (left right : JoinSpec) (L R : List Record) :
    chunkedJoin left right 1 L R = equiJoin left right L R := by
  have h := chunksOf_one L.length L (le_refl _)
  simp only [chunkedJoin, chunks, h, equiJoin, List.flatMap_map]
  apply List.flatMap_congr
  intro l _
  exact blockJoin_single left right l R

theorem outputKey_equiJoin_sorted (left right : JoinSpec) (L R : List Record)
    (hs : SortedBy left L) (hlen : ∀ l ∈ L, l.length = left.recLen) :
    ((equiJoin left right L R).map (outputKey left)).Pairwise (· ≤ ·) := by
  have hkey : ∀ (L1 : List Record), (∀ l ∈ L1, l.length = left.recLen) →
      ∀ o ∈ equiJoin left right L1 R, ∃ l ∈ L1, outputKey left o = readInt l left.offset := by
    intro L1 h1 o ho
    obtain ⟨l, hl, r, _, ho2, _⟩ := mem_equiJoin left right L1 R o ho
    refine ⟨l, hl, ?_⟩
    subst ho2
    simp [outputKey, ← h1 l hl]
  induction L with
  | nil => simp [equiJoin]
  | cons x t ih =>
    have e : equiJoin left right (x :: t) R =
        equiJoin left right [x] R ++ equiJoin left right t R :=
      equiJoin_append left right [x] t R
    have hx : ∀ l ∈ [x], l.length = left.recLen := by
      intro l hl
      exact hlen l (by simp at hl; simp [hl])
    have ht : ∀ l ∈ t, l.length = left.recLen :=
      fun l hl => hlen l (List.mem_cons_of_mem _ hl)
    rw [e, List.map_append, List.pairwise_append]
    refine ⟨?_, ih hs.tail ht, ?_⟩
    · rw [List.pairwise_map]
      apply List.pairwise_of_forall_mem_list
      intro a ha b hb
      obtain ⟨l1, hl1, e1⟩ := hkey [x] hx a ha
      obtain ⟨l2, hl2, e2⟩ := hkey [x] hx b hb
      simp only [List.mem_singleton] at hl1 hl2
      rw [e1, e2, hl1, hl2]
    · intro a ha b hb
      obtain ⟨o1, ho1, rfl⟩ := List.mem_map.mp ha
      obtain ⟨o2, ho2, rfl⟩ := List.mem_map.mp hb
      obtain ⟨l1, hl1, e1⟩ := hkey [x] hx o1 ho1
      obtain ⟨l2, hl2, e2⟩ := hkey t ht o2 ho2
      simp only [List.mem_singleton] at hl1
      rw [e1, e2, hl1]
      exact List.rel_of_pairwise_cons hs hl2

/-- C17 (exact output order of the block-nested-loop join): for every
`blockSize ≥ 1`, in a run in which no storage call fails, the sequence of
tuples `BlockNestedLoops::Execute` inserts into the output is the list
obtained by splitting left into consecutive chunks of `blockSize` tuples and,
for each chunk in order, for each right tuple in scan order, for each left
tuple of the chunk in order, emitting `l ++ r` when the keys are equal; with
`blockSize = 1` it is the sequence of the naive nested loop with left as the
outer relation. -/
theorem block_nested_loop_output_order (env : Env) (blockSize fuel : Nat)
    (left right : JoinSpec) (hb : 1 ≤ blockSize) (he : env.NoFaults)
    (hl : left.file.NoFaults) (hr : right.file.NoFaults)
    (hfuel : left.file.recs.length + right.file.recs.length < fuel) :
    statusOf (BlockNestedLoops.Execute env blockSize fuel left right) = some Status.OK ∧
    insertedOf (BlockNestedLoops.Execute env blockSize fuel left right) =
      some (chunkedJoin left right blockSize left.file.recs right.file.recs) ∧
    outputOf (BlockNestedLoops.Execute env blockSize fuel left right) =
      some (chunkedJoin left right blockSize left.file.recs right.file.recs) ∧
    insertedOf (BlockNestedLoops.Execute env 1 fuel left right) =
      some (equiJoin left right left.file.recs right.file.recs) := by
  obtain ⟨b, b1, b2, b3, b4⟩ := bnl_run env blockSize fuel left right he.1 he.2.1 hl.1 hl.2.1
    hr.1 hr.2.1 hb hfuel
  obtain ⟨c, c1, _, _, c4⟩ := bnl_run env 1 fuel left right he.1 he.2.1 hl.1 hl.2.1
    hr.1 hr.2.1 (le_refl _) hfuel
  rw [blockOrder_eq_chunkedJoin left right blockSize hb _ _ fuel (by omega)] at b4
  rw [blockOrder_eq_chunkedJoin left right 1 (le_refl _) _ _ fuel (by omega),
    chunkedJoin_one] at c4
  simp [statusOf, insertedOf, outputOf, b1, b2, b3, b4, c1, c4]

theorem block_nested_loop_output_order_witness :
    statusOf (BlockNestedLoops.Execute sampleEnv 2 7 exampleLeft exampleRight)
      = some Status.OK ∧
    insertedOf (BlockNestedLoops.Execute sampleEnv 2 7 exampleLeft exampleRight) =
      some (chunkedJoin exampleLeft exampleRight 2 exampleLeft.file.recs
        exampleRight.file.recs) ∧
    outputOf (BlockNestedLoops.Execute sampleEnv 2 7 exampleLeft exampleRight) =
      some (chunkedJoin exampleLeft exampleRight 2 exampleLeft.file.recs
        exampleRight.file.recs) ∧
    insertedOf (BlockNestedLoops.Execute sampleEnv 1 7 exampleLeft exampleRight) =
      some (equiJoin exampleLeft exampleRight exampleLeft.file.recs exampleRight.file.recs) :=
  block_nested_loop_output_order sampleEnv 2 7 exampleLeft exampleRight (by decide)
    sampleEnv_noFaults (soundFile_noFaults _) (soundFile_noFaults _) (by decide)

/-- C18 (sort-merge output order): with `sortedLeft` and `sortedRight` the
key-ascending copies returned by `SortHeapFile` and no failing call, the
sequence of tuples `SortMerge::Execute` inserts into the output is the
sequence of the naive nested loop over the sorted copies (for each `l` in
`sortedLeft`, for each `r` in `sortedRight`, `l ++ r` if the keys are equal);
so the join keys of the output sequence are non-decreasing. -/
theorem sort_merge_output_order (env : Env) (fuel : Nat) (left right : JoinSpec)
    (he : env.NoFaults) (hsl : env.SortsByKey left) (hsr : env.SortsByKey right)
    (hlen : ∀ l ∈ left.file.recs, l.length = left.recLen)
    (hfuel : left.file.recs.length + right.file.recs.length < fuel) :
    statusOf (SortMerge.Execute env fuel left right) = some Status.OK ∧
    insertedOf (SortMerge.Execute env fuel left right) =
      some (equiJoin left right (env.SortHeapFile left.file left.recLen left.offset).recs
        (env.SortHeapFile right.file right.recLen right.offset).recs) ∧
    outputOf (SortMerge.Execute env fuel left right) =
      insertedOf (SortMerge.Execute env fuel left right) ∧
    ∀ h, insertedOf (SortMerge.Execute env fuel left right) = some h →
      (h.map (outputKey left)).Pairwise (· ≤ ·) := by
  obtain ⟨m, m1, m2, m3, m4, _⟩ := sm_correct env fuel left right he hsl hsr hfuel
  refine ⟨by simp [statusOf, m1, m2], by simp [insertedOf, m1, m4],
    by simp [insertedOf, outputOf, m1, m3], ?_⟩
  intro h hh
  simp only [insertedOf, m1, Option.map_some', Option.some.injEq] at hh
  subst hh
  rw [m4]
  exact outputKey_equiJoin_sorted left right _ _ hsl.2.1
    (fun l hl => hlen l (hsl.1.mem_iff.mp hl))

theorem sort_merge_output_order_witness :
    statusOf (SortMerge.Execute sampleEnv 7 exampleLeft exampleRight) = some Status.OK ∧
    insertedOf (SortMerge.Execute sampleEnv 7 exampleLeft exampleRight) =
      some (equiJoin exampleLeft exampleRight
        (sampleEnv.SortHeapFile exampleLeft.file exampleLeft.recLen exampleLeft.offset).recs
        (sampleEnv.SortHeapFile exampleRight.file exampleRight.recLen
          exampleRight.offset).recs) ∧
    outputOf (SortMerge.Execute sampleEnv 7 exampleLeft exampleRight) =
      insertedOf (SortMerge.Execute sampleEnv 7 exampleLeft exampleRight) ∧
    ∀ h, insertedOf (SortMerge.Execute sampleEnv 7 exampleLeft exampleRight) = some h →
      (h.map (outputKey exampleLeft)).Pairwise (· ≤ ·) :=
  sort_merge_output_order sampleEnv 7 exampleLeft exampleRight sampleEnv_noFaults
    (insertionSorter_sorts sampleEnv rfl exampleLeft (soundFile_noFaults _))
    (insertionSorter_sorts sampleEnv rfl exampleRight (soundFile_noFaults _))
    (by decide) (by decide)

/-- C20 (zero block size loses the result): with `blockSize = 0` and no
failing storage call, for all relations `BlockNestedLoops::Execute` issues no
read on the left scan, runs the right scan to `DONE` exactly once, returns
`OK` and produces an empty output relation; so the output equals the
equi-join only when the equi-join is empty. -/
theorem zero_block_size (env : Env) (fuel : Nat) (left right : JoinSpec)
    (he : env.NoFaults) (hl : left.file.NoFaults) (hr : right.file.NoFaults)
    (hfuel : left.file.recs.length + right.file.recs.length < fuel) :
    BlockNestedLoops.Execute env 0 fuel left right =
      some { status := Status.OK, outFile := some [], heap := [], leftReads := 0,
             rightPasses := 1, destroyCalls := 0 } ∧
    (outputBag (BlockNestedLoops.Execute env 0 fuel left right) =
        some ↑(equiJoin left right left.file.recs right.file.recs) ↔
      equiJoin left right left.file.recs right.file.recs = []) := by
  have h := bnl_run_zero env fuel left right he.1 he.2.1 hl.1 hl.2.1 hr.1 hr.2.1 hfuel
  refine ⟨h, ?_⟩
  rw [h]
  have hbag : outputBag (some ⟨Status.OK, some [], [], 0, 1, 0⟩) =
      some (↑([] : List Record) : Multiset Record) := rfl
  rw [hbag, Option.some.injEq]
  constructor
  · intro e
    exact List.Perm.eq_nil (Quotient.exact e).symm
  · intro e
    rw [e]

theorem zero_block_size_witness :
    BlockNestedLoops.Execute sampleEnv 0 7 exampleLeft exampleRight =
      some { status := Status.OK, outFile := some [], heap := [], leftReads := 0,
             rightPasses := 1, destroyCalls := 0 } ∧
    (outputBag (BlockNestedLoops.Execute sampleEnv 0 7 exampleLeft exampleRight) =
        some ↑(equiJoin exampleLeft exampleRight exampleLeft.file.recs
          exampleRight.file.recs) ↔
      equiJoin exampleLeft exampleRight exampleLeft.file.recs exampleRight.file.recs = []) :=
  zero_block_size sampleEnv 7 exampleLeft exampleRight sampleEnv_noFaults
    (soundFile_noFaults _) (soundFile_noFaults _) (by decide)

/-! ### Pass count of the block-nested-loop join -/

/-- The outer loop of the block-nested-loop join in a fault-free run over
the left records `rem` still to be read: it runs the right scan to `DONE`
once per full block and once more for what is left, which may be nothing. -/
theorem blockLoop_counts (env : Env) (left right : JoinSpec) (blockSize : Nat)
    (hb : 1 ≤ blockSize) (hins : env.insertFaults = []) (first n : Nat) :
    ∀ (fuel : Nat) (rem : List Record) (s : BNLState),
      s.leftScan.file.scanFaults = [] → s.rightScan.file.scanFaults = [] →
      s.leftScan.file.recs.drop s.leftScan.currRid = rem → rem.length < fuel →
      rem.length < n → (s.rightScan.file.recs.drop first).length < n →
      s.rightScan.currRid = first → s.block = [] →
      ∃ s1, blockLoop env blockSize left right first n fuel s = some (Ctl.next s1) ∧
        s1.rightPasses = s.rightPasses + rem.length / blockSize + 1 ∧
        s1.leftReads = s.leftReads + rem.length + 1 := by
  intro fuel
  induction fuel with
  | zero => intro rem s _ _ _ h; simp at h
  | succ k ih =>
    intro rem s hlf hrf hrem hfuel hn hnR hfirst hblock
    obtain ⟨s1, f1, f2, f3, f4, f5, f6, f7, f8, f9⟩ :=
      fillBlock_noFaults blockSize rem n s hlf hrem hn
    simp only [hblock, List.length_nil, Nat.sub_zero, List.nil_append] at f2 f4 f5 f9
    have hbl0 : ¬ blockSize ≤ 0 := by omega
    simp only [hbl0, if_false] at f5
    obtain ⟨s2, g1, g2, g3, g4, g5, g6, g7, g8, g9⟩ :=
      scanRight_noFaults env left right hins (s.rightScan.file.recs.drop first) n
        { s1 with rightRec := [] } (by simpa [f6] using hrf)
        (by simp [f6, hfirst]) hnR
    simp only at g3 g4 g7 g8 g9
    by_cases hd : rem.length < blockSize
    · refine ⟨s2, ?_, ?_, ?_⟩
      · simp only [blockLoop, f1, g1]
        simp [g4, f5, hd]
      · rw [g9, f8, Nat.div_eq_of_lt hd]
      · rw [g8, f9]
        have : min blockSize (rem.length + 1) = rem.length + 1 := by omega
        omega
    · have hst : s2.leftStatus ≠ Status.DONE := by simp [g4, f5, hd]
      obtain ⟨s3, k1, k2, k3⟩ := ih (rem.drop blockSize)
        { s2 with rightScan := s2.rightScan.MoveTo first, block := [] }
        (by simpa [g3, f3] using hlf)
        (by simpa [Scan.MoveTo, g7, f6] using hrf)
        (by simpa [g3] using f4)
        (by simp only [List.length_drop]; omega)
        (by simp only [List.length_drop]; omega)
        (by simpa [Scan.MoveTo, g7, f6] using hnR)
        rfl rfl
      simp only [List.length_drop] at k2 k3
      refine ⟨s3, ?_, ?_, ?_⟩
      · simp only [blockLoop, f1, g1]
        simpa [hst] using k1
      · rw [k2, g9, f8]
        have hsplit : rem.length / blockSize = (rem.length - blockSize) / blockSize + 1 := by
          have h1 : rem.length = (rem.length - blockSize) + blockSize := by omega
          conv_lhs => rw [h1]
          exact Nat.add_div_right _ (by omega)
        omega
      · rw [k3, g8, f9]
        have : min blockSize (rem.length + 1) = blockSize := by omega
        omega

/-- In a run of the block-nested-loop join with `blockSize ≥ 1` in which no
storage call fails, the right scan is run to `DONE` `|left| / blockSize + 1`
times and `|left| + 1` reads are issued on the left scan. -/
theorem bnl_counts (env : Env) (blockSize fuel : Nat) (left right : JoinSpec)
    (he : env.NoFaults) (hl : left.file.NoFaults) (hr : right.file.NoFaults)
    (hb : 1 ≤ blockSize) (hfuel : left.file.recs.length + right.file.recs.length < fuel) :
    ∃ res, BlockNestedLoops.Execute env blockSize fuel left right = some res ∧
      res.status = Status.OK ∧
      res.rightPasses = left.file.recs.length / blockSize + 1 ∧
      res.leftReads = left.file.recs.length + 1 := by
  obtain ⟨s1, h1, h2, h3⟩ := blockLoop_counts env left right blockSize hb he.2.1 0 fuel fuel
    left.file.recs
    { leftScan := left.file.OpenScan.2, rightScan := right.file.OpenScan.2, block := [],
      leftStatus := Status.DONE, rightStatus := right.file.OpenScan.1, leftRec := [],
      rightRec := [], heap := [], leftReads := 0, rightPasses := 0 }
    hl.2.1 hr.2.1 rfl (by omega) (by omega) (by simp [HeapFile.OpenScan]; omega) rfl rfl
  simp only [HeapFile.OpenScan, hr.1, Nat.zero_add] at h1 h2 h3
  refine ⟨{ status := Status.OK, outFile := some s1.heap, heap := s1.heap,
            leftReads := s1.leftReads, rightPasses := s1.rightPasses, destroyCalls := 0 },
    ?_, rfl, h2, h3⟩
  simp [BlockNestedLoops.Execute, he.1, HeapFile.OpenScan, hl.1, hr.1, h1]

/-- C13 (block-nested-loop pass count): with three left tuples and no
failing call, `BlockNestedLoops::Execute` runs the right scan to `DONE` twice
for `blockSize = 3` (the claim gives `⌈3/3⌉ = 1`), four times for
`blockSize = 1` (the claim gives 3) and twice for `blockSize = 2`; with an
empty left relation it runs it once (the claim gives 0). -/
theorem extra_pass_after_last_full_block :
    (BlockNestedLoops.Execute sampleEnv 3 7 exampleLeft exampleRight).map
        JoinResult.rightPasses = some 2 ∧
    (exampleLeft.file.recs.length + 3 - 1) / 3 = 1 ∧
    (BlockNestedLoops.Execute sampleEnv 1 7 exampleLeft exampleRight).map
        JoinResult.rightPasses = some 4 ∧
    (exampleLeft.file.recs.length + 1 - 1) / 1 = 3 ∧
    (BlockNestedLoops.Execute sampleEnv 2 7 exampleLeft exampleRight).map
        JoinResult.rightPasses = some 2 ∧
    (BlockNestedLoops.Execute sampleEnv 2 4 emptyLeft exampleRight).map
        JoinResult.rightPasses = some 1 := by
  decide

/-! ### Teardown of the index -/

/-- C12 (ephemeral index teardown): on each of the five `FAIL` paths of
`IndexNestedLoops::Execute` taken after the index was created (failed right
scan read, failed index insert, failed left scan read, failed index scan
read, failed output insert) `Execute` returns `FAIL` without a call of
`DestroyFile`; on the `OK` path `DestroyFile` is called once. -/
theorem index_not_destroyed_on_failure :
    IndexNestedLoops.Execute sampleEnv 7 exampleLeft unreadableRight =
      some { status := Status.FAIL, outFile := none, heap := [], leftReads := 0,
             rightPasses := 0, destroyCalls := 0 } ∧
    IndexNestedLoops.Execute indexInsertFaultEnv 7 exampleLeft exampleRight =
      some { status := Status.FAIL, outFile := none, heap := [], leftReads := 0,
             rightPasses := 0, destroyCalls := 0 } ∧
    IndexNestedLoops.Execute sampleEnv 7 unreadableRight exampleRight =
      some { status := Status.FAIL, outFile := none, heap := [], leftReads := 0,
             rightPasses := 0, destroyCalls := 0 } ∧
    IndexNestedLoops.Execute indexScanFaultEnv 7 exampleLeft exampleRight =
      some { status := Status.FAIL, outFile := none, heap := [], leftReads := 0,
             rightPasses := 0, destroyCalls := 0 } ∧
    IndexNestedLoops.Execute outputInsertFaultEnv 7 exampleLeft exampleRight =
      some { status := Status.FAIL, outFile := none, heap := [], leftReads := 0,
             rightPasses := 0, destroyCalls := 0 } ∧
    (IndexNestedLoops.Execute sampleEnv 7 exampleLeft exampleRight).map
        JoinResult.destroyCalls = some 1 := by
  decide

/-! ### Hand-off of the group cursor -/

theorem groupEnd_last_run (right : JoinSpec) (k : Int) (z : Record) (v : List Record)
    (h : ∀ r ∈ z :: v, readInt r right.offset = k) :
    groupEnd right k (z :: v) = [(z :: v).getLast (List.cons_ne_nil z v)] := by
  induction v generalizing z with
  | nil => rfl
  | cons w v ih =>
    have hz : readInt z right.offset = k := h z (List.mem_cons_self _ _)
    simp only [groupEnd, hz, if_true]
    rw [ih w (fun r hr => h r (List.mem_cons_of_mem _ hr))]
    simp [List.getLast_cons]

/-- C15 (sort-merge group hand-off): with the sorted left relation
`(2,"b"), (5,"c")` and the sorted right relation `(1,"w"), (2,"x"), (2,"y")`,
whose last run is the group with key 2, the first pass through the body of
the main loop processes the group with key 2 (it emits two tuples and `S`
moves on to key 5); after it `G` is not at end-of-relation (its status is
`OK`) and stands on `(2,"y")`, the last tuple of the group, whose key is 2. -/
theorem group_handoff_at_end_of_stream :
    (mergeStep sampleEnv lastRunLeft lastRunRight 6
        (primed (sampleEnv.SortHeapFile lastRunLeft.file 5 0).OpenScan.2
          (sampleEnv.SortHeapFile lastRunRight.file 5 0).OpenScan.2
          (sampleEnv.SortHeapFile lastRunRight.file 5 0).OpenScan.2)).map
      (fun c => c.state.heap) =
        some [[2, 0, 0, 0, 98, 2, 0, 0, 0, 120], [2, 0, 0, 0, 98, 2, 0, 0, 0, 121]] ∧
    (mergeStep sampleEnv lastRunLeft lastRunRight 6
        (primed (sampleEnv.SortHeapFile lastRunLeft.file 5 0).OpenScan.2
          (sampleEnv.SortHeapFile lastRunRight.file 5 0).OpenScan.2
          (sampleEnv.SortHeapFile lastRunRight.file 5 0).OpenScan.2)).map
      (fun c => c.state.leftRec) = some [5, 0, 0, 0, 99] ∧
    (mergeStep sampleEnv lastRunLeft lastRunRight 6
        (primed (sampleEnv.SortHeapFile lastRunLeft.file 5 0).OpenScan.2
          (sampleEnv.SortHeapFile lastRunRight.file 5 0).OpenScan.2
          (sampleEnv.SortHeapFile lastRunRight.file 5 0).OpenScan.2)).map
      (fun c => c.state.rightGStatus) = some Status.OK ∧
    (mergeStep sampleEnv lastRunLeft lastRunRight 6
        (primed (sampleEnv.SortHeapFile lastRunLeft.file 5 0).OpenScan.2
          (sampleEnv.SortHeapFile lastRunRight.file 5 0).OpenScan.2
          (sampleEnv.SortHeapFile lastRunRight.file 5 0).OpenScan.2)).map
      (fun c => c.state.rightGRec) = some [2, 0, 0, 0, 121] ∧
    (mergeStep sampleEnv lastRunLeft lastRunRight 6
        (primed (sampleEnv.SortHeapFile lastRunLeft.file 5 0).OpenScan.2
          (sampleEnv.SortHeapFile lastRunRight.file 5 0).OpenScan.2
          (sampleEnv.SortHeapFile lastRunRight.file 5 0).OpenScan.2)).map
      (fun c => readInt c.state.rightGRec lastRunRight.offset) = some 2 := by
  decide

/-! ### The output spec -/

/-- C19 (output spec untouched on failure): for each of the three
strategies, every run that returns, returns `FAIL` or `OK`; when it returns
`FAIL`, `out.file` holds the value it had after `JoinMethod::Execute`, and
when it returns `OK`, `out.file` is the newly created output relation. -/
theorem out_file_frame (env : Env) (blockSize fuel : Nat) (left right : JoinSpec) :
    (∀ res, BlockNestedLoops.Execute env blockSize fuel left right = some res → res.Framed) ∧
    (∀ res, IndexNestedLoops.Execute env fuel left right = some res → res.Framed) ∧
    (∀ res, SortMerge.Execute env fuel left right = some res → res.Framed) := by
  refine ⟨?_, ?_, ?_⟩
  · intro res h
    unfold BlockNestedLoops.Execute at h
    simp only at h
    split_ifs at h
    all_goals first
      | (cases h; exact Or.inl ⟨rfl, rfl⟩)
      | (split at h
         all_goals first
           | (cases h; exact Or.inl ⟨rfl, rfl⟩)
           | (cases h; exact Or.inr ⟨rfl, rfl⟩)
           | cases h)
  · intro res h
    unfold IndexNestedLoops.Execute at h
    simp only at h
    split_ifs at h
    all_goals first
      | (cases h; exact Or.inl ⟨rfl, rfl⟩)
      | (split at h
         all_goals first
           | (cases h; exact Or.inl ⟨rfl, rfl⟩)
           | cases h
           | (split at h
              all_goals first
                | (cases h; exact Or.inl ⟨rfl, rfl⟩)
                | (cases h; exact Or.inr ⟨rfl, rfl⟩)
                | cases h))
  · intro res h
    unfold SortMerge.Execute at h
    simp only at h
    split_ifs at h
    all_goals first
      | (cases h; exact Or.inl ⟨rfl, rfl⟩)
      | (split at h
         all_goals first
           | (cases h; exact Or.inl ⟨rfl, rfl⟩)
           | (cases h; exact Or.inr ⟨rfl, rfl⟩)
           | cases h)

theorem out_file_frame_witness :
    (failed [] 2 0).Framed ∧ (failed [] 0 0).Framed ∧
      JoinResult.Framed { status := Status.OK, outFile := some exampleOutput,
                          heap := exampleOutput, leftReads := 0, rightPasses := 0,
                          destroyCalls := 0 } :=
  ⟨(out_file_frame sampleEnv 2 7 exampleLeft unreadableRight).1 _ (by decide),
    (out_file_frame outputInsertFaultEnv 2 7 exampleLeft exampleRight).2.1 _ (by decide),
    (out_file_frame sampleEnv 2 7 exampleLeft exampleRight).2.2 _ (by decide)⟩

/-! ### Termination of the merge -/

theorem advanceLeft_ne_brk (left right : JoinSpec) :
    ∀ (fuel : Nat) (s s1 : SMState), advanceLeft left right fuel s ≠ some (Ctl.brk s1) := by
  intro fuel
  induction fuel with
  | zero => intro s s1; simp [advanceLeft]
  | succ k ih =>
    intro s s1
    unfold advanceLeft
    simp only
    split_ifs <;> first | exact ih _ _ | simp

theorem advanceG_ne_brk (left right : JoinSpec) :
    ∀ (fuel : Nat) (s s1 : SMState), advanceG left right fuel s ≠ some (Ctl.brk s1) := by
  intro fuel
  induction fuel with
  | zero => intro s s1; simp [advanceG]
  | succ k ih =>
    intro s s1
    unfold advanceG
    simp only
    split_ifs <;> first | exact ih _ _ | simp

theorem replayGroup_ne_brk (env : Env) (left right : JoinSpec) :
    ∀ (fuel : Nat) (s s1 : SMState),
      replayGroup env left right fuel s ≠ some (Ctl.brk s1) := by
  intro fuel
  induction fuel with
  | zero => intro s s1; simp [replayGroup]
  | succ k ih =>
    intro s s1
    unfold replayGroup
    simp only
    split_ifs <;> first | exact ih _ _ | simp

theorem groupLoop_ne_brk (env : Env) (left right : JoinSpec) (n : Nat) :
    ∀ (fuel : Nat) (s s1 : SMState),
      groupLoop env left right n fuel s ≠ some (Ctl.brk s1) := by
  intro fuel
  induction fuel with
  | zero => intro s s1; simp [groupLoop]
  | succ k ih =>
    intro s s1
    unfold groupLoop
    simp only
    split_ifs
    · simp
    · split
      · simp
      · simp
      · rename_i s2 hr
        exact absurd hr (replayGroup_ne_brk env left right n _ s2)
      · split_ifs <;> first | exact ih _ _ | simp
    · simp

/-- The body of the main loop leaves through one of its two `break`s only
with `S` or `G` at `DONE`. -/
theorem mergeStep_brk (env : Env) (left right : JoinSpec) (n : Nat) (s s1 : SMState)
    (h : mergeStep env left right n s = some (Ctl.brk s1)) :
    s1.leftStatus = Status.DONE ∨ s1.rightGStatus = Status.DONE := by
  unfold mergeStep at h
  split at h
  · cases h
  · cases h
  · rename_i s2 hr
    exact absurd hr (advanceLeft_ne_brk left right n s s2)
  · rename_i s2 hr
    split_ifs at h with h1
    · cases h
      exact Or.inl h1
    · split at h
      · cases h
      · cases h
      · rename_i s3 hr3
        exact absurd hr3 (advanceG_ne_brk left right n _ s3)
      · rename_i s3 hr3
        split_ifs at h with h2
        · cases h
          exact Or.inr h2
        · simp only at h
          split_ifs at h
          · cases h
          · split at h
            · cases h
            · cases h
            · rename_i s4 hr4
              exact absurd hr4 (groupLoop_ne_brk env left right n n _ s4)
            · cases h

theorem groupEnd_suffix (right : JoinSpec) (k : Int) (rs : List Record) :
    groupEnd right k rs <:+ rs := by
  obtain ⟨A, hA, _⟩ := groupEnd_split right k rs
  exact ⟨A, hA.symm⟩

/-- One pass through the body of the main loop in a fault-free run with `S`
on `x :: t` and `G` on `y :: u`: it leaves the loop with `S` or `G` at `DONE`,
or it ends with `S` and `G` on suffixes of where they stood, one of them
strictly shorter. -/
theorem mergeStep_progress (env : Env) (left right : JoinSpec)
    (hins : env.insertFaults = []) (n : Nat) (s : SMState) (x y : Record)
    (t u : List Record)
    (hlf : s.leftScan.file.scanFaults = []) (hgf : s.rightGScan.file.scanFaults = [])
    (hfile : s.rightScan.file = s.rightGScan.file)
    (hS : SPos s.leftStatus s.leftRec s.leftScan (x :: t))
    (hG : GPos s.rightGStatus s.rightGRid s.rightGRec s.rightGScan (y :: u))
    (hnL : t.length < n) (hnR : u.length < n) :
    (∃ s1, mergeStep env left right n s = some (Ctl.brk s1) ∧
      (s1.leftStatus = Status.DONE ∨ s1.rightGStatus = Status.DONE)) ∨
    (∃ s1 L1 R1, mergeStep env left right n s = some (Ctl.next s1) ∧
      SPos s1.leftStatus s1.leftRec s1.leftScan L1 ∧
      GPos s1.rightGStatus s1.rightGRid s1.rightGRec s1.rightGScan R1 ∧
      L1 <:+ x :: t ∧ R1 <:+ y :: u ∧
      L1.length + R1.length < (x :: t).length + (y :: u).length ∧
      s1.leftScan.file = s.leftScan.file ∧ s1.rightScan.file = s.rightScan.file ∧
      s1.rightGScan.file = s.rightGScan.file) := by
  obtain ⟨stepL, stepR⟩ := mergeStep_noFaults env left right hins n s x y t u hlf hgf
    hfile hS hG hnL hnR
  cases hL : (x :: t).dropWhile
      fun l => decide (readInt l left.offset < readInt y right.offset) with
  | nil =>
    obtain ⟨s1, e1, _⟩ := stepL hL
    exact Or.inl ⟨s1, e1, mergeStep_brk env left right n s s1 e1⟩
  | cons x1 t1 =>
    obtain ⟨stepR0, stepR1⟩ := stepR x1 t1 hL
    cases hR : (y :: u).dropWhile
        fun r => decide (readInt r right.offset < readInt x1 left.offset) with
    | nil =>
      obtain ⟨s1, e1, _⟩ := stepR0 hR
      exact Or.inl ⟨s1, e1, mergeStep_brk env left right n s s1 e1⟩
    | cons y1 u1 =>
      obtain ⟨s1, e1, _, e3, e4, e5, e6, e7⟩ := stepR1 y1 u1 hR
      have hsufL : (x1 :: t1) <:+ (x :: t) := by
        rw [← hL]; exact List.dropWhile_suffix _
      have hsufR : (y1 :: u1) <:+ (y :: u) := by
        rw [← hR]; exact List.dropWhile_suffix _
      have hlen1 := hsufL.length_le
      have hlen2 := hsufR.length_le
      simp only [List.length_cons] at hlen1 hlen2
      have hx1 : ¬ readInt x1 left.offset < readInt y right.offset := by
        simpa using dropWhile_head_false _ _ _ _ hL
      have hy1 : ¬ readInt y1 right.offset < readInt x1 left.offset := by
        simpa using dropWhile_head_false _ _ _ _ hR
      right
      refine ⟨s1, _, _, e1, e3, e4, (List.dropWhile_suffix _).trans hsufL, ?_, ?_,
        e5, e6, e7⟩
      · by_cases hc : readInt x1 left.offset = readInt y1 right.offset
        · rw [if_pos hc]
          exact (groupEnd_suffix _ _ _).trans hsufR
        · rw [if_neg hc]
          exact hsufR
      · by_cases hc : readInt x1 left.offset = readInt y1 right.offset
        · rw [if_pos hc]
          have hdl : ((x1 :: t1).dropWhile fun l =>
              decide (readInt l left.offset = readInt y1 right.offset)).length
                ≤ t1.length := by
            simp only [List.dropWhile_cons, hc, decide_True, if_true]
            exact (List.dropWhile_sublist _).length_le
          have hgl := groupEnd_length_le right (readInt y1 right.offset) (y1 :: u1)
          simp only [List.length_cons] at hgl ⊢
          omega
        · rw [if_neg hc]
          have hdl : ((x1 :: t1).dropWhile fun l =>
              decide (readInt l left.offset = readInt y1 right.offset)).length
                ≤ t1.length + 1 := by
            have := (List.dropWhile_sublist (l := x1 :: t1) fun l =>
              decide (readInt l left.offset = readInt y1 right.offset)).length_le
            simpa using this
          have hprog : t1.length + u1.length < t.length + u.length := by
            rcases dropWhile_eq_or_shorter
              (fun l => decide (readInt l left.offset < readInt y right.offset))
              (x :: t) with h1 | h1
            · rcases dropWhile_eq_or_shorter
                (fun r => decide (readInt r right.offset < readInt x1 left.offset))
                (y :: u) with h2 | h2
              · rw [hL] at h1
                rw [hR] at h2
                injection h1 with h1a h1b
                injection h2 with h2a h2b
                subst h1a h2a
                omega
              · rw [hR] at h2
                simp only [List.length_cons] at h2
                omega
            · rw [hL] at h1
              simp only [List.length_cons] at h1
              omega
          simp only [List.length_cons]
          omega

/-- The main loop in a fault-free run with `S` on `Ls` and `G` on `Rs` ends,
and it ends with `S` or `G` at `DONE`. -/
theorem mergeLoop_terminates (env : Env) (left right : JoinSpec)
    (hins : env.insertFaults = []) (n : Nat) :
    ∀ (m : Nat) (Ls Rs : List Record) (fuel : Nat) (s : SMState),
      Ls.length + Rs.length ≤ m → m < fuel → Ls.length + Rs.length ≤ n →
      s.leftScan.file.scanFaults = [] → s.rightGScan.file.scanFaults = [] →
      s.rightScan.file = s.rightGScan.file →
      SPos s.leftStatus s.leftRec s.leftScan Ls →
      GPos s.rightGStatus s.rightGRid s.rightGRec s.rightGScan Rs →
      ∃ s1, mergeLoop env left right n fuel s = some (Ctl.next s1) ∧
        (s1.leftStatus = Status.DONE ∨ s1.rightGStatus = Status.DONE) := by
  intro m
  induction m with
  | zero =>
    intro Ls Rs fuel s hm hfuel _ _ _ _ hS _
    obtain ⟨k, rfl⟩ : ∃ k, fuel = k + 1 := ⟨fuel - 1, by omega⟩
    have hLs : Ls = [] := List.eq_nil_of_length_eq_zero (by omega)
    subst hLs
    exact ⟨s, mergeLoop_done env left right n k s (Or.inl hS), Or.inl hS⟩
  | succ m ih =>
    intro Ls Rs fuel s hm hfuel hn hlf hgf hfile hS hG
    obtain ⟨k, rfl⟩ : ∃ k, fuel = k + 1 := ⟨fuel - 1, by omega⟩
    cases Ls with
    | nil => exact ⟨s, mergeLoop_done env left right n k s (Or.inl hS), Or.inl hS⟩
    | cons x t =>
      cases Rs with
      | nil => exact ⟨s, mergeLoop_done env left right n k s (Or.inr hG), Or.inr hG⟩
      | cons y u =>
        have hcond : s.leftStatus ≠ Status.DONE ∧ s.rightGStatus ≠ Status.DONE := by
          rw [hS.1, hG.1]; exact ⟨by decide, by decide⟩
        simp only [List.length_cons] at hm hn
        rcases mergeStep_progress env left right hins n s x y t u hlf hgf hfile hS hG
          (by omega) (by omega) with ⟨s1, e1, e2⟩ | ⟨s1, L1, R1, e1, e3, e4, _, _, e5, e6, e7, e8⟩
        · refine ⟨s1, ?_, e2⟩
          simp only [mergeLoop, e1, if_pos hcond]
        · simp only [List.length_cons] at e5
          obtain ⟨s2, f1, f2⟩ := ih L1 R1 k s1 (by omega) (by omega) (by omega)
            (by rw [e6]; exact hlf) (by rw [e8]; exact hgf) (by rw [e7, e8]; exact hfile)
            e3 e4
          refine ⟨s2, ?_, f2⟩
          simp only [mergeLoop, e1, if_pos hcond]
          exact f1

/-- C16 (sort-merge termination): in a run in which no call fails, from any
state of the main loop of `SortMerge::Execute` with `S` standing on the
records `Ls` and `G` on the records `Rs` of the two copies, the loop ends
(fuel beyond `|Ls| + |Rs|`) and it ends with `S` or `G` at end-of-relation;
while neither is at end-of-relation, one pass through the body either leaves
the loop with `S` or `G` at end-of-relation or ends with `S` and `G` on
suffixes of where they stood (neither moves back) of strictly smaller total
length (one of them has advanced). -/
theorem sort_merge_termination (env : Env) (left right : JoinSpec) (n fuel : Nat)
    (s : SMState) (Ls Rs : List Record) (hins : env.insertFaults = [])
    (hlf : s.leftScan.file.scanFaults = []) (hgf : s.rightGScan.file.scanFaults = [])
    (hfile : s.rightScan.file = s.rightGScan.file)
    (hS : SPos s.leftStatus s.leftRec s.leftScan Ls)
    (hG : GPos s.rightGStatus s.rightGRid s.rightGRec s.rightGScan Rs)
    (hn : Ls.length + Rs.length ≤ n) (hfuel : Ls.length + Rs.length < fuel) :
    (∃ s1, mergeLoop env left right n fuel s = some (Ctl.next s1) ∧
      (s1.leftStatus = Status.DONE ∨ s1.rightGStatus = Status.DONE)) ∧
    (Ls ≠ [] → Rs ≠ [] →
      (∃ s1, mergeStep env left right n s = some (Ctl.brk s1) ∧
        (s1.leftStatus = Status.DONE ∨ s1.rightGStatus = Status.DONE)) ∨
      (∃ s1 L1 R1, mergeStep env left right n s = some (Ctl.next s1) ∧
        SPos s1.leftStatus s1.leftRec s1.leftScan L1 ∧
        GPos s1.rightGStatus s1.rightGRid s1.rightGRec s1.rightGScan R1 ∧
        L1 <:+ Ls ∧ R1 <:+ Rs ∧ L1.length + R1.length < Ls.length + Rs.length)) := by
  refine ⟨mergeLoop_terminates env left right hins n _ Ls Rs fuel s (le_refl _) hfuel hn
    hlf hgf hfile hS hG, ?_⟩
  intro hL hR
  cases Ls with
  | nil => exact absurd rfl hL
  | cons x t =>
    cases Rs with
    | nil => exact absurd rfl hR
    | cons y u =>
      simp only [List.length_cons] at hn
      rcases mergeStep_progress env left right hins n s x y t u hlf hgf hfile hS hG
        (by omega) (by omega) with h | ⟨s1, L1, R1, e1, e3, e4, e5, e6, e7, _⟩
      · exact Or.inl h
      · exact Or.inr ⟨s1, L1, R1, e1, e3, e4, e5, e6, e7⟩

theorem sort_merge_termination_witness :
    (∃ s1, mergeLoop sampleEnv exampleLeft exampleRight 7 7
        (primed (sampleEnv.SortHeapFile exampleLeft.file 5 0).OpenScan.2
          (sampleEnv.SortHeapFile exampleRight.file 5 0).OpenScan.2
          (sampleEnv.SortHeapFile exampleRight.file 5 0).OpenScan.2) = some (Ctl.next s1) ∧
      (s1.leftStatus = Status.DONE ∨ s1.rightGStatus = Status.DONE)) ∧
    ((sampleEnv.SortHeapFile exampleLeft.file 5 0).recs ≠ [] →
      (sampleEnv.SortHeapFile exampleRight.file 5 0).recs ≠ [] →
      (∃ s1, mergeStep sampleEnv exampleLeft exampleRight 7
          (primed (sampleEnv.SortHeapFile exampleLeft.file 5 0).OpenScan.2
            (sampleEnv.SortHeapFile exampleRight.file 5 0).OpenScan.2
            (sampleEnv.SortHeapFile exampleRight.file 5 0).OpenScan.2) = some (Ctl.brk s1) ∧
        (s1.leftStatus = Status.DONE ∨ s1.rightGStatus = Status.DONE)) ∨
      (∃ s1 L1 R1, mergeStep sampleEnv exampleLeft exampleRight 7
          (primed (sampleEnv.SortHeapFile exampleLeft.file 5 0).OpenScan.2
            (sampleEnv.SortHeapFile exampleRight.file 5 0).OpenScan.2
            (sampleEnv.SortHeapFile exampleRight.file 5 0).OpenScan.2) = some (Ctl.next s1) ∧
        SPos s1.leftStatus s1.leftRec s1.leftScan L1 ∧
        GPos s1.rightGStatus s1.rightGRid s1.rightGRec s1.rightGScan R1 ∧
        L1 <:+ (sampleEnv.SortHeapFile exampleLeft.file 5 0).recs ∧
        R1 <:+ (sampleEnv.SortHeapFile exampleRight.file 5 0).recs ∧
        L1.length + R1.length < (sampleEnv.SortHeapFile exampleLeft.file 5 0).recs.length +
          (sampleEnv.SortHeapFile exampleRight.file 5 0).recs.length)) :=
  sort_merge_termination sampleEnv exampleLeft exampleRight 7 7
    (primed (sampleEnv.SortHeapFile exampleLeft.file 5 0).OpenScan.2
      (sampleEnv.SortHeapFile exampleRight.file 5 0).OpenScan.2
      (sampleEnv.SortHeapFile exampleRight.file 5 0).OpenScan.2)
    (sampleEnv.SortHeapFile exampleLeft.file 5 0).recs
    (sampleEnv.SortHeapFile exampleRight.file 5 0).recs
    rfl (by decide) (by decide) (by decide) (primed_SPos _ (by decide))
    (primed_GPos _ (by decide)) (by decide) (by decide)

/-! ### The key encoder -/

theorem lex_cons_iff (a b : Char) (l1 l2 : List Char) :
    a :: l1 < b :: l2 ↔ a < b ∨ (a = b ∧ l1 < l2) := by
  constructor
  · intro h
    cases h with
    | cons h1 => exact Or.inr ⟨rfl, h1⟩
    | rel h1 => exact Or.inl h1
  · rintro (h | ⟨rfl, h⟩)
    · exact List.Lex.rel h
    · exact List.Lex.cons h

theorem digitChar_lt_iff : ∀ a b : Fin 16,
    Nat.digitChar a.val < Nat.digitChar b.val ↔ a < b := by
  decide

theorem digitChar_eq_iff : ∀ a b : Fin 16,
    Nat.digitChar a.val = Nat.digitChar b.val ↔ a = b := by
  decide

theorem lt_iff_div_mod (q n m : Nat) :
    n < m ↔ n / q < m / q ∨ (n / q = m / q ∧ n % q < m % q) := by
  have hn := Nat.div_add_mod n q
  have hm := Nat.div_add_mod m q
  constructor
  · intro h
    rcases Nat.lt_or_ge (n / q) (m / q) with h1 | h1
    · exact Or.inl h1
    · have h2 : n / q ≤ m / q := Nat.div_le_div_right (le_of_lt h)
      have e : n / q = m / q := le_antisymm h2 h1
      rw [e] at hn
      exact Or.inr ⟨e, by omega⟩
  · rintro (h | ⟨e, h⟩)
    · exact Nat.lt_of_div_lt_div h
    · rw [e] at hn
      omega

theorem hexDigits_lt_iff : ∀ (w n m : Nat), n < 16 ^ w → m < 16 ^ w →
    (hexDigits w n < hexDigits w m ↔ n < m) := by
  intro w
  induction w with
  | zero =>
    intro n m hn hm
    simp only [pow_zero, Nat.lt_one_iff] at hn hm
    subst hn hm
    simp [hexDigits]
  | succ w ih =>
    intro n m hn hm
    have hq : 0 < 16 ^ w := Nat.pow_pos (by decide)
    have hdn : n / 16 ^ w < 16 := by
      rw [Nat.div_lt_iff_lt_mul hq]; rw [pow_succ] at hn; omega
    have hdm : m / 16 ^ w < 16 := by
      rw [Nat.div_lt_iff_lt_mul hq]; rw [pow_succ] at hm; omega
    have h1 := digitChar_lt_iff ⟨n / 16 ^ w, hdn⟩ ⟨m / 16 ^ w, hdm⟩
    have h2 := digitChar_eq_iff ⟨n / 16 ^ w, hdn⟩ ⟨m / 16 ^ w, hdm⟩
    simp only [Fin.mk_lt_mk, Fin.mk.injEq] at h1 h2
    simp only [hexDigits, Nat.mod_eq_of_lt hdn, Nat.mod_eq_of_lt hdm, lex_cons_iff, h1, h2,
      ih (n % 16 ^ w) (m % 16 ^ w) (Nat.mod_lt _ hq) (Nat.mod_lt _ hq)]
    exact (lt_iff_div_mod (16 ^ w) n m).symm

theorem hexDigits_length (w n : Nat) : (hexDigits w n).length = w := by
  induction w generalizing n with
  | zero => rfl
  | succ w ih => simp [hexDigits, ih]

/-- C14 (key-encoding order law), for the encoder modelled from the
specification: for all 32-bit signed integers `a` and `b`, `a < b` if and only
if `toString a` is lexicographically less than `toString b`; so `toString` is
injective on the full range, negative values included, and every key has 8
characters. -/
theorem key_encoding_order_law (a b : Int)
    (ha1 : -2147483648 ≤ a) (ha2 : a < 2147483648)
    (hb1 : -2147483648 ≤ b) (hb2 : b < 2147483648) :
    (a < b ↔ JoinMethod.toString a < JoinMethod.toString b) ∧
    (JoinMethod.toString a = JoinMethod.toString b → a = b) ∧
    (JoinMethod.toString a).length = 8 := by
  have hna : (a + 2147483648).toNat < 16 ^ 8 := by norm_num; omega
  have hnb : (b + 2147483648).toNat < 16 ^ 8 := by norm_num; omega
  have hab := hexDigits_lt_iff 8 _ _ hna hnb
  have hba := hexDigits_lt_iff 8 _ _ hnb hna
  have hlt : a < b ↔ JoinMethod.toString a < JoinMethod.toString b := by
    unfold JoinMethod.toString
    rw [hab]
    omega
  refine ⟨hlt, ?_, hexDigits_length _ _⟩
  intro e
  unfold JoinMethod.toString at e
  have h1 : ¬ (a + 2147483648).toNat < (b + 2147483648).toNat := by
    rw [← hab, e]; exact lt_irrefl _
  have h2 : ¬ (b + 2147483648).toNat < (a + 2147483648).toNat := by
    rw [← hba, e]; exact lt_irrefl _
  omega

theorem key_encoding_order_law_witness :
    ((-5 : Int) < 3 ↔ JoinMethod.toString (-5) < JoinMethod.toString 3) ∧
    (JoinMethod.toString (-5) = JoinMethod.toString 3 → (-5 : Int) = 3) ∧
    (JoinMethod.toString (-5)).length = 8 :=
  key_encoding_order_law (-5) 3 (by decide) (by decide) (by decide) (by decide)

/-! ### The log of a block-nested-loop run -/

theorem fillBlockLog_erase (blockSize : Nat) :
    ∀ (fuel : Nat) (s : BNLState) (log : Log),
      (fillBlockLog blockSize fuel s log).map Prod.fst = fillBlock blockSize fuel s := by
  intro fuel
  induction fuel with
  | zero => intro s log; rfl
  | succ k ih =>
    intro s log
    unfold fillBlockLog fillBlock
    simp only
    split_ifs <;> first | exact ih _ _ | rfl

theorem matchBlockLog_erase (env : Env) (left right : JoinSpec) (r : Record) :
    ∀ (block heap : List Record) (log : Log),
      ((matchBlockLog env left right r block heap log).1,
        (matchBlockLog env left right r block heap log).2.1) =
      matchBlock env left right r block heap := by
  intro block
  induction block with
  | nil => intro heap log; rfl
  | cons l rest ih =>
    intro heap log
    unfold matchBlockLog matchBlock
    simp only
    split_ifs <;> first | exact ih _ _ | rfl

theorem scanRightLog_erase (env : Env) (left right : JoinSpec) :
    ∀ (fuel : Nat) (s : BNLState) (log : Log),
      (scanRightLog env left right fuel s log).map Prod.fst =
        scanRight env left right fuel s := by
  intro fuel
  induction fuel with
  | zero => intro s log; rfl
  | succ k ih =>
    intro s log
    unfold scanRightLog scanRight
    simp only
    have hm := fun heap lg =>
      matchBlockLog_erase env left right (s.rightScan.GetNext 0 s.rightRec).recPtr s.block heap lg
    split_ifs with h1 h2 h3 h4 h4
    · rfl
    · rfl
    · rw [← hm _ (log ++ [(Call.rightGetNext, (s.rightScan.GetNext 0 s.rightRec).status)])]
      exact ih _ _
    · rw [← hm _ (log ++ [(Call.rightGetNext, (s.rightScan.GetNext 0 s.rightRec).status)])] at h4
      exact absurd h3 h4
    · rw [← hm _ (log ++ [(Call.rightGetNext, (s.rightScan.GetNext 0 s.rightRec).status)])] at h4
      exact absurd h4 h3
    · rw [← hm _ (log ++ [(Call.rightGetNext, (s.rightScan.GetNext 0 s.rightRec).status)])]
      rfl

theorem blockLoopLog_erase (env : Env) (blockSize : Nat) (left right : JoinSpec)
    (first : RecordID) (n : Nat) :
    ∀ (fuel : Nat) (s : BNLState) (log : Log),
      (blockLoopLog env blockSize left right first n fuel s log).map Prod.fst =
        blockLoop env blockSize left right first n fuel s := by
  intro fuel
  induction fuel with
  | zero => intro s log; rfl
  | succ k ih =>
    intro s log
    unfold blockLoopLog blockLoop
    have h1 := fillBlockLog_erase blockSize n s log
    rcases hf : fillBlockLog blockSize n s log with _ | ⟨c, log1⟩
    · rw [hf] at h1
      rw [← h1]
      rfl
    · rw [hf] at h1
      rw [← h1]
      cases c with
      | brk s1 => rfl
      | abort s1 => rfl
      | next s1 =>
        simp only [Option.map_some']
        have h2 := scanRightLog_erase env left right n { s1 with rightRec := [] } log1
        rcases hs : scanRightLog env left right n { s1 with rightRec := [] } log1
          with _ | ⟨c2, log2⟩
        · rw [hs] at h2
          rw [← h2]
          rfl
        · rw [hs] at h2
          rw [← h2]
          cases c2 with
          | brk s2 => rfl
          | abort s2 => rfl
          | next s2 =>
            simp only [Option.map_some']
            split_ifs
            · rfl
            · exact ih _ _

/-- The logged run and the run agree: dropping the log of
`BlockNestedLoops.ExecuteLog` gives `BlockNestedLoops.Execute`. -/
theorem ExecuteLog_erase (env : Env) (blockSize fuel : Nat) (left right : JoinSpec) :
    (BlockNestedLoops.ExecuteLog env blockSize fuel left right).map Prod.fst =
      BlockNestedLoops.Execute env blockSize fuel left right := by
  unfold BlockNestedLoops.ExecuteLog BlockNestedLoops.Execute
  simp only
  split_ifs with h1 h2 h3
  · rfl
  · rfl
  · rfl
  · generalize (⟨left.file.OpenScan.2, right.file.OpenScan.2, [], Status.DONE,
      right.file.OpenScan.1, [], [], [], 0, 0⟩ : BNLState) = s0
    generalize hl : ([(Call.newHeapFile, env.newHeapSt)] ++
        [(Call.openLeft, left.file.OpenScan.1)] ++
        [(Call.openRight, right.file.OpenScan.1)] : Log) = lg
    have h := blockLoopLog_erase env blockSize left right right.file.OpenScan.2.currRid fuel
      fuel s0 lg
    rcases hb : blockLoopLog env blockSize left right right.file.OpenScan.2.currRid fuel
      fuel s0 lg with _ | ⟨c, log1⟩
    · rw [hb] at h
      rw [← h]
      rfl
    · rw [hb] at h
      rw [← h]
      cases c <;> rfl

/-- The outcomes of `GetNext`: on `OK` the scan moved on by one tuple;
otherwise the scan is unchanged. -/
theorem GetNext_cases (sc : Scan) (rid : RecordID) (rec : Record) :
    ((sc.GetNext rid rec).status = Status.OK ∧
      (sc.GetNext rid rec).scan.remaining + 1 = sc.remaining) ∨
    ((sc.GetNext rid rec).status ≠ Status.OK ∧ (sc.GetNext rid rec).scan = sc) := by
  unfold Scan.GetNext
  split
  · refine Or.inr ⟨?_, rfl⟩
    intro h
    cases h
  · rcases hg : sc.file.recs.get? sc.currRid with _ | r
    · refine Or.inr ⟨?_, rfl⟩
      intro h
      cases h
    · refine Or.inl ⟨rfl, ?_⟩
      rcases Nat.lt_or_ge sc.currRid sc.file.recs.length with hlt | hge
      · show sc.file.recs.length - (sc.currRid + 1) + 1 = sc.file.recs.length - sc.currRid
        exact Nat.succ_pred_eq_of_pos (Nat.sub_pos_of_lt hlt) ▸ by
          rw [Nat.sub_succ]
      · rw [List.get?_eq_none.mpr hge] at hg
        cases hg

theorem remaining_le (sc : Scan) : sc.remaining ≤ sc.file.recs.length :=
  Nat.sub_le _ _

theorem any_unexpected_append (log : Log) (e : Call × Status) :
    (log ++ [e]).any unexpected = (log.any unexpected || unexpected e) := by
  simp [List.any_append]

/-- The block fill with any faults: it ends within `remaining + 1` steps,
and it hands back `abort` exactly when a `GetNext` it made returned neither
`OK` nor `DONE`. -/
theorem fillBlockLog_spec (blockSize : Nat) :
    ∀ (fuel : Nat) (s : BNLState) (log : Log),
      s.leftScan.remaining < fuel →
      ∃ c log1, fillBlockLog blockSize fuel s log = some (c, log1) ∧
        log1.any unexpected = (log.any unexpected || !c.completed) ∧
        (blockSize ≤ s.block.length → c = Ctl.next s) ∧
        (∀ s1, c = Ctl.next s1 →
          s1.rightScan = s.rightScan ∧
          (s1.leftStatus = Status.DONE ∨ (blockSize ≤ s.block.length ∧ s1 = s) ∨
            s1.leftScan.remaining < s.leftScan.remaining)) := by
  intro fuel
  induction fuel with
  | zero => intro s log h; omega
  | succ k ih =>
    intro s log hfuel
    unfold fillBlockLog
    simp only
    by_cases hb : s.block.length < blockSize
    · rw [if_pos hb]
      rcases GetNext_cases s.leftScan 0 s.leftRec with ⟨hok, hrem⟩ | ⟨hne, hsc⟩
      · rw [if_pos hok]
        obtain ⟨c, log1, hrun, hlog, _, hfr⟩ := ih
          { s with leftStatus := (s.leftScan.GetNext 0 s.leftRec).status,
                   leftScan := (s.leftScan.GetNext 0 s.leftRec).scan,
                   leftRec := (s.leftScan.GetNext 0 s.leftRec).recPtr,
                   leftReads := s.leftReads + 1,
                   block := s.block ++ [(s.leftScan.GetNext 0 s.leftRec).recPtr] }
          (log ++ [(Call.leftGetNext, (s.leftScan.GetNext 0 s.leftRec).status)])
          (by
            show (s.leftScan.GetNext 0 s.leftRec).scan.remaining < k
            omega)
        refine ⟨c, log1, hrun, ?_, fun h => absurd h (by omega), ?_⟩
        · rw [hlog, any_unexpected_append, hok]
          simp [unexpected]
        · intro s1 hs1
          obtain ⟨h2, h3⟩ := hfr s1 hs1
          refine ⟨h2, ?_⟩
          rcases h3 with h3 | h3 | h3
          · exact Or.inl h3
          · right; right
            rw [h3.2]
            show (s.leftScan.GetNext 0 s.leftRec).scan.remaining < _
            omega
          · right; right
            have h4 : s1.leftScan.remaining <
                (s.leftScan.GetNext 0 s.leftRec).scan.remaining := h3
            omega
      · rw [if_neg hne]
        by_cases hd : (s.leftScan.GetNext 0 s.leftRec).status = Status.DONE
        · rw [if_pos hd]
          refine ⟨_, _, rfl, ?_, fun h => absurd h (by omega), ?_⟩
          · rw [any_unexpected_append, hd]
            simp [unexpected, Ctl.completed]
          · intro s1 hs1
            cases hs1
            exact ⟨rfl, Or.inl hd⟩
        · rw [if_neg hd]
          refine ⟨_, _, rfl, ?_, fun h => absurd h (by omega), ?_⟩
          · rw [any_unexpected_append]
            simp [unexpected, Ctl.completed, hne, hd]
          · intro s1 hs1
            cases hs1
    · rw [if_neg hb]
      refine ⟨_, _, rfl, ?_, fun _ => rfl, ?_⟩
      · simp [Ctl.completed]
      · intro s1 hs1
        cases hs1
        exact ⟨rfl, Or.inr (Or.inl ⟨Nat.le_of_not_lt hb, rfl⟩)⟩

/-- The comparison of one right record with the block, with any faults: it
stops with `false` exactly when an `InsertRecord` it made did not return
`OK`. -/
theorem matchBlockLog_spec (env : Env) (left right : JoinSpec) (r : Record) :
    ∀ (block heap : List Record) (log : Log),
      (matchBlockLog env left right r block heap log).2.2.any unexpected =
        (log.any unexpected || !(matchBlockLog env left right r block heap log).1) := by
  intro block
  induction block with
  | nil => intro heap log; simp [matchBlockLog]
  | cons l rest ih =>
    intro heap log
    unfold matchBlockLog
    simp only
    split_ifs with h1 h2
    · rw [any_unexpected_append]
      simp [unexpected, h2]
    · rw [ih, any_unexpected_append]
      simp only [ne_eq, Decidable.not_not] at h2
      simp [unexpected, h2]
    · exact ih _ _

/-- One pass over the right scan with any faults: it ends within
`remaining + 1` steps, and it hands back `abort` exactly when a `GetNext` on
the right scan returned neither `OK` nor `DONE` or an `InsertRecord` did not
return `OK`. -/
theorem scanRightLog_spec (env : Env) (left right : JoinSpec) :
    ∀ (fuel : Nat) (s : BNLState) (log : Log),
      s.rightScan.remaining < fuel →
      ∃ c log1, scanRightLog env left right fuel s log = some (c, log1) ∧
        log1.any unexpected = (log.any unexpected || !c.completed) ∧
        (∀ s1, c = Ctl.next s1 →
          s1.leftScan = s.leftScan ∧ s1.leftStatus = s.leftStatus ∧
          s1.rightScan.file = s.rightScan.file) := by
  intro fuel
  induction fuel with
  | zero => intro s log h; omega
  | succ k ih =>
    intro s log hfuel
    unfold scanRightLog
    simp only
    have hfile := GetNext_file s.rightScan 0 s.rightRec
    by_cases hd : (s.rightScan.GetNext 0 s.rightRec).status = Status.DONE
    · rw [if_pos hd]
      refine ⟨_, _, rfl, ?_, ?_⟩
      · rw [any_unexpected_append, hd]
        simp [unexpected, Ctl.completed]
      · intro s1 hs1
        cases hs1
        exact ⟨rfl, rfl, hfile⟩
    · rw [if_neg hd]
      rcases GetNext_cases s.rightScan 0 s.rightRec with ⟨hok, hrem⟩ | ⟨hne, hsc⟩
      · rw [if_neg (not_not.mpr hok)]
        have hm := matchBlockLog_spec env left right (s.rightScan.GetNext 0 s.rightRec).recPtr
          s.block s.heap (log ++ [(Call.rightGetNext, (s.rightScan.GetNext 0 s.rightRec).status)])
        rw [any_unexpected_append] at hm
        by_cases hmb : (matchBlockLog env left right (s.rightScan.GetNext 0 s.rightRec).recPtr
          s.block s.heap
          (log ++ [(Call.rightGetNext, (s.rightScan.GetNext 0 s.rightRec).status)])).1 = true
        · rw [if_pos hmb]
          obtain ⟨c, log1, hrun, hlog, hfr⟩ := ih
            { s with rightStatus := (s.rightScan.GetNext 0 s.rightRec).status,
                     rightScan := (s.rightScan.GetNext 0 s.rightRec).scan,
                     rightRec := (s.rightScan.GetNext 0 s.rightRec).recPtr,
                     heap := (matchBlockLog env left right
                       (s.rightScan.GetNext 0 s.rightRec).recPtr s.block s.heap
                       (log ++ [(Call.rightGetNext,
                         (s.rightScan.GetNext 0 s.rightRec).status)])).2.1 }
            (matchBlockLog env left right (s.rightScan.GetNext 0 s.rightRec).recPtr s.block
              s.heap (log ++ [(Call.rightGetNext,
                (s.rightScan.GetNext 0 s.rightRec).status)])).2.2
            (by
              show (s.rightScan.GetNext 0 s.rightRec).scan.remaining < k
              omega)
          refine ⟨c, log1, hrun, ?_, ?_⟩
          · rw [hlog, hm, hmb]
            simp [unexpected, hok]
          · intro s1 hs1
            obtain ⟨h1, h2, h3⟩ := hfr s1 hs1
            exact ⟨h1, h2, h3.trans hfile⟩
        · rw [if_neg hmb]
          refine ⟨_, _, rfl, ?_, ?_⟩
          · rw [hm]
            simp only [Bool.not_eq_true] at hmb
            simp [hmb, Ctl.completed]
          · intro s1 hs1
            cases hs1
      · rw [if_pos hne]
        refine ⟨_, _, rfl, ?_, ?_⟩
        · rw [any_unexpected_append]
          simp [unexpected, Ctl.completed, hne, hd]
        · intro s1 hs1
          cases hs1

/-- The loop over the blocks with any faults: it ends within `remaining + 1`
rounds, and it hands back `next` exactly when every call it made returned an
expected status. -/
theorem blockLoopLog_spec (env : Env) (blockSize : Nat) (left right : JoinSpec)
    (first : RecordID) (n : Nat) :
    ∀ (fuel : Nat) (s : BNLState) (log : Log),
      s.leftScan.remaining < fuel → s.leftScan.remaining < n →
      s.rightScan.file.recs.length < n → s.block = [] →
      (blockSize = 0 → s.leftStatus = Status.DONE) →
      ∃ c log1, blockLoopLog env blockSize left right first n fuel s log = some (c, log1) ∧
        log1.any unexpected = (log.any unexpected || !c.completed) := by
  intro fuel
  induction fuel with
  | zero => intro s log h; omega
  | succ k ih =>
    intro s log hfuel hn hR hblock hzero
    unfold blockLoopLog
    obtain ⟨c1, lg1, hrun1, hlog1, hfull, hfr1⟩ := fillBlockLog_spec blockSize n s log hn
    rw [hrun1]
    cases c1 with
    | brk s1 => exact ⟨_, _, rfl, hlog1⟩
    | abort s1 => exact ⟨_, _, rfl, hlog1⟩
    | next s1 =>
      simp only
      obtain ⟨hr1, hcase⟩ := hfr1 s1 rfl
      have hlg1 : lg1.any unexpected = log.any unexpected := by
        rw [hlog1]
        simp [Ctl.completed]
      obtain ⟨c2, lg2, hrun2, hlog2, hfr2⟩ := scanRightLog_spec env left right n
        { s1 with rightRec := [] } lg1
        (by
          show s1.rightScan.remaining < n
          rw [hr1]
          exact Nat.lt_of_le_of_lt (remaining_le _) hR)
      rw [hrun2]
      cases c2 with
      | brk s2 =>
        refine ⟨_, _, rfl, ?_⟩
        rw [hlog2, hlg1]
      | abort s2 =>
        refine ⟨_, _, rfl, ?_⟩
        rw [hlog2, hlg1]
      | next s2 =>
        simp only
        obtain ⟨hl2, hst2, hrf2⟩ := hfr2 s2 rfl
        have hlg2 : lg2.any unexpected = log.any unexpected := by
          rw [hlog2, hlg1]
          simp [Ctl.completed]
        by_cases hd : s2.leftStatus = Status.DONE
        · rw [if_pos hd]
          refine ⟨_, _, rfl, ?_⟩
          rw [hlg2]
          simp [Ctl.completed]
        · rw [if_neg hd]
          have hd1 : s1.leftStatus ≠ Status.DONE := fun h => hd (hst2.trans h)
          have hdec : s1.leftScan.remaining < s.leftScan.remaining := by
            rcases hcase with h | ⟨hb, h⟩ | h
            · exact absurd h hd1
            · rw [hblock] at hb
              rw [h] at hd1
              exact absurd (hzero (Nat.le_zero.mp hb)) hd1
            · exact h
          have hl2r : s2.leftScan.remaining = s1.leftScan.remaining := by
            rw [hl2]
          obtain ⟨c, lg, hrun, hlog⟩ := ih
            { s2 with rightScan := s2.rightScan.MoveTo first, block := [] } lg2
            (by
              show s2.leftScan.remaining < k
              omega)
            (by
              show s2.leftScan.remaining < n
              omega)
            (by
              show s2.rightScan.file.recs.length < n
              rw [hrf2]
              show s1.rightScan.file.recs.length < n
              rw [hr1]
              exact hR)
            rfl
            (by
              intro hb0
              have h1 : Ctl.next s1 = Ctl.next s := hfull (by rw [hb0]; exact Nat.zero_le _)
              cases h1
              exact absurd (hzero hb0) hd1)
          refine ⟨c, lg, hrun, ?_⟩
          rw [hlog, hlg2]

/-- A block-nested-loop run with any faults and any block size returns (fuel
beyond `|left| + |right|`), with `OK` when every storage call returned an
expected status and with `FAIL` when one of them did not. -/
theorem ExecuteLog_spec (env : Env) (blockSize fuel : Nat) (left right : JoinSpec)
    (hfuel : left.file.recs.length + right.file.recs.length < fuel) :
    ∃ res log, BlockNestedLoops.ExecuteLog env blockSize fuel left right = some (res, log) ∧
      ((log.any unexpected = false ∧ res.status = Status.OK) ∨
       (log.any unexpected = true ∧ res.status = Status.FAIL)) := by
  unfold BlockNestedLoops.ExecuteLog
  simp only
  by_cases h1 : env.newHeapSt = Status.OK
  · rw [if_neg (not_not.mpr h1)]
    by_cases h2 : left.file.OpenScan.1 = Status.OK
    · rw [if_neg (not_not.mpr h2)]
      by_cases h3 : right.file.OpenScan.1 = Status.OK
      · rw [if_neg (not_not.mpr h3)]
        have hL : left.file.OpenScan.2.remaining ≤ left.file.recs.length := remaining_le _
        obtain ⟨c, lg, hrun, hlog⟩ := blockLoopLog_spec env blockSize left right
          right.file.OpenScan.2.currRid fuel fuel
          ⟨left.file.OpenScan.2, right.file.OpenScan.2, [], Status.DONE,
            right.file.OpenScan.1, [], [], [], 0, 0⟩
          ([(Call.newHeapFile, env.newHeapSt)] ++ [(Call.openLeft, left.file.OpenScan.1)] ++
            [(Call.openRight, right.file.OpenScan.1)])
          (by
            show left.file.OpenScan.2.remaining < fuel
            omega)
          (by
            show left.file.OpenScan.2.remaining < fuel
            omega)
          (by
            show right.file.recs.length < fuel
            omega)
          rfl (fun _ => rfl)
        rw [hrun]
        have hl0 : List.any ([(Call.newHeapFile, env.newHeapSt)] ++
            [(Call.openLeft, left.file.OpenScan.1)] ++
            [(Call.openRight, right.file.OpenScan.1)]) unexpected = false := by
          rw [h1, h2, h3]
          rfl
        rw [hl0] at hlog
        cases c with
        | next s => exact ⟨_, _, rfl, Or.inl ⟨by rw [hlog]; rfl, rfl⟩⟩
        | brk s => exact ⟨_, _, rfl, Or.inr ⟨by rw [hlog]; rfl, rfl⟩⟩
        | abort s => exact ⟨_, _, rfl, Or.inr ⟨by rw [hlog]; rfl, rfl⟩⟩
      · rw [if_pos h3]
        refine ⟨_, _, rfl, Or.inr ⟨?_, rfl⟩⟩
        simp [unexpected, h3]
    · rw [if_pos h2]
      refine ⟨_, _, rfl, Or.inr ⟨?_, rfl⟩⟩
      simp [unexpected, h2]
  · rw [if_pos h1]
    refine ⟨_, _, rfl, Or.inr ⟨?_, rfl⟩⟩
    simp [unexpected, h1]

/-- Claim C11: `BlockNestedLoops::Execute` returns: with any faults of the
storage calls and any block size, a run with fuel beyond `|left| + |right|`
ends with `OK` or with `FAIL`; it ends with `FAIL` if and only if one of the
storage calls it made failed, that is, creating the output file or opening
the left or the right scan did not return `OK`, a `GetNext` on the left or the
right scan returned neither `OK` nor `DONE`, or an `InsertRecord` did not
return `OK` (`unexpected` on the log of the calls of the run); in every other
run it ends with `OK`.  The run with the log is the run: dropping the log of
`ExecuteLog` gives `Execute`. -/
theorem block_nested_loops_fail_iff (env : Env) (blockSize fuel : Nat)
    (left right : JoinSpec)
    (hfuel : left.file.recs.length + right.file.recs.length < fuel) :
    (BlockNestedLoops.ExecuteLog env blockSize fuel left right).map Prod.fst =
      BlockNestedLoops.Execute env blockSize fuel left right ∧
    (statusOf (BlockNestedLoops.Execute env blockSize fuel left right) = some Status.OK ∨
      statusOf (BlockNestedLoops.Execute env blockSize fuel left right) = some Status.FAIL) ∧
    (statusOf (BlockNestedLoops.Execute env blockSize fuel left right) = some Status.FAIL ↔
      (BlockNestedLoops.ExecuteLog env blockSize fuel left right).map
        (fun r => r.2.any unexpected) = some true) ∧
    (statusOf (BlockNestedLoops.Execute env blockSize fuel left right) = some Status.OK ↔
      (BlockNestedLoops.ExecuteLog env blockSize fuel left right).map
        (fun r => r.2.any unexpected) = some false) := by
  have he := ExecuteLog_erase env blockSize fuel left right
  obtain ⟨res, log, hrun, hcase⟩ := ExecuteLog_spec env blockSize fuel left right hfuel
  rw [hrun] at he
  refine ⟨by rw [hrun]; exact he, ?_⟩
  rw [← he, hrun]
  simp only [statusOf, Option.map_some', Option.some.injEq]
  rcases hcase with ⟨ha, hs⟩ | ⟨ha, hs⟩
  · rw [ha, hs]
    simp
  · rw [ha, hs]
    simp

theorem block_nested_loops_fail_iff_witness :
    exampleLeft.file.recs.length + unreadableRight.file.recs.length < 7 ∧
    ((BlockNestedLoops.ExecuteLog sampleEnv 2 7 exampleLeft unreadableRight).map Prod.fst =
      BlockNestedLoops.Execute sampleEnv 2 7 exampleLeft unreadableRight ∧
    (statusOf (BlockNestedLoops.Execute sampleEnv 2 7 exampleLeft unreadableRight) =
        some Status.OK ∨
      statusOf (BlockNestedLoops.Execute sampleEnv 2 7 exampleLeft unreadableRight) =
        some Status.FAIL) ∧
    (statusOf (BlockNestedLoops.Execute sampleEnv 2 7 exampleLeft unreadableRight) =
        some Status.FAIL ↔
      (BlockNestedLoops.ExecuteLog sampleEnv 2 7 exampleLeft unreadableRight).map
        (fun r => r.2.any unexpected) = some true) ∧
    (statusOf (BlockNestedLoops.Execute sampleEnv 2 7 exampleLeft unreadableRight) =
        some Status.OK ↔
      (BlockNestedLoops.ExecuteLog sampleEnv 2 7 exampleLeft unreadableRight).map
        (fun r => r.2.any unexpected) = some false)) :=
  ⟨by decide, block_nested_loops_fail_iff sampleEnv 2 7 exampleLeft unreadableRight (by decide)⟩

end Joins
